import Mathlib

/-!
Verification of the ECC codec core of the Error-Code-Correction repository.

This file gives a shallow embedding, in Lean, of the three codec families of
the repository and proves the specification claims about them:

* `BCH63` — the (63,51) double-error-correcting BCH codec of
  `src/src/bch63.cpp`.  Codewords are 63-bit values; a `Codeword`'s bit
  array `bits[i]` is modelled as `Nat.testBit` of a natural number below
  `2 ^ 63` (bit `i` of the number is `bits[i]`).
* `ecc` — the width-generic Hamming SEC-DED codec of
  `src/src/hamming_simulator.tpp`, instantiated at the 32-bit and 64-bit
  word traits of `hamming_sim_configs.hpp`.  Codewords use 1-indexed
  positions `1 .. TOTAL_BITS`; position `pos` is bit `pos - 1` of a natural
  number, exactly as in `detail::CodeWordStorage`.
* `SecDaec64` — the SEC-DAEC codec.  The repository carries three variants
  of this class; the one embedded here is the well-defined `BitVector`-based
  variant with the exhaustively built adjacency table (the variant whose
  `CodeWord` holds a 128-bit `BitVector`), which §9 of the specification
  designates as canonical.  The `uint64_t`-storage variant in
  `src/SecDaec64.hpp` performs shifts by amounts ≥ 64 (positions 64..72 of
  the 73-bit codeword), which C++ leaves undefined, so it has no exact
  machine semantics to embed; the decode logic of both variants is
  line-for-line the same.

Machine integers are embedded as `Nat` with explicit masking where the
source masks; fallible paths are modelled by the same flag fields the
source uses.
-/

namespace BCH63

/-! ### Galois-field tables

`BCH63::buildField` fills `alpha_to_[i] = α^i` iteratively from the
primitive polynomial x^6 + x + 1 (`PRIMITIVE_POLY = 0x43`) and inverts the
table into `index_of_`.  `buildAlpha` is that iteration; the codec's
constructed tables are the packed constants `alphaPacked`/`indexPacked`
(6 bits per entry), proven to agree with the iteration in
`alpha_to_spec` and `index_of_spec` below. -/

/-- Iterative construction of `alpha_to_` from `BCH63::buildField`:
start from α^0 = 1 and repeatedly shift left, reducing with
`PRIMITIVE_POLY = 0x43` when bit `M = 6` appears, masking to 6 bits. -/
def buildAlpha : Nat → Nat
  | 0 => 1
  | n + 1 =>
    let next := buildAlpha n <<< 1
    (if next &&& (1 <<< 6) ≠ 0 then next ^^^ 0x43 else next) &&& 63

/-- Construction-time table `alpha_to_`, packed 6 bits per entry. -/
def alphaPacked : Nat := 324948975432320371080866489111452917039159851672880359415289456819899054707732937472241880484391502374330200768641

/-- Construction-time table `index_of_`, packed 6 bits per entry.  Entry 0
is unused (the C++ stores the sentinel −1 there; every caller guards
against a zero argument before consulting the table). -/
def indexPacked : Nat := 36265302912251042761276606936058182247505748789568104052998051136038197467810438868035313606317156396572587524100096

/-- Table lookup `alpha_to_[i]`. -/
def alpha_to (i : Nat) : Nat := (alphaPacked >>> (6 * i)) &&& 63

/-- Table lookup `index_of_[v]`. -/
def index_of (v : Nat) : Nat := (indexPacked >>> (6 * v)) &&& 63

/-- `BCH63::gfMul`: product in GF(2^6) through the log/antilog tables. -/
def gfMul (a b : Nat) : Nat :=
  if a = 0 ∨ b = 0 then 0 else alpha_to ((index_of a + index_of b) % 63)

/-- `BCH63::gfInv`: inverse in GF(2^6).  The C++ throws on 0; the decoder
only ever inverts the nonzero discrepancy `b`, so the 0 branch is
unreachable and modelled as 0. -/
def gfInv (a : Nat) : Nat :=
  if a = 0 then 0 else alpha_to ((63 - index_of a) % 63)

/-- The packed `alpha_to_` table agrees with the `buildField` iteration. -/
theorem alpha_to_spec : ∀ i < 63, alpha_to i = buildAlpha i := by decide

/-- The packed `index_of_` table inverts `alpha_to_`, as `buildField`
arranges: `index_of_[alpha_to_[i]] = i`. -/
theorem index_of_spec : ∀ i < 63, index_of (alpha_to i) = i := by decide

/-! ### Generator polynomial

`BCH63::buildGenerator` multiplies together the minimal polynomials of α
and α³ (each obtained from its conjugacy class under squaring) and packs
the result into `generator_mask_`; `generator_degree_ = 12` and
`k_ = 63 − 12 = 51` follow.  The pipeline below mirrors that construction;
`generator_mask_spec` then fixes the constructed constants. -/

/-- Conjugacy class of an exponent under doubling mod 63, from
`BCH63::minimalPolynomialFor` (the do–while loop; 63 is ample fuel since
classes have at most 6 members). -/
def conjClassAux (start : Nat) : Nat → Nat → List Nat
  | _, 0 => []
  | current, fuel + 1 =>
    let next := (current * 2) % 63
    current :: (if next = start % 63 then [] else conjClassAux start next fuel)

/-- Conjugacy class of `exponent`, starting from `exponent % 63`. -/
def conjClass (exponent : Nat) : List Nat := conjClassAux exponent (exponent % 63) 63

/-- `BCH63::minimalPolynomialFromClass`: expand ∏ (x − α^e) over the class
members with GF(2^6) coefficient arithmetic, then trim trailing zeros.
The C++ asserts the resulting coefficients are binary (they are: see
`generator_coeffs_binary`). -/
def minimalPolynomialFromClass (cls : List Nat) : List Nat :=
  let poly := cls.foldl (fun poly exp =>
    let root := alpha_to exp
    (List.range (poly.length + 1)).map (fun i =>
      (if i < poly.length ∧ poly.getD i 0 ≠ 0 then gfMul (poly.getD i 0) root else 0) ^^^
      (if 1 ≤ i then poly.getD (i - 1) 0 else 0))) [1]
  let r := poly.reverse.dropWhile (· = 0)
  if r.isEmpty then [0] else r.reverse

/-- `BCH63::polyMultiplyGF2`: GF(2) polynomial product (convolution mod 2),
trimmed. -/
def polyMultiplyGF2 (a b : List Nat) : List Nat :=
  let result := (List.range (a.length + b.length - 1)).map (fun k =>
    (List.range a.length).foldl (fun acc i =>
      if a.getD i 0 ≠ 0 ∧ i ≤ k ∧ k - i < b.length ∧ b.getD (k - i) 0 ≠ 0 then acc ^^^ 1
      else acc) 0)
  let r := result.reverse.dropWhile (· = 0)
  if r.isEmpty then [0] else r.reverse

/-- `BCH63::buildGenerator`: fold the root exponents 1..2T = 1..4, skipping
exponents already covered by an earlier conjugacy class, multiplying in
each new minimal polynomial. -/
def buildGeneratorPoly : List Nat :=
  ((List.range' 1 4).foldl (fun (st : List Nat × List Nat) i =>
    let (visited, gen) := st
    if i ∈ visited then (visited, gen)
    else (visited ++ conjClass i, polyMultiplyGF2 gen (minimalPolynomialFromClass (conjClass i))))
    ([], [1])).2

/-- Constructed `generator_mask_` (bit i = coefficient of x^i). -/
def generator_mask : Nat := 5433

/-- Constructed `generator_degree_`. -/
def generator_degree : Nat := 12

/-- Constructed `k_ = N − generator_degree_`. -/
def kBCH : Nat := 51

/-- The stored `generator_mask_` equals the bit-packing of the generator
polynomial produced by `buildGenerator`. -/
theorem generator_mask_spec :
    buildGeneratorPoly.reverse.foldl (fun acc v => acc <<< 1 ||| v) 0 = generator_mask := by decide

/-- The generator polynomial has degree 12 (so `k_ = 51`). -/
theorem generator_degree_spec : buildGeneratorPoly.length - 1 = generator_degree := by decide

/-- The minimal-polynomial coefficients really are binary, so the
`runtime_error` branch of `minimalPolynomialFromClass` is dead. -/
theorem generator_coeffs_binary : buildGeneratorPoly.all (· ≤ 1) = true := by decide

/-! ### Encoding -/

/-- `BCH63::polynomialMod`, one step at a time: while the dividend has
degree at least that of the divisor, XOR in the divisor shifted up to the
leading bit.  Each step clears the dividend's leading bit, so 64 steps of
fuel complete the C++ `while` loop for any 64-bit dividend. -/
def polyModAux : Nat → Nat → Nat → Nat
  | 0, dividend, _ => dividend
  | fuel + 1, dividend, divisor =>
    if dividend ≠ 0 ∧ divisor.log2 ≤ dividend.log2 then
      polyModAux fuel (dividend ^^^ (divisor <<< (dividend.log2 - divisor.log2))) divisor
    else dividend

/-- `BCH63::polynomialMod` on a 64-bit dividend. -/
def polynomialMod (dividend divisor : Nat) : Nat := polyModAux 64 dividend divisor

/-- `BCH63::encode`: systematic encoding — shift the 51-bit message up by
`generator_degree_`, XOR in the remainder mod the generator, mask to
`N = 63` bits.  The C++ takes the message as a length-51 bit vector and
packs it into `message`; the packed value is the `data` argument here. -/
def encode (data : Nat) : Nat :=
  let shifted := data <<< generator_degree
  let remainder := polynomialMod shifted generator_mask
  (shifted ^^^ remainder) &&& (2 ^ 63 - 1)

/-- `BCH63::Codeword::getBit` with its range guard. -/
def getBit (cw : Nat) (pos : Nat) : Bool :=
  if pos < 63 then cw.testBit pos else false

/-- `BCH63::Codeword::flipBit` with its range guard. -/
def flipBit (cw : Nat) (pos : Nat) : Nat :=
  if pos < 63 then cw ^^^ (1 <<< pos) else cw

/-- `BCH63::Codeword::setBit` with its range guard. -/
def setBit (cw : Nat) (pos : Nat) (value : Bool) : Nat :=
  if pos < 63 then
    if value then cw ||| (1 <<< pos)
    else if cw.testBit pos then cw ^^^ (1 <<< pos) else cw
  else cw

/-- Accumulator for `BCH63::extractData`: data bit `i` is codeword bit
`generator_degree_ + i`. -/
def extractAux (cw : Nat) : Nat → Nat
  | 0 => 0
  | i + 1 => extractAux cw i ||| (if getBit cw (generator_degree + i) then 1 <<< i else 0)

/-- `BCH63::extractData`, the 51 data bits packed into a `Nat`. -/
def extractData (cw : Nat) : Nat := extractAux cw kBCH

/-! ### Syndromes -/

/-- Accumulator for `BCH63::computeSyndromes`: fold over codeword bit
positions `j`, XORing `alpha_to_[((i+1)·j) mod 63]` into syndrome `i` for
every set bit (the C++ iterates `j` ascending; XOR order is immaterial). -/
def synAcc (cw m : Nat) : Nat → Nat
  | 0 => 0
  | j + 1 => synAcc cw m j ^^^ (if cw.testBit j then alpha_to (((m + 1) * j) % 63) else 0)

/-- Syndrome `S_m` of a received word, `m = 0..3`. -/
def computeSyndrome (cw m : Nat) : Nat := synAcc cw m 63

/-- `BCH63::computeSyndromes`: the 2T = 4 syndromes. -/
def computeSyndromes (cw : Nat) : List Nat :=
  [computeSyndrome cw 0, computeSyndrome cw 1, computeSyndrome cw 2, computeSyndrome cw 3]

/-! ### Berlekamp–Massey -/

/-- Trim trailing zero coefficients, keeping at least `[0]`, as the
`polyAdd` lambda in `BCH63::berlekampMassey` does. -/
def trimPoly (l : List Nat) : List Nat :=
  let r := l.reverse.dropWhile (· = 0)
  if r.isEmpty then [0] else r.reverse

/-- The `polyAdd` lambda of `BCH63::berlekampMassey`. -/
def polyAdd (a b : List Nat) : List Nat :=
  trimPoly ((List.range (max a.length b.length)).map (fun i => a.getD i 0 ^^^ b.getD i 0))

/-- The `scaleAndShift` lambda of `BCH63::berlekampMassey`. -/
def scaleAndShift (poly : List Nat) (scalar shift : Nat) : List Nat :=
  if scalar = 0 then [0]
  else List.replicate shift 0 ++ poly.map (fun c => if c = 0 then 0 else gfMul c scalar)

/-- Loop state of `BCH63::berlekampMassey`: current locator `C`, previous
locator `B`, current LFSR length `L`, gap `m`, previous discrepancy `b`. -/
structure BMState where
  C : List Nat
  B : List Nat
  L : Nat
  m : Nat
  b : Nat
  deriving Repr, DecidableEq

/-- One iteration `n` of the Berlekamp–Massey loop. -/
def bmStep (syndromes : List Nat) (st : BMState) (n : Nat) : BMState :=
  let d := (List.range' 1 st.L).foldl (fun d i =>
    if i < st.C.length ∧ st.C.getD i 0 ≠ 0 ∧ syndromes.getD (n - i) 0 ≠ 0 then
      d ^^^ gfMul (st.C.getD i 0) (syndromes.getD (n - i) 0)
    else d) (syndromes.getD n 0)
  if d = 0 then { st with m := st.m + 1 }
  else
    let coef := gfMul d (gfInv st.b)
    let Tpoly := st.C
    let Cnew := polyAdd st.C (scaleAndShift st.B coef st.m)
    if 2 * st.L ≤ n then
      { C := Cnew, B := Tpoly, L := n + 1 - st.L, m := 1, b := d }
    else
      { st with C := Cnew, m := st.m + 1 }

/-- `BCH63::berlekampMassey`: run the four iterations and return the
error-locator polynomial `C`. -/
def berlekampMassey (syndromes : List Nat) : List Nat :=
  ((List.range 4).foldl (bmStep syndromes) ⟨[1], [1], 0, 1, 1⟩).C

/-! ### Chien search and decode -/

/-- Evaluation of the locator at position `i` inside `BCH63::chienSearch`:
`locator[0] ⊕ ⨁_j locator[j]·α^{((N−i)·j) mod N}`. -/
def chienEval (locator : List Nat) (i : Nat) : Nat :=
  (List.range' 1 (locator.length - 1)).foldl (fun sum j =>
    let c := locator.getD j 0
    if c = 0 then sum else sum ^^^ gfMul c (alpha_to (((63 - i) * j) % 63)))
    (locator.getD 0 0)

/-- `BCH63::chienSearch`: collect, in increasing order, the positions where
the locator evaluates to zero; degree-0 locators yield no locations. -/
def chienSearch (locator : List Nat) : List Nat :=
  if locator.length - 1 = 0 then []
  else (List.range 63).filter (fun i => chienEval locator i = 0)

/-- `BCH63::DecodeResult`. -/
structure DecodeResult where
  corrected : Nat
  data : Nat
  error_locations : List Nat
  success : Bool
  detected : Bool
  deriving Repr, DecidableEq

/-- `BCH63::decode`: syndromes, early exit on all-zero syndromes,
Berlekamp–Massey, degree check, Chien search, root-count check, correction,
and post-correction syndrome re-verification. -/
def decode (received : Nat) : DecodeResult :=
  let syndromes := computeSyndromes received
  let base : DecodeResult :=
    { corrected := received, data := extractData received,
      error_locations := [], success := false, detected := true }
  if syndromes.all (· = 0) then
    { base with success := true, detected := false }
  else
    let locator := berlekampMassey syndromes
    let degree := locator.length - 1
    if degree = 0 ∨ 2 < degree then base
    else
      let locs := chienSearch locator
      if locs.length ≠ degree then base
      else
        let corrected := locs.foldl flipBit received
        if (computeSyndromes corrected).all (· = 0) then
          { corrected := corrected, data := extractData corrected,
            error_locations := locs, success := true, detected := true }
        else base

end BCH63

namespace BCH63

/-! ### Field algebra

The decode-correctness proofs below reason symbolically about GF(2^6).
Every nonzero field element is `alpha_to i` for a unique `i < 63`; the
multiplicative laws follow from the table round-trip facts, and
distributivity over XOR is transferred from `pmul`, the plain
polynomial-product-mod-0x43 description of the same field, which agrees
with the table-driven `gfMul` on all 64 × 64 arguments. -/

theorem alpha_lt (i : Nat) : alpha_to i < 64 := by
  have h : (alphaPacked >>> (6 * i)) &&& 63 ≤ 63 := Nat.and_le_right
  simpa [alpha_to] using Nat.lt_succ_of_le h

theorem index_lt (v : Nat) : index_of v < 64 := by
  have h : (indexPacked >>> (6 * v)) &&& 63 ≤ 63 := Nat.and_le_right
  simpa [index_of] using Nat.lt_succ_of_le h

theorem alpha_ne_zero : ∀ i < 63, alpha_to i ≠ 0 := by decide

theorem index_of_lt_63 : ∀ v, 1 ≤ v → v < 64 → index_of v < 63 := by decide

theorem alpha_index_round : ∀ v, 1 ≤ v → v < 64 → alpha_to (index_of v) = v := by decide

theorem alpha_to_inj {i j : Nat} (hi : i < 63) (hj : j < 63)
    (h : alpha_to i = alpha_to j) : i = j := by
  have h1 : index_of (alpha_to i) = i := index_of_spec i hi
  have h2 : index_of (alpha_to j) = j := index_of_spec j hj
  rw [h] at h1
  omega

end BCH63

namespace BCH63

theorem gfMul_alpha {i j : Nat} (hi : i < 63) (hj : j < 63) :
    gfMul (alpha_to i) (alpha_to j) = alpha_to ((i + j) % 63) := by
  have hia := alpha_ne_zero i hi
  have hja := alpha_ne_zero j hj
  rw [gfMul, if_neg (by simp [hia, hja]), index_of_spec i hi, index_of_spec j hj]

theorem gfMul_zero (a : Nat) : gfMul a 0 = 0 := by simp [gfMul]

theorem zero_gfMul (a : Nat) : gfMul 0 a = 0 := by simp [gfMul]

theorem gfMul_comm (a b : Nat) : gfMul a b = gfMul b a := by
  unfold gfMul
  by_cases ha : a = 0
  · simp [ha]
  · by_cases hb : b = 0
    · simp [hb]
    · simp [ha, hb, Nat.add_comm]

theorem alpha_zero_val : alpha_to 0 = 1 := by decide

theorem gfMul_one (a : Nat) (ha : a < 64) : gfMul a 1 = a := by
  by_cases h0 : a = 0
  · simp [h0, gfMul]
  · have h1 : (1 : Nat) ≤ a := Nat.one_le_iff_ne_zero.mpr h0
    have : gfMul a 1 = alpha_to ((index_of a + index_of 1) % 63) := by
      rw [gfMul, if_neg (by simp [h0])]
    rw [this]
    have hidx : index_of 1 = 0 := by decide
    have hlt := index_of_lt_63 a h1 ha
    rw [hidx, Nat.add_zero, Nat.mod_eq_of_lt hlt, alpha_index_round a h1 ha]

theorem one_gfMul (a : Nat) (ha : a < 64) : gfMul 1 a = a := by
  rw [gfMul_comm]; exact gfMul_one a ha

theorem gfMul_ne_zero {a b : Nat} (ha : a < 64) (hb : b < 64)
    (ha0 : a ≠ 0) (hb0 : b ≠ 0) : gfMul a b ≠ 0 := by
  rw [gfMul, if_neg (by simp [ha0, hb0])]
  exact alpha_ne_zero _ (Nat.mod_lt _ (by omega))

theorem gfMul_lt (a b : Nat) : gfMul a b < 64 := by
  unfold gfMul
  by_cases h : a = 0 ∨ b = 0
  · simp [h]
  · rw [if_neg h]; exact alpha_lt _

theorem xor_lt_64 {x y : Nat} (hx : x < 64) (hy : y < 64) : x ^^^ y < 64 :=
  Nat.xor_lt_two_pow (show x < 2 ^ 6 from hx) (show y < 2 ^ 6 from hy)

theorem gfMul_eq_zero {a b : Nat} (h : gfMul a b = 0) : a = 0 ∨ b = 0 := by
  by_contra hc
  push_neg at hc
  rw [gfMul, if_neg (by simp [hc.1, hc.2])] at h
  exact alpha_ne_zero _ (Nat.mod_lt _ (by omega)) h

theorem gfMul_assoc (a b c : Nat) (ha : a < 64) (hb : b < 64) (hc : c < 64) :
    gfMul (gfMul a b) c = gfMul a (gfMul b c) := by
  by_cases ha0 : a = 0
  · simp [ha0, zero_gfMul]
  by_cases hb0 : b = 0
  · simp [hb0, gfMul_zero, zero_gfMul]
  by_cases hc0 : c = 0
  · simp [hc0, gfMul_zero]
  have ha1 : 1 ≤ a := Nat.one_le_iff_ne_zero.mpr ha0
  have hb1 : 1 ≤ b := Nat.one_le_iff_ne_zero.mpr hb0
  have hc1 : 1 ≤ c := Nat.one_le_iff_ne_zero.mpr hc0
  have hia := index_of_lt_63 a ha1 ha
  have hib := index_of_lt_63 b hb1 hb
  have hic := index_of_lt_63 c hc1 hc
  have ra := alpha_index_round a ha1 ha
  have rb := alpha_index_round b hb1 hb
  have rc := alpha_index_round c hc1 hc
  calc gfMul (gfMul a b) c
      = gfMul (gfMul (alpha_to (index_of a)) (alpha_to (index_of b))) (alpha_to (index_of c)) := by
        rw [ra, rb, rc]
    _ = alpha_to (((index_of a + index_of b) % 63 + index_of c) % 63) := by
        rw [gfMul_alpha hia hib, gfMul_alpha (Nat.mod_lt _ (by omega)) hic]
    _ = alpha_to ((index_of a + (index_of b + index_of c) % 63) % 63) := by
        congr 1
        omega
    _ = gfMul (alpha_to (index_of a)) (gfMul (alpha_to (index_of b)) (alpha_to (index_of c))) := by
        rw [gfMul_alpha hib hic, gfMul_alpha hia (Nat.mod_lt _ (by omega))]
    _ = gfMul a (gfMul b c) := by rw [ra, rb, rc]

theorem gfInv_lt (a : Nat) : gfInv a < 64 := by
  unfold gfInv
  by_cases h : a = 0
  · simp [h]
  · rw [if_neg h]; exact alpha_lt _

theorem gfMul_gfInv {a : Nat} (ha : a < 64) (ha0 : a ≠ 0) : gfMul a (gfInv a) = 1 := by
  have ha1 : 1 ≤ a := Nat.one_le_iff_ne_zero.mpr ha0
  have hia := index_of_lt_63 a ha1 ha
  have ra := alpha_index_round a ha1 ha
  have h2 : gfMul a (gfInv a) =
      gfMul (alpha_to (index_of a)) (alpha_to ((63 - index_of a) % 63)) := by
    rw [ra, gfInv, if_neg ha0]
  rw [h2, gfMul_alpha hia (Nat.mod_lt _ (by omega))]
  have h3 : (index_of a + (63 - index_of a) % 63) % 63 = 0 := by omega
  rw [h3, alpha_zero_val]

theorem gfInv_ne_zero {a : Nat} (ha0 : a ≠ 0) : gfInv a ≠ 0 := by
  rw [gfInv, if_neg ha0]
  exact alpha_ne_zero _ (Nat.mod_lt _ (by omega))

end BCH63

namespace BCH63

/-! ### Distributivity via the polynomial description

`pmul` is the textbook carry-less product of two 6-bit field elements
reduced modulo the primitive polynomial 0x43 — an alternative description
of the same field multiplication the tables implement.  `gfMul_eq_pmul`
checks agreement on all 64 × 64 arguments, and `pmul` is XOR-bilinear by
construction, which gives distributivity of `gfMul` over `^^^`. -/

/-- Clear bit `s` (6 ≤ s ≤ 11) of a partial product by XORing in the
primitive polynomial shifted below it. -/
def pmulReduceStep (m s : Nat) : Nat :=
  if m.testBit s then m ^^^ (0x43 <<< (s - 6)) else m

/-- Reduce a 12-bit carry-less product modulo x^6 + x + 1. -/
def pmulReduce (m : Nat) : Nat :=
  pmulReduceStep (pmulReduceStep (pmulReduceStep
    (pmulReduceStep (pmulReduceStep (pmulReduceStep m 11) 10) 9) 8) 7) 6

/-- Carry-less accumulation of `b <<< t` over the set bits `t < n` of `a`. -/
def pmulAux (a b : Nat) : Nat → Nat
  | 0 => 0
  | t + 1 => pmulAux a b t ^^^ (if a.testBit t then b <<< t else 0)

/-- Polynomial description of the GF(2^6) product. -/
def pmul (a b : Nat) : Nat := pmulReduce (pmulAux a b 6)

set_option maxRecDepth 20000 in
/-- The table-driven product agrees with the polynomial product on every
pair of field elements. -/
theorem gfMul_eq_pmul : ∀ a < 64, ∀ b < 64, gfMul a b = pmul a b := by decide

theorem xor_cancel_left (a b : Nat) : a ^^^ (a ^^^ b) = b := by
  rw [← Nat.xor_assoc, Nat.xor_self, Nat.zero_xor]

theorem shiftLeft_xor_distrib (x y t : Nat) : (x ^^^ y) <<< t = (x <<< t) ^^^ (y <<< t) := by
  apply Nat.eq_of_testBit_eq
  intro i
  simp only [Nat.testBit_shiftLeft, Nat.testBit_xor]
  by_cases h : t ≤ i <;> simp [h]

theorem pmulReduceStep_xor (x y s : Nat) :
    pmulReduceStep (x ^^^ y) s = pmulReduceStep x s ^^^ pmulReduceStep y s := by
  unfold pmulReduceStep
  rcases hx : x.testBit s <;> rcases hy : y.testBit s <;>
      simp only [Nat.testBit_xor, hx, hy, Bool.xor_false, Bool.xor_true, Bool.not_true,
        Bool.not_false, if_true, if_false]
  · rfl
  · show x ^^^ y ^^^ 0x43 <<< (s - 6) = x ^^^ (y ^^^ 0x43 <<< (s - 6))
    ac_rfl
  · show x ^^^ y ^^^ 0x43 <<< (s - 6) = x ^^^ 0x43 <<< (s - 6) ^^^ y
    ac_rfl
  · show x ^^^ y = x ^^^ 0x43 <<< (s - 6) ^^^ (y ^^^ 0x43 <<< (s - 6))
    have h : x ^^^ 0x43 <<< (s - 6) ^^^ (y ^^^ 0x43 <<< (s - 6)) =
        (x ^^^ y) ^^^ (0x43 <<< (s - 6) ^^^ 0x43 <<< (s - 6)) := by ac_rfl
    rw [h, Nat.xor_self, Nat.xor_zero]

theorem pmulReduce_xor (x y : Nat) : pmulReduce (x ^^^ y) = pmulReduce x ^^^ pmulReduce y := by
  unfold pmulReduce
  rw [pmulReduceStep_xor x y 11, pmulReduceStep_xor _ _ 10, pmulReduceStep_xor _ _ 9,
      pmulReduceStep_xor _ _ 8, pmulReduceStep_xor _ _ 7, pmulReduceStep_xor _ _ 6]

theorem pmulAux_xor_right (a x y : Nat) :
    ∀ n, pmulAux a (x ^^^ y) n = pmulAux a x n ^^^ pmulAux a y n := by
  intro n
  induction n with
  | zero => simp [pmulAux]
  | succ t ih =>
    unfold pmulAux
    rw [ih, shiftLeft_xor_distrib]
    rcases h : a.testBit t <;> simp [h] <;> ac_rfl

theorem pmul_xor_right (a x y : Nat) : pmul a (x ^^^ y) = pmul a x ^^^ pmul a y := by
  unfold pmul
  rw [pmulAux_xor_right, pmulReduce_xor]

theorem gfMul_xor_right (a x y : Nat) (ha : a < 64) (hx : x < 64) (hy : y < 64) :
    gfMul a (x ^^^ y) = gfMul a x ^^^ gfMul a y := by
  have hxy : x ^^^ y < 64 := xor_lt_64 hx hy
  rw [gfMul_eq_pmul a ha _ hxy, gfMul_eq_pmul a ha x hx, gfMul_eq_pmul a ha y hy,
      pmul_xor_right]

theorem gfMul_xor_left (x y b : Nat) (hb : b < 64) (hx : x < 64) (hy : y < 64) :
    gfMul (x ^^^ y) b = gfMul x b ^^^ gfMul y b := by
  rw [gfMul_comm, gfMul_xor_right b x y hb hx hy, gfMul_comm x b, gfMul_comm y b]

/-- Freshman's dream in GF(2^6): squaring is additive. -/
theorem gf_sq_xor (x y : Nat) (hx : x < 64) (hy : y < 64) :
    gfMul (x ^^^ y) (x ^^^ y) = gfMul x x ^^^ gfMul y y := by
  have hxy : x ^^^ y < 64 := xor_lt_64 hx hy
  rw [gfMul_xor_right _ x y hxy hx hy, gfMul_xor_left x y x hx hx hy,
      gfMul_xor_left x y y hy hx hy, gfMul_comm y x]
  have h : gfMul x x ^^^ gfMul x y ^^^ (gfMul x y ^^^ gfMul y y) =
      gfMul x x ^^^ ((gfMul x y ^^^ gfMul x y) ^^^ gfMul y y) := by ac_rfl
  rw [h, Nat.xor_self, Nat.zero_xor]

end BCH63

namespace BCH63

/-! ### Syndrome linearity and single-bit syndromes -/

theorem one_shiftLeft (p : Nat) : (1 : Nat) <<< p = 2 ^ p := by
  rw [Nat.shiftLeft_eq, Nat.one_mul]

theorem ite_xor_split (bx bv : Bool) (a : Nat) :
    (if bx.xor bv then a else 0) = (if bx then a else 0) ^^^ (if bv then a else 0) := by
  rcases bx <;> rcases bv <;> simp

theorem synAcc_xor (x y m : Nat) : ∀ n, synAcc (x ^^^ y) m n = synAcc x m n ^^^ synAcc y m n := by
  intro n
  induction n with
  | zero => simp [synAcc]
  | succ j ih =>
    unfold synAcc
    rw [ih, Nat.testBit_xor, ite_xor_split]
    ac_rfl

theorem computeSyndrome_xor (x y m : Nat) :
    computeSyndrome (x ^^^ y) m = computeSyndrome x m ^^^ computeSyndrome y m := by
  unfold computeSyndrome
  exact synAcc_xor x y m 63

theorem synAcc_two_pow (p m : Nat) :
    ∀ n, synAcc (2 ^ p) m n = if p < n then alpha_to (((m + 1) * p) % 63) else 0 := by
  intro n
  induction n with
  | zero => simp [synAcc]
  | succ j ih =>
    unfold synAcc
    rw [ih, Nat.testBit_two_pow]
    by_cases h : p = j
    · subst h
      simp [Nat.lt_irrefl, Nat.lt_succ_self]
    · by_cases h2 : p < j <;>
        simp [h, h2, Nat.lt_succ_iff, Nat.le_iff_lt_or_eq] <;> omega

theorem computeSyndrome_two_pow {p : Nat} (hp : p < 63) (m : Nat) :
    computeSyndrome (2 ^ p) m = alpha_to (((m + 1) * p) % 63) := by
  rw [computeSyndrome, synAcc_two_pow, if_pos hp]

theorem computeSyndrome_zero_word (m : Nat) : computeSyndrome 0 m = 0 := by
  have h : ∀ n, synAcc 0 m n = 0 := by
    intro n
    induction n with
    | zero => rfl
    | succ j ih => unfold synAcc; simp [ih]
  exact h 63

theorem computeSyndrome_lt (cw m : Nat) : computeSyndrome cw m < 64 := by
  have h : ∀ n, synAcc cw m n < 64 := by
    intro n
    induction n with
    | zero => simp [synAcc]
    | succ j ih =>
      unfold synAcc
      rcases h : cw.testBit j
      · simpa using ih
      · simp only [h, if_true]
        exact xor_lt_64 ih (alpha_lt _)
  exact h 63

/-! ### Multiples of the generator have zero syndromes -/

/-- XOR-span of the shifts `generator_mask <<< s`, `s ≤ 50`, i.e. the
codewords reachable by the XOR-shift reduction in `polynomialMod`. -/
inductive GMul : Nat → Prop
  | zero : GMul 0
  | step (x s : Nat) : s ≤ 50 → GMul x → GMul (x ^^^ (generator_mask <<< s))

theorem two_pow_shiftLeft (a s : Nat) : (2 ^ a : Nat) <<< s = 2 ^ (a + s) := by
  rw [Nat.shiftLeft_eq, ← Nat.pow_add]

theorem gen_mask_bits : generator_mask =
    2 ^ 0 ^^^ 2 ^ 3 ^^^ 2 ^ 4 ^^^ 2 ^ 5 ^^^ 2 ^ 8 ^^^ 2 ^ 10 ^^^ 2 ^ 12 := by decide

theorem alpha_factor (m s t : Nat) :
    alpha_to ((m + 1) * (t + s) % 63) =
      gfMul (alpha_to ((m + 1) * s % 63)) (alpha_to ((m + 1) * t % 63)) := by
  rw [gfMul_alpha (Nat.mod_lt _ (by omega)) (Nat.mod_lt _ (by omega))]
  congr 1
  rw [← Nat.add_mod]
  congr 1
  ring

theorem syndrome_gen_shift {m s : Nat} (hm : m < 4) (hs : s ≤ 50) :
    computeSyndrome (generator_mask <<< s) m = 0 := by
  have hdecomp : generator_mask <<< s =
      2 ^ (0 + s) ^^^ 2 ^ (3 + s) ^^^ 2 ^ (4 + s) ^^^ 2 ^ (5 + s) ^^^
      2 ^ (8 + s) ^^^ 2 ^ (10 + s) ^^^ 2 ^ (12 + s) := by
    rw [gen_mask_bits, shiftLeft_xor_distrib, shiftLeft_xor_distrib, shiftLeft_xor_distrib,
        shiftLeft_xor_distrib, shiftLeft_xor_distrib, shiftLeft_xor_distrib,
        two_pow_shiftLeft, two_pow_shiftLeft, two_pow_shiftLeft, two_pow_shiftLeft,
        two_pow_shiftLeft, two_pow_shiftLeft, two_pow_shiftLeft]
  rw [hdecomp, computeSyndrome_xor, computeSyndrome_xor, computeSyndrome_xor,
      computeSyndrome_xor, computeSyndrome_xor, computeSyndrome_xor,
      computeSyndrome_two_pow (by omega) m, computeSyndrome_two_pow (by omega) m,
      computeSyndrome_two_pow (by omega) m, computeSyndrome_two_pow (by omega) m,
      computeSyndrome_two_pow (by omega) m, computeSyndrome_two_pow (by omega) m,
      computeSyndrome_two_pow (by omega) m,
      alpha_factor m s 0, alpha_factor m s 3, alpha_factor m s 4, alpha_factor m s 5,
      alpha_factor m s 8, alpha_factor m s 10, alpha_factor m s 12]
  have hX := alpha_lt ((m + 1) * s % 63)
  have h0 := alpha_lt ((m + 1) * 0 % 63)
  have h3 := alpha_lt ((m + 1) * 3 % 63)
  have h4 := alpha_lt ((m + 1) * 4 % 63)
  have h5 := alpha_lt ((m + 1) * 5 % 63)
  have h8 := alpha_lt ((m + 1) * 8 % 63)
  have h10 := alpha_lt ((m + 1) * 10 % 63)
  have h12 := alpha_lt ((m + 1) * 12 % 63)
  have hb1 : alpha_to ((m + 1) * 0 % 63) ^^^ alpha_to ((m + 1) * 3 % 63) < 64 :=
    xor_lt_64 h0 h3
  have hb2 : _ ^^^ alpha_to ((m + 1) * 4 % 63) < 64 := xor_lt_64 hb1 h4
  have hb3 : _ ^^^ alpha_to ((m + 1) * 5 % 63) < 64 := xor_lt_64 hb2 h5
  have hb4 : _ ^^^ alpha_to ((m + 1) * 8 % 63) < 64 := xor_lt_64 hb3 h8
  have hb5 : _ ^^^ alpha_to ((m + 1) * 10 % 63) < 64 := xor_lt_64 hb4 h10
  rw [← gfMul_xor_right _ _ _ hX h0 h3, ← gfMul_xor_right _ _ _ hX hb1 h4,
      ← gfMul_xor_right _ _ _ hX hb2 h5, ← gfMul_xor_right _ _ _ hX hb3 h8,
      ← gfMul_xor_right _ _ _ hX hb4 h10, ← gfMul_xor_right _ _ _ hX hb5 h12]
  have hinner : alpha_to ((m + 1) * 0 % 63) ^^^ alpha_to ((m + 1) * 3 % 63) ^^^
      alpha_to ((m + 1) * 4 % 63) ^^^ alpha_to ((m + 1) * 5 % 63) ^^^
      alpha_to ((m + 1) * 8 % 63) ^^^ alpha_to ((m + 1) * 10 % 63) ^^^
      alpha_to ((m + 1) * 12 % 63) = 0 := by
    interval_cases m <;> decide
  rw [hinner, gfMul_zero]

theorem gmul_syndrome_zero {x : Nat} (hx : GMul x) : ∀ m < 4, computeSyndrome x m = 0 := by
  induction hx with
  | zero => exact fun m _ => computeSyndrome_zero_word m
  | step y s hs _ ih =>
    intro m hm
    rw [computeSyndrome_xor, ih m hm, syndrome_gen_shift hm hs, Nat.xor_zero]

end BCH63

namespace BCH63

/-! ### The encoder produces generator multiples -/

theorem gen_mask_log2 : generator_mask.log2 = 12 := by
  have h1 : 12 ≤ generator_mask.log2 := (Nat.le_log2 (by decide)).mpr (by decide)
  have h2 : generator_mask.log2 < 13 := (Nat.log2_lt (by decide)).mpr (by decide)
  omega

theorem testBit_log2_self {x : Nat} (hx : x ≠ 0) : x.testBit x.log2 = true := by
  have h1 : 2 ^ x.log2 ≤ x := Nat.log2_self_le hx
  have h2 : x < 2 ^ (x.log2 + 1) := Nat.lt_log2_self
  have hdiv : x / 2 ^ x.log2 = 1 := by
    apply Nat.div_eq_of_lt_le
    · omega
    · have h3 : (1 + 1) * 2 ^ x.log2 = 2 ^ (x.log2 + 1) := by
        rw [Nat.pow_succ]; ring
      omega
  rw [Nat.testBit_to_div_mod, hdiv]
  rfl

theorem xor_top_lt {x y L : Nat} (hx : x < 2 ^ (L + 1)) (hy : y < 2 ^ (L + 1))
    (hbx : x.testBit L = true) (hby : y.testBit L = true) : x ^^^ y < 2 ^ L := by
  have hmod : x ^^^ y = (x ^^^ y) % 2 ^ L := by
    apply Nat.eq_of_testBit_eq
    intro i
    rw [Nat.testBit_mod_two_pow]
    by_cases hi : i < L
    · simp [hi]
    · have hxyi : (x ^^^ y).testBit i = false := by
        rw [Nat.testBit_xor]
        by_cases hiL : i = L
        · subst hiL; rw [hbx, hby]; rfl
        · have hgt : L + 1 ≤ i := by omega
          have hxi : x.testBit i = false :=
            Nat.testBit_lt_two_pow (Nat.lt_of_lt_of_le hx (Nat.pow_le_pow_right (by omega) hgt))
          have hyi : y.testBit i = false :=
            Nat.testBit_lt_two_pow (Nat.lt_of_lt_of_le hy (Nat.pow_le_pow_right (by omega) hgt))
          rw [hxi, hyi]; rfl
      simp [hi, hxyi]
  rw [hmod]
  exact Nat.mod_lt _ (Nat.pos_pow_of_pos L (by omega))

theorem polyMod_step_lt {x : Nat} (hx0 : x ≠ 0) (hxL : 12 ≤ x.log2) :
    x ^^^ (generator_mask <<< (x.log2 - 12)) < 2 ^ x.log2 := by
  have hg1 : (2 : Nat) ^ 12 ≤ generator_mask := by decide
  have hg2 : generator_mask < 2 ^ 13 := by decide
  have hgbit : generator_mask.testBit 12 = true := by decide
  apply xor_top_lt Nat.lt_log2_self
  · rw [Nat.shiftLeft_eq]
    calc generator_mask * 2 ^ (x.log2 - 12) < 2 ^ 13 * 2 ^ (x.log2 - 12) := by
          exact (Nat.mul_lt_mul_right (Nat.pos_pow_of_pos _ (by omega))).mpr hg2
      _ = 2 ^ (13 + (x.log2 - 12)) := by rw [← Nat.pow_add]
      _ = 2 ^ (x.log2 + 1) := by congr 1; omega
  · exact testBit_log2_self hx0
  · rw [Nat.testBit_shiftLeft]
    have hle : x.log2 - 12 ≤ x.log2 := Nat.sub_le _ _
    have hsub : x.log2 - (x.log2 - 12) = 12 := by omega
    simp [hle, hsub, hgbit]

theorem polyModAux_lt : ∀ (fuel x : Nat), x < 2 ^ (12 + fuel) →
    polyModAux fuel x generator_mask < 2 ^ 12 := by
  intro fuel
  induction fuel with
  | zero => intro x hx; simpa [polyModAux] using hx
  | succ f ih =>
    intro x hx
    unfold polyModAux
    by_cases hcond : x ≠ 0 ∧ generator_mask.log2 ≤ x.log2
    · rw [if_pos hcond]
      apply ih
      have hstep := polyMod_step_lt hcond.1 (by rw [← gen_mask_log2]; exact hcond.2)
      have hlog : x.log2 < 13 + f := by
        rw [Nat.log2_lt hcond.1]
        calc x < 2 ^ (12 + (f + 1)) := hx
          _ = 2 ^ (13 + f) := by congr 1; omega
      calc x ^^^ (generator_mask <<< (x.log2 - generator_mask.log2)) <
            2 ^ x.log2 := by rw [gen_mask_log2]; exact hstep
        _ ≤ 2 ^ (12 + f) := Nat.pow_le_pow_right (by omega) (by omega)
    · rw [if_neg hcond]
      rcases eq_or_ne x 0 with h0 | h0
      · subst h0; exact Nat.pos_pow_of_pos _ (by omega)
      · have hlog : ¬ generator_mask.log2 ≤ x.log2 := fun h => hcond ⟨h0, h⟩
        rw [gen_mask_log2] at hlog
        have : x.log2 < 12 := by omega
        have := (Nat.log2_lt h0).mp this
        exact this

theorem polyModAux_gmul : ∀ (fuel x : Nat), x < 2 ^ 63 →
    GMul (x ^^^ polyModAux fuel x generator_mask) := by
  intro fuel
  induction fuel with
  | zero =>
    intro x hx
    simpa [polyModAux, Nat.xor_self] using GMul.zero
  | succ f ih =>
    intro x hx
    unfold polyModAux
    by_cases hcond : x ≠ 0 ∧ generator_mask.log2 ≤ x.log2
    · rw [if_pos hcond]
      have hL12 : 12 ≤ x.log2 := by rw [← gen_mask_log2]; exact hcond.2
      have hL62 : x.log2 ≤ 62 := by
        have := (Nat.log2_lt hcond.1).mpr hx
        omega
      have hstep := polyMod_step_lt hcond.1 hL12
      have hx' : x ^^^ (generator_mask <<< (x.log2 - generator_mask.log2)) < 2 ^ 63 := by
        rw [gen_mask_log2]
        calc x ^^^ (generator_mask <<< (x.log2 - 12)) < 2 ^ x.log2 := hstep
          _ ≤ 2 ^ 63 := Nat.pow_le_pow_right (by omega) (by omega)
      have hrec := ih _ hx'
      have hxeq : x ^^^ polyModAux f (x ^^^ (generator_mask <<< (x.log2 - generator_mask.log2)))
            generator_mask =
          ((x ^^^ (generator_mask <<< (x.log2 - generator_mask.log2))) ^^^
            polyModAux f (x ^^^ (generator_mask <<< (x.log2 - generator_mask.log2)))
              generator_mask) ^^^ (generator_mask <<< (x.log2 - generator_mask.log2)) := by
        generalize polyModAux f (x ^^^ (generator_mask <<< (x.log2 - generator_mask.log2)))
          generator_mask = P
        generalize generator_mask <<< (x.log2 - generator_mask.log2) = G
        have h : x ^^^ G ^^^ P ^^^ G = x ^^^ P ^^^ (G ^^^ G) := by ac_rfl
        rw [h, Nat.xor_self, Nat.xor_zero]
      rw [hxeq]
      exact GMul.step _ _ (by rw [gen_mask_log2]; omega) hrec
    · rw [if_neg hcond]
      simpa [Nat.xor_self] using GMul.zero

theorem encode_lt (d : Nat) : encode d < 2 ^ 63 := by
  unfold encode
  have h : (2 : Nat) ^ 63 - 1 < 2 ^ 63 := by omega
  exact Nat.lt_of_le_of_lt Nat.and_le_right h

theorem encode_eq_of_lt {d : Nat} (hd : d < 2 ^ 51) :
    encode d = (d <<< generator_degree) ^^^ polynomialMod (d <<< generator_degree) generator_mask := by
  unfold encode
  apply Nat.and_pow_two_sub_one_of_lt_two_pow
  have hsh : d <<< generator_degree < 2 ^ 63 := by
    rw [Nat.shiftLeft_eq]
    calc d * 2 ^ generator_degree < 2 ^ 51 * 2 ^ 12 := by
          exact (Nat.mul_lt_mul_right (Nat.pos_pow_of_pos _ (by omega))).mpr hd
      _ = 2 ^ 63 := by norm_num
  have hrem : polynomialMod (d <<< generator_degree) generator_mask < 2 ^ 12 := by
    apply polyModAux_lt
    calc d <<< generator_degree < 2 ^ 63 := hsh
      _ ≤ 2 ^ (12 + 64) := Nat.pow_le_pow_right (by omega) (by omega)
  exact Nat.xor_lt_two_pow (show d <<< generator_degree < 2 ^ 63 from hsh) (show polynomialMod (d <<< generator_degree) generator_mask < 2 ^ 63 from Nat.lt_trans hrem (by norm_num))

theorem encode_gmul {d : Nat} (hd : d < 2 ^ 51) : GMul (encode d) := by
  rw [encode_eq_of_lt hd]
  apply polyModAux_gmul
  rw [Nat.shiftLeft_eq]
  calc d * 2 ^ generator_degree < 2 ^ 51 * 2 ^ 12 := by
        exact (Nat.mul_lt_mul_right (Nat.pos_pow_of_pos _ (by omega))).mpr hd
    _ = 2 ^ 63 := by norm_num

theorem encode_syndrome_zero {d : Nat} (hd : d < 2 ^ 51) :
    ∀ m < 4, computeSyndrome (encode d) m = 0 :=
  gmul_syndrome_zero (encode_gmul hd)

theorem encode_syndromes {d : Nat} (hd : d < 2 ^ 51) :
    computeSyndromes (encode d) = [0, 0, 0, 0] := by
  unfold computeSyndromes
  rw [encode_syndrome_zero hd 0 (by omega), encode_syndrome_zero hd 1 (by omega),
      encode_syndrome_zero hd 2 (by omega), encode_syndrome_zero hd 3 (by omega)]

/-! ### Data extraction -/

theorem extractAux_testBit (cw : Nat) :
    ∀ n i, (extractAux cw n).testBit i = (decide (i < n) && getBit cw (generator_degree + i)) := by
  intro n
  induction n with
  | zero => intro i; simp [extractAux]
  | succ j ih =>
    intro i
    unfold extractAux
    rw [Nat.testBit_or, ih i]
    by_cases hij : i = j
    · subst hij
      rcases h : getBit cw (generator_degree + i) <;>
        simp [h, one_shiftLeft, Nat.testBit_two_pow, Nat.lt_succ_self, Nat.lt_irrefl]
    · have hbit : (if getBit cw (generator_degree + j) then 1 <<< j else 0).testBit i = false := by
        rcases h : getBit cw (generator_degree + j) <;>
          simp [h, one_shiftLeft, Nat.testBit_two_pow_of_ne (Ne.symm hij)]
      rw [hbit]
      by_cases hlt : i < j <;> by_cases hlt2 : i < j + 1 <;> simp [hlt, hlt2] <;> omega

theorem extractAux_lt (cw : Nat) : ∀ n, extractAux cw n < 2 ^ n := by
  intro n
  have h : extractAux cw n = extractAux cw n % 2 ^ n := by
    apply Nat.eq_of_testBit_eq
    intro i
    rw [Nat.testBit_mod_two_pow, extractAux_testBit]
    by_cases hi : i < n <;> simp [hi]
  rw [h]
  exact Nat.mod_lt _ (Nat.pos_pow_of_pos _ (by omega))

theorem extractData_encode {d : Nat} (hd : d < 2 ^ 51) : extractData (encode d) = d := by
  have hsh : d <<< generator_degree < 2 ^ 63 := by
    rw [Nat.shiftLeft_eq]
    calc d * 2 ^ generator_degree < 2 ^ 51 * 2 ^ 12 := (Nat.mul_lt_mul_right (Nat.pos_pow_of_pos _ (by omega))).mpr hd
      _ = 2 ^ 63 := by norm_num
  have hrem : polynomialMod (d <<< generator_degree) generator_mask < 2 ^ 12 := by
    apply polyModAux_lt
    exact Nat.lt_of_lt_of_le hsh (Nat.pow_le_pow_right (by omega) (by omega))
  apply Nat.eq_of_testBit_eq
  intro i
  rw [extractData, extractAux_testBit]
  by_cases hi : i < kBCH
  · have hpos : generator_degree + i < 63 := by
      unfold kBCH at hi
      unfold generator_degree
      omega
    rw [getBit, if_pos hpos, encode_eq_of_lt hd, Nat.testBit_xor]
    have hremb : (polynomialMod (d <<< generator_degree) generator_mask).testBit
        (generator_degree + i) = false := by
      apply Nat.testBit_lt_two_pow
      exact Nat.lt_of_lt_of_le hrem (Nat.pow_le_pow_right (by omega) (Nat.le_add_right 12 i))
    rw [hremb, Nat.testBit_shiftLeft]
    have hge : generator_degree ≤ generator_degree + i := Nat.le_add_right _ _
    have hsub : generator_degree + i - generator_degree = i := by omega
    simp [hge, hsub, hi]
  · have hd2 : d.testBit i = false := by
      apply Nat.testBit_lt_two_pow
      apply Nat.lt_of_lt_of_le hd
      have e1 : kBCH = 51 := rfl
      exact Nat.pow_le_pow_right (by omega) (by omega)
    simp [hi, hd2]

end BCH63

namespace BCH63

/-! ### Symbolic execution of Berlekamp–Massey

For one- and two-error syndrome sequences the Berlekamp–Massey loop is
executed symbolically: each of the four iterations is evaluated with the
field identities above, yielding the locator `[1, α^i]` for a single error
at position `i` and `[1, α^i ⊕ α^j, α^{i+j}]` for errors at `i < j`. -/

theorem gfInv_one : gfInv 1 = 1 := by decide

theorem dstep_collapse (base s v : Nat) (hlen : Prop) [Decidable hlen] (h : hlen) :
    (if hlen ∧ s ≠ 0 ∧ v ≠ 0 then base ^^^ gfMul s v else base) = base ^^^ gfMul s v := by
  by_cases hs : s = 0
  · simp [hs, zero_gfMul]
  · by_cases hv : v = 0
    · simp [hs, hv, gfMul_zero]
    · simp [h, hs, hv]

theorem polyAdd_deg1 (x : Nat) (hx : x ≠ 0) : polyAdd [1] [0, x] = [1, x] := by
  simp [polyAdd, trimPoly, List.range_succ, hx]

theorem polyAdd_deg2 (s q : Nat) (hq : q ≠ 0) : polyAdd [1, s] [0, 0, q] = [1, s, q] := by
  simp [polyAdd, trimPoly, List.range_succ, hq]

theorem scaleAndShift_one (x : Nat) (hx : x ≠ 0) (hxlt : x < 64) :
    scaleAndShift [1] x 1 = [0, x] := by
  simp [scaleAndShift, hx, one_gfMul x hxlt]

theorem scaleAndShift_two (x : Nat) (hx : x ≠ 0) (hxlt : x < 64) :
    scaleAndShift [1] x 2 = [0, 0, x] := by
  simp [scaleAndShift, hx, one_gfMul x hxlt, List.replicate_succ]

/-- Iteration 0 on any syndrome list with nonzero first syndrome. -/
theorem bmStep_zero (σs : List Nat) (S0 : Nat) (h0 : σs.getD 0 0 = S0) (hS0 : S0 ≠ 0)
    (hlt : S0 < 64) :
    bmStep σs ⟨[1], [1], 0, 1, 1⟩ 0 = ⟨[1, S0], [1], 1, 1, S0⟩ := by
  unfold bmStep
  rw [show List.range' 1 0 = [] from rfl]
  simp only [List.foldl_nil, h0]
  rw [if_neg hS0, gfInv_one, gfMul_one S0 hlt, scaleAndShift_one S0 hS0 hlt,
      polyAdd_deg1 S0 hS0]
  simp

end BCH63

namespace BCH63

theorem bm_single {i : Nat} (hi : i < 63) :
    berlekampMassey
      [alpha_to i, alpha_to (2 * i % 63), alpha_to (3 * i % 63), alpha_to (4 * i % 63)] =
      [1, alpha_to i] := by
  have halt : alpha_to i < 64 := alpha_lt i
  have ha0 : alpha_to i ≠ 0 := alpha_ne_zero i hi
  have h2m : (2 : Nat) * i % 63 < 63 := Nat.mod_lt _ (by omega)
  have h3m : (3 : Nat) * i % 63 < 63 := Nat.mod_lt _ (by omega)
  have h2 : gfMul (alpha_to i) (alpha_to i) = alpha_to (2 * i % 63) := by
    rw [gfMul_alpha hi hi]; congr 1; omega
  have h3 : gfMul (alpha_to i) (alpha_to (2 * i % 63)) = alpha_to (3 * i % 63) := by
    rw [gfMul_alpha hi h2m]; congr 1; omega
  have h4 : gfMul (alpha_to i) (alpha_to (3 * i % 63)) = alpha_to (4 * i % 63) := by
    rw [gfMul_alpha hi h3m]; congr 1; omega
  have h20 : alpha_to (2 * i % 63) ≠ 0 := alpha_ne_zero _ h2m
  have h30 : alpha_to (3 * i % 63) ≠ 0 := alpha_ne_zero _ h3m
  have s0 := bmStep_zero
    [alpha_to i, alpha_to (2 * i % 63), alpha_to (3 * i % 63), alpha_to (4 * i % 63)]
    (alpha_to i) rfl ha0 halt
  have s1 : bmStep
      [alpha_to i, alpha_to (2 * i % 63), alpha_to (3 * i % 63), alpha_to (4 * i % 63)]
      ⟨[1, alpha_to i], [1], 1, 1, alpha_to i⟩ 1 =
      ⟨[1, alpha_to i], [1], 1, 2, alpha_to i⟩ := by
    unfold bmStep
    rw [show List.range' 1 1 = [1] from rfl]
    simp [ha0, h2]
  have s2 : bmStep
      [alpha_to i, alpha_to (2 * i % 63), alpha_to (3 * i % 63), alpha_to (4 * i % 63)]
      ⟨[1, alpha_to i], [1], 1, 2, alpha_to i⟩ 2 =
      ⟨[1, alpha_to i], [1], 1, 3, alpha_to i⟩ := by
    unfold bmStep
    rw [show List.range' 1 1 = [1] from rfl]
    simp [ha0, h20, h3]
  have s3 : bmStep
      [alpha_to i, alpha_to (2 * i % 63), alpha_to (3 * i % 63), alpha_to (4 * i % 63)]
      ⟨[1, alpha_to i], [1], 1, 3, alpha_to i⟩ 3 =
      ⟨[1, alpha_to i], [1], 1, 4, alpha_to i⟩ := by
    unfold bmStep
    rw [show List.range' 1 1 = [1] from rfl]
    simp [ha0, h30, h4]
  show ((List.range 4).foldl
    (bmStep [alpha_to i, alpha_to (2 * i % 63), alpha_to (3 * i % 63), alpha_to (4 * i % 63)])
    ⟨[1], [1], 0, 1, 1⟩).C = [1, alpha_to i]
  rw [show List.range 4 = [0, 1, 2, 3] from rfl]
  simp only [List.foldl_cons, List.foldl_nil]
  rw [s0, s1, s2, s3]

end BCH63

namespace BCH63

/-! ### Chien search on degree-1 and degree-2 locators -/

theorem range_filter_singleton {i : Nat} (pred : Nat → Bool) :
    ∀ n, i < n → (∀ p, p < n → pred p = decide (p = i)) →
    (List.range n).filter pred = [i] := by
  intro n
  induction n with
  | zero => intro hi; omega
  | succ k ih =>
    intro hi h
    rw [List.range_succ, List.filter_append]
    by_cases hik : i < k
    · rw [ih hik (fun p hp => h p (by omega))]
      have hk : pred k = false := by
        rw [h k (by omega)]
        simp
        omega
      simp [hk]
    · have hik2 : i = k := by omega
      subst hik2
      have hfil : (List.range i).filter pred = [] := by
        rw [List.filter_eq_nil_iff]
        intro a ha
        have haa : a < i := List.mem_range.mp ha
        rw [h a (by omega)]
        simp
        omega
      have hk : pred i = true := by
        rw [h i (by omega)]
        simp
      simp [hfil, hk]

theorem range_filter_pair {i j : Nat} (hij : i < j) (pred : Nat → Bool) :
    ∀ n, j < n → (∀ p, p < n → pred p = (decide (p = i) || decide (p = j))) →
    (List.range n).filter pred = [i, j] := by
  intro n
  induction n with
  | zero => intro hj; omega
  | succ k ih =>
    intro hj h
    rw [List.range_succ, List.filter_append]
    by_cases hjk : j < k
    · rw [ih hjk (fun p hp => h p (by omega))]
      have hk : pred k = false := by
        rw [h k (by omega)]
        simp
        omega
      simp [hk]
    · have hjk2 : j = k := by omega
      subst hjk2
      have hfil : (List.range j).filter pred = [i] := by
        apply range_filter_singleton pred j hij
        intro p hp
        rw [h p (by omega)]
        rcases eq_or_ne p i with hpi | hpi <;> simp [hpi] <;> omega
      have hk : pred j = true := by
        rw [h j (by omega)]
        simp
      simp [hfil, hk]

theorem xor_one_eq_zero_iff (x : Nat) : (1 ^^^ x = 0) ↔ x = 1 := by
  rw [Nat.xor_eq_zero]
  exact eq_comm

theorem gfMul_alpha_eq_one_iff {u v : Nat} (hu : u < 63) (hv : v < 63) :
    gfMul (alpha_to u) (alpha_to v) = 1 ↔ (u + v) % 63 = 0 := by
  rw [gfMul_alpha hu hv, ← alpha_zero_val]
  constructor
  · intro h
    exact alpha_to_inj (Nat.mod_lt _ (by omega)) (by omega) h
  · intro h
    rw [h]

theorem chienEval_deg1 {i p : Nat} (hi : i < 63) (hp : p < 63) :
    (chienEval [1, alpha_to i] p = 0) ↔ p = i := by
  have hne : alpha_to i ≠ 0 := alpha_ne_zero i hi
  have hu : (63 - p) % 63 < 63 := Nat.mod_lt _ (by omega)
  unfold chienEval
  rw [show ([1, alpha_to i] : List Nat).length - 1 = 1 from rfl,
      show List.range' 1 1 = [1] from rfl]
  simp only [List.foldl_cons, List.foldl_nil, List.getD_cons_succ, List.getD_cons_zero]
  rw [if_neg hne, Nat.mul_one, gfMul_alpha hi hu, xor_one_eq_zero_iff]
  constructor
  · intro h
    rw [← alpha_zero_val] at h
    have h2 := alpha_to_inj (Nat.mod_lt _ (by omega)) (by omega) h
    omega
  · intro h
    subst h
    have h2 : (p + (63 - p) % 63) % 63 = 0 := by omega
    rw [h2, alpha_zero_val]

theorem chien_single {i : Nat} (hi : i < 63) : chienSearch [1, alpha_to i] = [i] := by
  unfold chienSearch
  rw [if_neg (by simp)]
  apply range_filter_singleton _ 63 hi
  intro p hp
  by_cases h : p = i
  · subst h
    simp [(chienEval_deg1 hi hp).mpr rfl]
  · have hno : ¬ (chienEval [1, alpha_to i] p = 0) := fun hc => h ((chienEval_deg1 hi hp).mp hc)
    simp [hno, h]

end BCH63

namespace BCH63

/-! ### Decoding a single-bit error -/

/-- Flattened form of `decode` (the `let` bindings of the source spelled
out), used for rewriting. -/
theorem decode_def (received : Nat) : decode received =
    (if (computeSyndromes received).all (· = 0) then
      { corrected := received, data := extractData received, error_locations := [],
        success := true, detected := false }
    else if (berlekampMassey (computeSyndromes received)).length - 1 = 0 ∨
        2 < (berlekampMassey (computeSyndromes received)).length - 1 then
      { corrected := received, data := extractData received, error_locations := [],
        success := false, detected := true }
    else if (chienSearch (berlekampMassey (computeSyndromes received))).length ≠
        (berlekampMassey (computeSyndromes received)).length - 1 then
      { corrected := received, data := extractData received, error_locations := [],
        success := false, detected := true }
    else if (computeSyndromes ((chienSearch (berlekampMassey (computeSyndromes received))).foldl
        flipBit received)).all (· = 0) then
      { corrected := (chienSearch (berlekampMassey (computeSyndromes received))).foldl
          flipBit received,
        data := extractData ((chienSearch (berlekampMassey (computeSyndromes received))).foldl
          flipBit received),
        error_locations := chienSearch (berlekampMassey (computeSyndromes received)),
        success := true, detected := true }
    else
      { corrected := received, data := extractData received, error_locations := [],
        success := false, detected := true }) := rfl

theorem syndromes_single {d p : Nat} (hd : d < 2 ^ 51) (hp : p < 63) :
    computeSyndromes (encode d ^^^ 2 ^ p) =
      [alpha_to p, alpha_to (2 * p % 63), alpha_to (3 * p % 63), alpha_to (4 * p % 63)] := by
  unfold computeSyndromes
  rw [computeSyndrome_xor, computeSyndrome_xor, computeSyndrome_xor, computeSyndrome_xor,
      encode_syndrome_zero hd 0 (by omega), encode_syndrome_zero hd 1 (by omega),
      encode_syndrome_zero hd 2 (by omega), encode_syndrome_zero hd 3 (by omega),
      computeSyndrome_two_pow hp 0, computeSyndrome_two_pow hp 1,
      computeSyndrome_two_pow hp 2, computeSyndrome_two_pow hp 3]
  simp only [Nat.zero_xor]
  norm_num [Nat.mod_eq_of_lt hp]

theorem flip_fold_one {received p : Nat} (hp : p < 63) :
    ([p] : List Nat).foldl flipBit received = received ^^^ 2 ^ p := by
  simp [flipBit, hp, one_shiftLeft]

theorem flip_xor_cancel (x e : Nat) : (x ^^^ e) ^^^ e = x := by
  rw [Nat.xor_assoc, Nat.xor_self, Nat.xor_zero]

theorem decode_single {d p : Nat} (hd : d < 2 ^ 51) (hp : p < 63) :
    decode (encode d ^^^ 2 ^ p) =
      { corrected := encode d, data := d, error_locations := [p],
        success := true, detected := true } := by
  have hsyn := syndromes_single hd hp
  have hne : alpha_to p ≠ 0 := alpha_ne_zero p hp
  have hflip : ([p] : List Nat).foldl flipBit (encode d ^^^ 2 ^ p) = encode d := by
    rw [flip_fold_one hp, flip_xor_cancel]
  rw [decode_def, hsyn, bm_single hp,
      if_neg (by simp [hne]), if_neg (by norm_num), chien_single hp, if_neg (by norm_num),
      hflip, encode_syndromes hd, if_pos (by decide), extractData_encode hd]

end BCH63

namespace BCH63

/-! ### Decoding a double-bit error

For errors at positions `i < j`, with `A = α^i`, `B = α^j`, the syndromes
are `S_m = A^{m+1} ⊕ B^{m+1}` and the Berlekamp–Massey loop produces the
locator `σ(x) = (1 ⊕ A x)(1 ⊕ B x) = [1, A ⊕ B, A·B]`; the Chien search
then finds exactly the roots `i` and `j`. -/

theorem gfMul_alpha_idx {u v w : Nat} (hu : u < 63) (hv : v < 63) (h : (u + v) % 63 = w) :
    gfMul (alpha_to u) (alpha_to v) = alpha_to w := by
  rw [gfMul_alpha hu hv, h]

theorem alpha_xor_ne_zero {u v : Nat} (hu : u < 63) (hv : v < 63) (huv : u ≠ v) :
    alpha_to u ^^^ alpha_to v ≠ 0 := by
  intro h
  exact huv (alpha_to_inj hu hv (Nat.xor_eq_zero.mp h))

theorem expand_E2 {i j : Nat} (hi : i < 63) (hj : j < 63) :
    gfMul (alpha_to i ^^^ alpha_to j) (alpha_to (2 * i % 63) ^^^ alpha_to (2 * j % 63)) =
      alpha_to (3 * i % 63) ^^^ alpha_to ((i + 2 * j) % 63) ^^^
      alpha_to ((2 * i + j) % 63) ^^^ alpha_to (3 * j % 63) := by
  have h2i : 2 * i % 63 < 63 := Nat.mod_lt _ (by omega)
  have h2j : 2 * j % 63 < 63 := Nat.mod_lt _ (by omega)
  rw [gfMul_xor_left _ _ _ (xor_lt_64 (alpha_lt _) (alpha_lt _))
        (alpha_lt i) (alpha_lt j),
      gfMul_xor_right _ _ _ (alpha_lt i) (alpha_lt _) (alpha_lt _),
      gfMul_xor_right _ _ _ (alpha_lt j) (alpha_lt _) (alpha_lt _),
      gfMul_alpha_idx hi h2i (show (i + 2 * i % 63) % 63 = 3 * i % 63 by omega),
      gfMul_alpha_idx hi h2j (show (i + 2 * j % 63) % 63 = (i + 2 * j) % 63 by omega),
      gfMul_alpha_idx hj h2i (show (j + 2 * i % 63) % 63 = (2 * i + j) % 63 by omega),
      gfMul_alpha_idx hj h2j (show (j + 2 * j % 63) % 63 = 3 * j % 63 by omega)]
  ac_rfl

theorem expand_E3 {i j : Nat} (hi : i < 63) (hj : j < 63) :
    gfMul (alpha_to ((i + j) % 63)) (alpha_to i ^^^ alpha_to j) =
      alpha_to ((2 * i + j) % 63) ^^^ alpha_to ((i + 2 * j) % 63) := by
  have hij : (i + j) % 63 < 63 := Nat.mod_lt _ (by omega)
  rw [gfMul_xor_right _ _ _ (alpha_lt _) (alpha_lt i) (alpha_lt j),
      gfMul_alpha_idx hij hi (show ((i + j) % 63 + i) % 63 = (2 * i + j) % 63 by omega),
      gfMul_alpha_idx hij hj (show ((i + j) % 63 + j) % 63 = (i + 2 * j) % 63 by omega)]

theorem expand_E4 {i j : Nat} (hi : i < 63) (hj : j < 63) :
    gfMul (alpha_to i ^^^ alpha_to j) (alpha_to (3 * i % 63) ^^^ alpha_to (3 * j % 63)) =
      alpha_to (4 * i % 63) ^^^ alpha_to ((i + 3 * j) % 63) ^^^
      alpha_to ((3 * i + j) % 63) ^^^ alpha_to (4 * j % 63) := by
  have h3i : 3 * i % 63 < 63 := Nat.mod_lt _ (by omega)
  have h3j : 3 * j % 63 < 63 := Nat.mod_lt _ (by omega)
  rw [gfMul_xor_left _ _ _ (xor_lt_64 (alpha_lt _) (alpha_lt _))
        (alpha_lt i) (alpha_lt j),
      gfMul_xor_right _ _ _ (alpha_lt i) (alpha_lt _) (alpha_lt _),
      gfMul_xor_right _ _ _ (alpha_lt j) (alpha_lt _) (alpha_lt _),
      gfMul_alpha_idx hi h3i (show (i + 3 * i % 63) % 63 = 4 * i % 63 by omega),
      gfMul_alpha_idx hi h3j (show (i + 3 * j % 63) % 63 = (i + 3 * j) % 63 by omega),
      gfMul_alpha_idx hj h3i (show (j + 3 * i % 63) % 63 = (3 * i + j) % 63 by omega),
      gfMul_alpha_idx hj h3j (show (j + 3 * j % 63) % 63 = 4 * j % 63 by omega)]
  ac_rfl

theorem expand_E5 {i j : Nat} (hi : i < 63) (hj : j < 63) :
    gfMul (alpha_to ((i + j) % 63)) (alpha_to (2 * i % 63) ^^^ alpha_to (2 * j % 63)) =
      alpha_to ((3 * i + j) % 63) ^^^ alpha_to ((i + 3 * j) % 63) := by
  have hij : (i + j) % 63 < 63 := Nat.mod_lt _ (by omega)
  have h2i : 2 * i % 63 < 63 := Nat.mod_lt _ (by omega)
  have h2j : 2 * j % 63 < 63 := Nat.mod_lt _ (by omega)
  rw [gfMul_xor_right _ _ _ (alpha_lt _) (alpha_lt _) (alpha_lt _),
      gfMul_alpha_idx hij h2i (show ((i + j) % 63 + 2 * i % 63) % 63 = (3 * i + j) % 63 by omega),
      gfMul_alpha_idx hij h2j (show ((i + j) % 63 + 2 * j % 63) % 63 = (i + 3 * j) % 63 by omega)]

end BCH63

namespace BCH63

theorem bm_double {i j : Nat} (hij : i < j) (hj : j < 63) :
    berlekampMassey
      [alpha_to i ^^^ alpha_to j,
       alpha_to (2 * i % 63) ^^^ alpha_to (2 * j % 63),
       alpha_to (3 * i % 63) ^^^ alpha_to (3 * j % 63),
       alpha_to (4 * i % 63) ^^^ alpha_to (4 * j % 63)] =
      [1, alpha_to i ^^^ alpha_to j, alpha_to ((i + j) % 63)] := by
  have hi : i < 63 := by omega
  have h2i : 2 * i % 63 < 63 := Nat.mod_lt _ (by omega)
  have h2j : 2 * j % 63 < 63 := Nat.mod_lt _ (by omega)
  have hijlt : (i + j) % 63 < 63 := Nat.mod_lt _ (by omega)
  have hS0ne : alpha_to i ^^^ alpha_to j ≠ 0 := alpha_xor_ne_zero hi hj (by omega)
  have hS0lt : alpha_to i ^^^ alpha_to j < 64 :=
    xor_lt_64 (alpha_lt _) (alpha_lt _)
  have hS1ne : alpha_to (2 * i % 63) ^^^ alpha_to (2 * j % 63) ≠ 0 :=
    alpha_xor_ne_zero h2i h2j (by omega)
  have hqne : alpha_to ((i + j) % 63) ≠ 0 := alpha_ne_zero _ hijlt
  have hqlt : alpha_to ((i + j) % 63) < 64 := alpha_lt _
  have hsq : gfMul (alpha_to i ^^^ alpha_to j) (alpha_to i ^^^ alpha_to j) =
      alpha_to (2 * i % 63) ^^^ alpha_to (2 * j % 63) := by
    rw [gf_sq_xor _ _ (alpha_lt i) (alpha_lt j),
        gfMul_alpha_idx hi hi (show (i + i) % 63 = 2 * i % 63 by omega),
        gfMul_alpha_idx hj hj (show (j + j) % 63 = 2 * j % 63 by omega)]
  have hD : (alpha_to (3 * i % 63) ^^^ alpha_to (3 * j % 63)) ^^^
      gfMul (alpha_to i ^^^ alpha_to j)
        (alpha_to (2 * i % 63) ^^^ alpha_to (2 * j % 63)) =
      gfMul (alpha_to ((i + j) % 63)) (alpha_to i ^^^ alpha_to j) := by
    rw [expand_E2 hi hj, expand_E3 hi hj]
    have hgroup : (alpha_to (3 * i % 63) ^^^ alpha_to (3 * j % 63)) ^^^
        (alpha_to (3 * i % 63) ^^^ alpha_to ((i + 2 * j) % 63) ^^^
          alpha_to ((2 * i + j) % 63) ^^^ alpha_to (3 * j % 63)) =
        (alpha_to (3 * i % 63) ^^^ alpha_to (3 * i % 63)) ^^^
        ((alpha_to (3 * j % 63) ^^^ alpha_to (3 * j % 63)) ^^^
          (alpha_to ((2 * i + j) % 63) ^^^ alpha_to ((i + 2 * j) % 63))) := by ac_rfl
    rw [hgroup, Nat.xor_self, Nat.xor_self, Nat.zero_xor, Nat.zero_xor]
  have hDne : gfMul (alpha_to ((i + j) % 63)) (alpha_to i ^^^ alpha_to j) ≠ 0 :=
    gfMul_ne_zero hqlt hS0lt hqne hS0ne
  have hcoef : gfMul (gfMul (alpha_to ((i + j) % 63)) (alpha_to i ^^^ alpha_to j))
      (gfInv (alpha_to i ^^^ alpha_to j)) = alpha_to ((i + j) % 63) := by
    rw [gfMul_assoc _ _ _ hqlt hS0lt (gfInv_lt _), gfMul_gfInv hS0lt hS0ne,
        gfMul_one _ hqlt]
  have s0 := bmStep_zero
    [alpha_to i ^^^ alpha_to j,
     alpha_to (2 * i % 63) ^^^ alpha_to (2 * j % 63),
     alpha_to (3 * i % 63) ^^^ alpha_to (3 * j % 63),
     alpha_to (4 * i % 63) ^^^ alpha_to (4 * j % 63)]
    (alpha_to i ^^^ alpha_to j) rfl hS0ne hS0lt
  have s1 : bmStep
      [alpha_to i ^^^ alpha_to j,
       alpha_to (2 * i % 63) ^^^ alpha_to (2 * j % 63),
       alpha_to (3 * i % 63) ^^^ alpha_to (3 * j % 63),
       alpha_to (4 * i % 63) ^^^ alpha_to (4 * j % 63)]
      ⟨[1, alpha_to i ^^^ alpha_to j], [1], 1, 1, alpha_to i ^^^ alpha_to j⟩ 1 =
      ⟨[1, alpha_to i ^^^ alpha_to j], [1], 1, 2, alpha_to i ^^^ alpha_to j⟩ := by
    unfold bmStep
    rw [show List.range' 1 1 = [1] from rfl]
    simp [hS0ne, hsq]
  have hss : scaleAndShift [1] (alpha_to ((i + j) % 63)) 2 =
      [0, 0, alpha_to ((i + j) % 63)] := scaleAndShift_two _ hqne hqlt
  have hpa : polyAdd [1, alpha_to i ^^^ alpha_to j] [0, 0, alpha_to ((i + j) % 63)] =
      [1, alpha_to i ^^^ alpha_to j, alpha_to ((i + j) % 63)] := polyAdd_deg2 _ _ hqne
  have s2 : bmStep
      [alpha_to i ^^^ alpha_to j,
       alpha_to (2 * i % 63) ^^^ alpha_to (2 * j % 63),
       alpha_to (3 * i % 63) ^^^ alpha_to (3 * j % 63),
       alpha_to (4 * i % 63) ^^^ alpha_to (4 * j % 63)]
      ⟨[1, alpha_to i ^^^ alpha_to j], [1], 1, 2, alpha_to i ^^^ alpha_to j⟩ 2 =
      ⟨[1, alpha_to i ^^^ alpha_to j, alpha_to ((i + j) % 63)],
       [1, alpha_to i ^^^ alpha_to j], 2, 1,
       gfMul (alpha_to ((i + j) % 63)) (alpha_to i ^^^ alpha_to j)⟩ := by
    unfold bmStep
    rw [show List.range' 1 1 = [1] from rfl]
    simp [hS0ne, hS1ne, hD, hDne, hcoef, hss, hpa]
  have s3 : bmStep
      [alpha_to i ^^^ alpha_to j,
       alpha_to (2 * i % 63) ^^^ alpha_to (2 * j % 63),
       alpha_to (3 * i % 63) ^^^ alpha_to (3 * j % 63),
       alpha_to (4 * i % 63) ^^^ alpha_to (4 * j % 63)]
      ⟨[1, alpha_to i ^^^ alpha_to j, alpha_to ((i + j) % 63)],
       [1, alpha_to i ^^^ alpha_to j], 2, 1,
       gfMul (alpha_to ((i + j) % 63)) (alpha_to i ^^^ alpha_to j)⟩ 3 =
      ⟨[1, alpha_to i ^^^ alpha_to j, alpha_to ((i + j) % 63)],
       [1, alpha_to i ^^^ alpha_to j], 2, 2,
       gfMul (alpha_to ((i + j) % 63)) (alpha_to i ^^^ alpha_to j)⟩ := by
    unfold bmStep
    rw [show List.range' 1 2 = [1, 2] from rfl]
    simp only [List.foldl_cons, List.foldl_nil, List.getD_cons_succ, List.getD_cons_zero,
      List.length_cons, List.length_nil]
    rcases eq_or_ne (alpha_to (3 * i % 63) ^^^ alpha_to (3 * j % 63)) 0 with h20 | h20
    · have hz : alpha_to (4 * i % 63) ^^^ alpha_to ((i + 3 * j) % 63) ^^^
          alpha_to ((3 * i + j) % 63) ^^^ alpha_to (4 * j % 63) = 0 := by
        rw [← expand_E4 hi hj, h20, gfMul_zero]
      have hd0 : (alpha_to (4 * i % 63) ^^^ alpha_to (4 * j % 63)) ^^^
          gfMul (alpha_to ((i + j) % 63))
            (alpha_to (2 * i % 63) ^^^ alpha_to (2 * j % 63)) = 0 := by
        rw [expand_E5 hi hj]
        have hre : (alpha_to (4 * i % 63) ^^^ alpha_to (4 * j % 63)) ^^^
            (alpha_to ((3 * i + j) % 63) ^^^ alpha_to ((i + 3 * j) % 63)) =
            alpha_to (4 * i % 63) ^^^ alpha_to ((i + 3 * j) % 63) ^^^
            alpha_to ((3 * i + j) % 63) ^^^ alpha_to (4 * j % 63) := by ac_rfl
        rw [hre, hz]
      simp [h20, hS1ne, hqne, hd0]
    · have hd0 : ((alpha_to (4 * i % 63) ^^^ alpha_to (4 * j % 63)) ^^^
          gfMul (alpha_to i ^^^ alpha_to j)
            (alpha_to (3 * i % 63) ^^^ alpha_to (3 * j % 63))) ^^^
          gfMul (alpha_to ((i + j) % 63))
            (alpha_to (2 * i % 63) ^^^ alpha_to (2 * j % 63)) = 0 := by
        rw [expand_E4 hi hj, expand_E5 hi hj]
        have hre : (alpha_to (4 * i % 63) ^^^ alpha_to (4 * j % 63) ^^^
            (alpha_to (4 * i % 63) ^^^ alpha_to ((i + 3 * j) % 63) ^^^
              alpha_to ((3 * i + j) % 63) ^^^ alpha_to (4 * j % 63))) ^^^
            (alpha_to ((3 * i + j) % 63) ^^^ alpha_to ((i + 3 * j) % 63)) =
            (alpha_to (4 * i % 63) ^^^ alpha_to (4 * i % 63)) ^^^
            ((alpha_to (4 * j % 63) ^^^ alpha_to (4 * j % 63)) ^^^
              ((alpha_to ((i + 3 * j) % 63) ^^^ alpha_to ((i + 3 * j) % 63)) ^^^
                (alpha_to ((3 * i + j) % 63) ^^^ alpha_to ((3 * i + j) % 63)))) := by ac_rfl
        rw [hre]
        simp
      simp [h20, hS0ne, hS1ne, hqne, hd0]
  show ((List.range 4).foldl
    (bmStep [alpha_to i ^^^ alpha_to j,
      alpha_to (2 * i % 63) ^^^ alpha_to (2 * j % 63),
      alpha_to (3 * i % 63) ^^^ alpha_to (3 * j % 63),
      alpha_to (4 * i % 63) ^^^ alpha_to (4 * j % 63)])
    ⟨[1], [1], 0, 1, 1⟩).C = [1, alpha_to i ^^^ alpha_to j, alpha_to ((i + j) % 63)]
  rw [show List.range 4 = [0, 1, 2, 3] from rfl]
  simp only [List.foldl_cons, List.foldl_nil]
  rw [s0, s1, s2, s3]

end BCH63

namespace BCH63

theorem gf_quad_factor {wi wj wq : Nat} (hwi : wi < 63) (hwj : wj < 63)
    (hw : (wi + wj) % 63 = wq) :
    (1 : Nat) ^^^ (alpha_to wi ^^^ alpha_to wj) ^^^ alpha_to wq =
      gfMul (1 ^^^ alpha_to wi) (1 ^^^ alpha_to wj) := by
  have hbj : (1 : Nat) ^^^ alpha_to wj < 64 := xor_lt_64 (by norm_num) (alpha_lt _)
  rw [gfMul_xor_left _ _ _ hbj (by norm_num) (alpha_lt _),
      one_gfMul _ hbj,
      gfMul_xor_right _ _ _ (alpha_lt _) (by norm_num) (alpha_lt _),
      gfMul_one _ (alpha_lt _),
      gfMul_alpha_idx hwi hwj hw]
  ac_rfl

theorem one_xor_alpha_eq_zero_iff {w : Nat} (hw : w < 63) :
    ((1 : Nat) ^^^ alpha_to w = 0) ↔ w = 0 := by
  rw [xor_one_eq_zero_iff]
  constructor
  · intro h
    rw [← alpha_zero_val] at h
    exact alpha_to_inj hw (by omega) h
  · intro h
    rw [h, alpha_zero_val]

theorem chienEval_deg2 {i j p : Nat} (hij : i < j) (hj : j < 63) (hp : p < 63) :
    (chienEval [1, alpha_to i ^^^ alpha_to j, alpha_to ((i + j) % 63)] p = 0) ↔
      (p = i ∨ p = j) := by
  have hi : i < 63 := by omega
  have hS0ne : alpha_to i ^^^ alpha_to j ≠ 0 := alpha_xor_ne_zero hi hj (by omega)
  have hq63 : (i + j) % 63 < 63 := Nat.mod_lt _ (by omega)
  have hqne : alpha_to ((i + j) % 63) ≠ 0 := alpha_ne_zero _ hq63
  have hu : (63 - p) % 63 < 63 := Nat.mod_lt _ (by omega)
  have hu2 : (63 - p) * 2 % 63 < 63 := Nat.mod_lt _ (by omega)
  have hwi : (i + (63 - p) % 63) % 63 < 63 := Nat.mod_lt _ (by omega)
  have hwj : (j + (63 - p) % 63) % 63 < 63 := Nat.mod_lt _ (by omega)
  unfold chienEval
  rw [show ([1, alpha_to i ^^^ alpha_to j, alpha_to ((i + j) % 63)] : List Nat).length - 1 = 2
        from rfl,
      show List.range' 1 2 = [1, 2] from rfl]
  simp only [List.foldl_cons, List.foldl_nil, List.getD_cons_succ, List.getD_cons_zero]
  rw [if_neg hS0ne, if_neg hqne, Nat.mul_one,
      gfMul_xor_left _ _ _ (alpha_lt _) (alpha_lt _) (alpha_lt _),
      gfMul_alpha_idx hi hu rfl, gfMul_alpha_idx hj hu rfl,
      gfMul_alpha_idx hq63 hu2 rfl,
      gf_quad_factor hwi hwj
        (show ((i + (63 - p) % 63) % 63 + (j + (63 - p) % 63) % 63) % 63 =
          ((i + j) % 63 + (63 - p) * 2 % 63) % 63 by omega)]
  constructor
  · intro h
    rcases gfMul_eq_zero h with h1 | h1
    · left
      have h2 := (one_xor_alpha_eq_zero_iff hwi).mp h1
      omega
    · right
      have h2 := (one_xor_alpha_eq_zero_iff hwj).mp h1
      omega
  · intro h
    rcases h with h | h
    · rw [show (i + (63 - p) % 63) % 63 = 0 by omega, alpha_zero_val, Nat.xor_self,
          zero_gfMul]
    · rw [show (j + (63 - p) % 63) % 63 = 0 by omega, alpha_zero_val, Nat.xor_self,
          gfMul_zero]

theorem chien_double {i j : Nat} (hij : i < j) (hj : j < 63) :
    chienSearch [1, alpha_to i ^^^ alpha_to j, alpha_to ((i + j) % 63)] = [i, j] := by
  unfold chienSearch
  rw [if_neg (by simp)]
  apply range_filter_pair hij _ 63 hj
  intro p hp
  by_cases hz : chienEval [1, alpha_to i ^^^ alpha_to j, alpha_to ((i + j) % 63)] p = 0
  · rcases (chienEval_deg2 hij hj hp).mp hz with h | h <;> subst h <;> simp [hz]
  · have hne : ¬(p = i ∨ p = j) := fun hc => hz ((chienEval_deg2 hij hj hp).mpr hc)
    push_neg at hne
    simp [hz, hne.1, hne.2]

theorem syndromes_double {d i j : Nat} (hd : d < 2 ^ 51) (hij : i < j) (hj : j < 63) :
    computeSyndromes (encode d ^^^ 2 ^ i ^^^ 2 ^ j) =
      [alpha_to i ^^^ alpha_to j,
       alpha_to (2 * i % 63) ^^^ alpha_to (2 * j % 63),
       alpha_to (3 * i % 63) ^^^ alpha_to (3 * j % 63),
       alpha_to (4 * i % 63) ^^^ alpha_to (4 * j % 63)] := by
  have hi : i < 63 := by omega
  unfold computeSyndromes
  rw [computeSyndrome_xor, computeSyndrome_xor, computeSyndrome_xor, computeSyndrome_xor,
      computeSyndrome_xor, computeSyndrome_xor, computeSyndrome_xor, computeSyndrome_xor,
      encode_syndrome_zero hd 0 (by omega), encode_syndrome_zero hd 1 (by omega),
      encode_syndrome_zero hd 2 (by omega), encode_syndrome_zero hd 3 (by omega),
      computeSyndrome_two_pow hi 0, computeSyndrome_two_pow hi 1,
      computeSyndrome_two_pow hi 2, computeSyndrome_two_pow hi 3,
      computeSyndrome_two_pow hj 0, computeSyndrome_two_pow hj 1,
      computeSyndrome_two_pow hj 2, computeSyndrome_two_pow hj 3]
  simp only [Nat.zero_xor]
  norm_num [Nat.mod_eq_of_lt hi, Nat.mod_eq_of_lt hj]

theorem flip_fold_two {r i j : Nat} (hi : i < 63) (hj : j < 63) :
    ([i, j] : List Nat).foldl flipBit (r ^^^ 2 ^ i ^^^ 2 ^ j) = r := by
  simp only [List.foldl_cons, List.foldl_nil]
  unfold flipBit
  rw [if_pos hi, if_pos hj, one_shiftLeft, one_shiftLeft,
      show r ^^^ 2 ^ i ^^^ 2 ^ j ^^^ 2 ^ i = r ^^^ (2 ^ i ^^^ 2 ^ i) ^^^ 2 ^ j from by ac_rfl,
      Nat.xor_self, Nat.xor_zero, flip_xor_cancel]

theorem decode_double {d i j : Nat} (hd : d < 2 ^ 51) (hij : i < j) (hj : j < 63) :
    decode (encode d ^^^ 2 ^ i ^^^ 2 ^ j) =
      { corrected := encode d, data := d, error_locations := [i, j],
        success := true, detected := true } := by
  have hi : i < 63 := by omega
  have hsyn := syndromes_double hd hij hj
  have hS0ne : alpha_to i ^^^ alpha_to j ≠ 0 := alpha_xor_ne_zero hi hj (by omega)
  have hflip := flip_fold_two (r := encode d) hi hj
  rw [decode_def, hsyn, bm_double hij hj,
      if_neg (by simp [hS0ne]), if_neg (by norm_num), chien_double hij hj,
      if_neg (by norm_num), hflip, encode_syndromes hd, if_pos (by decide),
      extractData_encode hd]

end BCH63

namespace BCH63

/-! ### Weight-3 error patterns: detection and spurious-success analysis -/

theorem synAcc_trunc (x m k : Nat) (hx : x < 2 ^ k) :
    ∀ n, k ≤ n → synAcc x m n = synAcc x m k := by
  intro n
  induction n with
  | zero =>
    intro h
    have hk : k = 0 := by omega
    rw [hk]
  | succ nn ih =>
    intro h
    rcases eq_or_ne k (nn + 1) with he | hne
    · rw [he]
    · have hk : k ≤ nn := by omega
      have hbit : x.testBit nn = false :=
        Nat.testBit_lt_two_pow (lt_of_lt_of_le hx (Nat.pow_le_pow_right (by omega) hk))
      simp only [synAcc, hbit]
      rw [ih hk]
      simp

def lowOK (x : Nat) : Bool :=
  (x == 0) ||
    !((synAcc x 0 12 == 0) && (synAcc x 1 12 == 0) &&
      (synAcc x 2 12 == 0) && (synAcc x 3 12 == 0))

set_option maxRecDepth 20000 in
set_option maxHeartbeats 4000000 in
theorem lowOK_all : ∀ a < 64, ∀ b < 64, lowOK (64 * a + b) = true := by decide

theorem low12_syndrome_nonzero :
    ∀ x < 4096, x ≠ 0 →
      (synAcc x 0 12 ≠ 0 ∨ synAcc x 1 12 ≠ 0 ∨ synAcc x 2 12 ≠ 0 ∨ synAcc x 3 12 ≠ 0) := by
  intro x hx h0
  have h := lowOK_all (x / 64) (by omega) (x % 64) (by omega)
  rw [show 64 * (x / 64) + x % 64 = x from by omega] at h
  unfold lowOK at h
  simp only [Bool.or_eq_true, Bool.not_eq_true', Bool.and_eq_false_iff, beq_iff_eq,
    beq_eq_false_iff_ne] at h
  rcases h with h | h
  · exact absurd h h0
  · tauto

theorem computeSyndromes_low {x : Nat} (hx : x < 2 ^ 12) :
    computeSyndromes x = [synAcc x 0 12, synAcc x 1 12, synAcc x 2 12, synAcc x 3 12] := by
  unfold computeSyndromes computeSyndrome
  rw [synAcc_trunc x 0 12 hx 63 (by omega), synAcc_trunc x 1 12 hx 63 (by omega),
      synAcc_trunc x 2 12 hx 63 (by omega), synAcc_trunc x 3 12 hx 63 (by omega)]

theorem low_word_zero {x : Nat} (hx : x < 2 ^ 12)
    (h : (computeSyndromes x).all (· = 0) = true) : x = 0 := by
  by_contra h0
  have h4 : x < 4096 := by
    have hx2 := hx
    norm_num at hx2
    exact hx2
  rw [computeSyndromes_low hx] at h
  simp only [List.all_cons, List.all_nil, Bool.and_true, Bool.and_eq_true,
    decide_eq_true_eq] at h
  rcases low12_syndrome_nonzero x h4 h0 with hc | hc | hc | hc <;> tauto

theorem extractData_xor (x y : Nat) :
    extractData (x ^^^ y) = extractData x ^^^ extractData y := by
  apply Nat.eq_of_testBit_eq
  intro t
  rw [Nat.testBit_xor ..]
  unfold extractData
  rw [extractAux_testBit, extractAux_testBit, extractAux_testBit]
  by_cases ht : t < kBCH
  · rw [decide_eq_true ht]
    simp only [Bool.true_and]
    unfold getBit
    have hlt : generator_degree + t < 63 := by
      have h1 : kBCH = 51 := rfl
      have h2 : generator_degree = 12 := rfl
      omega
    rw [if_pos hlt, if_pos hlt, if_pos hlt, Nat.testBit_xor ..]
  · simp [ht]

theorem extract_zero_low {x : Nat} (hx : x < 2 ^ 63) (h : extractData x = 0) :
    x < 2 ^ 12 := by
  have heq : x = x % 2 ^ 12 := by
    apply Nat.eq_of_testBit_eq
    intro t
    rw [Nat.testBit_mod_two_pow x 12 t]
    by_cases ht : t < 12
    · simp [ht]
    · rw [decide_eq_false ht]
      simp only [Bool.false_and]
      by_cases ht2 : t < 63
      · have hbit := congrArg (fun z => Nat.testBit z (t - 12)) h
        simp only [Nat.zero_testBit] at hbit
        rw [extractData, extractAux_testBit] at hbit
        have hdlt : t - 12 < kBCH := by
          show t - 12 < 51
          omega
        rw [decide_eq_true hdlt] at hbit
        simp only [Bool.true_and] at hbit
        have harg : generator_degree + (t - 12) = t := by
          show 12 + (t - 12) = t
          omega
        rw [harg] at hbit
        unfold getBit at hbit
        rw [if_pos ht2] at hbit
        exact hbit
      · exact Nat.testBit_lt_two_pow
          (lt_of_lt_of_le hx (Nat.pow_le_pow_right (by omega) (by omega)))
  rw [heq]
  exact Nat.mod_lt _ (by norm_num)

theorem flip_fold_pair {r a b : Nat} (ha : a < 63) (hb : b < 63) :
    ([a, b] : List Nat).foldl flipBit r = r ^^^ 2 ^ a ^^^ 2 ^ b := by
  simp [flipBit, ha, hb, one_shiftLeft]

end BCH63

namespace BCH63

theorem gf_cube_sum_ne {a b : Nat} (ha : a < 64) (hb : b < 64) (ha0 : a ≠ 0) (hb0 : b ≠ 0)
    (hab : a ^^^ b ≠ 0) :
    gfMul a (gfMul a a) ^^^ gfMul b (gfMul b b) ^^^
      gfMul (a ^^^ b) (gfMul (a ^^^ b) (a ^^^ b)) ≠ 0 := by
  have hab64 : a ^^^ b < 64 := xor_lt_64 ha hb
  have ha2 : gfMul a a < 64 := gfMul_lt a a
  have hb2 : gfMul b b < 64 := gfMul_lt b b
  have habp : gfMul a b < 64 := gfMul_lt a b
  have hsq : gfMul (a ^^^ b) (a ^^^ b) = gfMul a a ^^^ gfMul b b := gf_sq_xor a b ha hb
  have hx : gfMul (a ^^^ b) (gfMul a a ^^^ gfMul b b) =
      (gfMul a (gfMul a a) ^^^ gfMul a (gfMul b b)) ^^^
      (gfMul b (gfMul a a) ^^^ gfMul b (gfMul b b)) := by
    rw [gfMul_xor_left _ _ _ (xor_lt_64 ha2 hb2) ha hb,
        gfMul_xor_right _ _ _ ha ha2 hb2, gfMul_xor_right _ _ _ hb ha2 hb2]
  intro h0
  rw [hsq, hx] at h0
  have hre : gfMul a (gfMul a a) ^^^ gfMul b (gfMul b b) ^^^
      ((gfMul a (gfMul a a) ^^^ gfMul a (gfMul b b)) ^^^
       (gfMul b (gfMul a a) ^^^ gfMul b (gfMul b b))) =
      (gfMul a (gfMul a a) ^^^ gfMul a (gfMul a a)) ^^^
      ((gfMul b (gfMul b b) ^^^ gfMul b (gfMul b b)) ^^^
       (gfMul a (gfMul b b) ^^^ gfMul b (gfMul a a))) := by ac_rfl
  rw [hre, Nat.xor_self, Nat.xor_self, Nat.zero_xor, Nat.zero_xor] at h0
  have he : gfMul a (gfMul b b) ^^^ gfMul b (gfMul a a) =
      gfMul (gfMul a b) (a ^^^ b) := by
    rw [gfMul_xor_right _ _ _ habp ha hb, gfMul_assoc a b b ha hb hb,
        show gfMul (gfMul a b) a = gfMul b (gfMul a a) from by
          rw [gfMul_comm a b]
          exact gfMul_assoc b a a hb ha ha,
        Nat.xor_comm]
  rw [he] at h0
  exact (gfMul_ne_zero habp hab64 (gfMul_ne_zero ha hb ha0 hb0) hab) h0

theorem syndromes_triple {d i j k : Nat} (hd : d < 2 ^ 51)
    (hi : i < 63) (hj : j < 63) (hk : k < 63) :
    computeSyndromes (encode d ^^^ 2 ^ i ^^^ 2 ^ j ^^^ 2 ^ k) =
      [alpha_to i ^^^ alpha_to j ^^^ alpha_to k,
       alpha_to (2 * i % 63) ^^^ alpha_to (2 * j % 63) ^^^ alpha_to (2 * k % 63),
       alpha_to (3 * i % 63) ^^^ alpha_to (3 * j % 63) ^^^ alpha_to (3 * k % 63),
       alpha_to (4 * i % 63) ^^^ alpha_to (4 * j % 63) ^^^ alpha_to (4 * k % 63)] := by
  unfold computeSyndromes
  rw [computeSyndrome_xor, computeSyndrome_xor, computeSyndrome_xor, computeSyndrome_xor,
      computeSyndrome_xor, computeSyndrome_xor, computeSyndrome_xor, computeSyndrome_xor,
      computeSyndrome_xor, computeSyndrome_xor, computeSyndrome_xor, computeSyndrome_xor,
      encode_syndrome_zero hd 0 (by omega), encode_syndrome_zero hd 1 (by omega),
      encode_syndrome_zero hd 2 (by omega), encode_syndrome_zero hd 3 (by omega),
      computeSyndrome_two_pow hi 0, computeSyndrome_two_pow hi 1,
      computeSyndrome_two_pow hi 2, computeSyndrome_two_pow hi 3,
      computeSyndrome_two_pow hj 0, computeSyndrome_two_pow hj 1,
      computeSyndrome_two_pow hj 2, computeSyndrome_two_pow hj 3,
      computeSyndrome_two_pow hk 0, computeSyndrome_two_pow hk 1,
      computeSyndrome_two_pow hk 2, computeSyndrome_two_pow hk 3]
  simp only [Nat.zero_xor]
  norm_num [Nat.mod_eq_of_lt hi, Nat.mod_eq_of_lt hj, Nat.mod_eq_of_lt hk]

theorem syndromes_triple_nonzero {d i j k : Nat} (hd : d < 2 ^ 51)
    (hij : i < j) (hjk : j < k) (hk : k < 63) :
    ¬((computeSyndromes (encode d ^^^ 2 ^ i ^^^ 2 ^ j ^^^ 2 ^ k)).all (· = 0) = true) := by
  have hi : i < 63 := by omega
  have hj63 : j < 63 := by omega
  rw [syndromes_triple hd hi hj63 hk]
  intro h
  simp only [List.all_cons, List.all_nil, Bool.and_true, Bool.and_eq_true,
    decide_eq_true_eq] at h
  obtain ⟨h0, _, h2, _⟩ := h
  have hxy : alpha_to i ^^^ alpha_to j = alpha_to k := Nat.xor_eq_zero.mp h0
  have e1 : alpha_to (3 * i % 63) = gfMul (alpha_to i) (gfMul (alpha_to i) (alpha_to i)) := by
    rw [gfMul_alpha_idx hi hi (show (i + i) % 63 = 2 * i % 63 by omega),
        gfMul_alpha_idx hi (Nat.mod_lt _ (by omega))
          (show (i + 2 * i % 63) % 63 = 3 * i % 63 by omega)]
  have e2 : alpha_to (3 * j % 63) = gfMul (alpha_to j) (gfMul (alpha_to j) (alpha_to j)) := by
    rw [gfMul_alpha_idx hj63 hj63 (show (j + j) % 63 = 2 * j % 63 by omega),
        gfMul_alpha_idx hj63 (Nat.mod_lt _ (by omega))
          (show (j + 2 * j % 63) % 63 = 3 * j % 63 by omega)]
  have e3 : alpha_to (3 * k % 63) = gfMul (alpha_to k) (gfMul (alpha_to k) (alpha_to k)) := by
    rw [gfMul_alpha_idx hk hk (show (k + k) % 63 = 2 * k % 63 by omega),
        gfMul_alpha_idx hk (Nat.mod_lt _ (by omega))
          (show (k + 2 * k % 63) % 63 = 3 * k % 63 by omega)]
  rw [e1, e2, e3, ← hxy] at h2
  exact gf_cube_sum_ne (alpha_lt i) (alpha_lt j) (alpha_ne_zero i hi)
    (alpha_ne_zero j hj63) (hxy ▸ alpha_ne_zero k hk) h2

theorem decode_detected_iff (received : Nat) :
    (decode received).detected = true ↔
      ¬((computeSyndromes received).all (· = 0) = true) := by
  rw [decode_def]
  split_ifs with h1 h2 h3 h4 <;> simp [h1]

theorem decode_branch_fail2 {received : Nat}
    (h1 : ¬((computeSyndromes received).all (· = 0) = true))
    (h2 : (berlekampMassey (computeSyndromes received)).length - 1 = 0 ∨
        2 < (berlekampMassey (computeSyndromes received)).length - 1) :
    decode received =
      { corrected := received, data := extractData received, error_locations := [],
        success := false, detected := true } := by
  rw [decode_def, if_neg h1, if_pos h2]

theorem decode_branch_fail3 {received : Nat}
    (h1 : ¬((computeSyndromes received).all (· = 0) = true))
    (h2 : ¬((berlekampMassey (computeSyndromes received)).length - 1 = 0 ∨
        2 < (berlekampMassey (computeSyndromes received)).length - 1))
    (h3 : (chienSearch (berlekampMassey (computeSyndromes received))).length ≠
        (berlekampMassey (computeSyndromes received)).length - 1) :
    decode received =
      { corrected := received, data := extractData received, error_locations := [],
        success := false, detected := true } := by
  rw [decode_def, if_neg h1, if_neg h2, if_pos h3]

theorem decode_branch_fail5 {received : Nat}
    (h1 : ¬((computeSyndromes received).all (· = 0) = true))
    (h2 : ¬((berlekampMassey (computeSyndromes received)).length - 1 = 0 ∨
        2 < (berlekampMassey (computeSyndromes received)).length - 1))
    (h3 : ¬((chienSearch (berlekampMassey (computeSyndromes received))).length ≠
        (berlekampMassey (computeSyndromes received)).length - 1))
    (h4 : ¬((computeSyndromes
        ((chienSearch (berlekampMassey (computeSyndromes received))).foldl
          flipBit received)).all (· = 0) = true)) :
    decode received =
      { corrected := received, data := extractData received, error_locations := [],
        success := false, detected := true } := by
  rw [decode_def, if_neg h1, if_neg h2, if_neg h3, if_neg h4]

theorem decode_branch4 {received : Nat}
    (h1 : ¬((computeSyndromes received).all (· = 0) = true))
    (h2 : ¬((berlekampMassey (computeSyndromes received)).length - 1 = 0 ∨
        2 < (berlekampMassey (computeSyndromes received)).length - 1))
    (h3 : ¬((chienSearch (berlekampMassey (computeSyndromes received))).length ≠
        (berlekampMassey (computeSyndromes received)).length - 1))
    (h4 : (computeSyndromes
        ((chienSearch (berlekampMassey (computeSyndromes received))).foldl
          flipBit received)).all (· = 0) = true) :
    decode received =
      { corrected := (chienSearch (berlekampMassey (computeSyndromes received))).foldl
          flipBit received,
        data := extractData ((chienSearch (berlekampMassey (computeSyndromes received))).foldl
          flipBit received),
        error_locations := chienSearch (berlekampMassey (computeSyndromes received)),
        success := true, detected := true } := by
  rw [decode_def, if_neg h1, if_neg h2, if_neg h3, if_pos h4]

theorem decode_success_cases {received : Nat}
    (hs : (decode received).success = true)
    (hnz : ¬((computeSyndromes received).all (· = 0) = true)) :
    ∃ locs : List Nat,
      locs = chienSearch (berlekampMassey (computeSyndromes received)) ∧
      (locs.length = 1 ∨ locs.length = 2) ∧
      (decode received).corrected = locs.foldl flipBit received ∧
      (computeSyndromes (locs.foldl flipBit received)).all (· = 0) = true ∧
      (decode received).data = extractData (locs.foldl flipBit received) := by
  by_cases h2 : (berlekampMassey (computeSyndromes received)).length - 1 = 0 ∨
      2 < (berlekampMassey (computeSyndromes received)).length - 1
  · rw [decode_branch_fail2 hnz h2] at hs
    simp at hs
  by_cases h3 : (chienSearch (berlekampMassey (computeSyndromes received))).length ≠
      (berlekampMassey (computeSyndromes received)).length - 1
  · rw [decode_branch_fail3 hnz h2 h3] at hs
    simp at hs
  by_cases h4 : (computeSyndromes
      ((chienSearch (berlekampMassey (computeSyndromes received))).foldl
        flipBit received)).all (· = 0) = true
  · have heq := decode_branch4 hnz h2 h3 h4
    refine ⟨chienSearch (berlekampMassey (computeSyndromes received)), rfl, ?_, ?_, h4, ?_⟩
    · rw [not_not] at h3
      push_neg at h2
      omega
    · rw [heq]
    · rw [heq]
  · rw [decode_branch_fail5 hnz h2 h3 h4] at hs
    simp at hs

theorem chienSearch_mem_lt {loc : List Nat} {x : Nat} (hx : x ∈ chienSearch loc) : x < 63 := by
  unfold chienSearch at hx
  split_ifs at hx with h
  · simp at hx
  · exact List.mem_range.mp (List.mem_of_mem_filter hx)

theorem chienSearch_nodup (loc : List Nat) : (chienSearch loc).Nodup := by
  unfold chienSearch
  split_ifs
  · exact List.nodup_nil
  · exact (List.nodup_range 63).filter _

theorem single_ne_triple {a i j k : Nat} (hij : i < j) (hjk : j < k) :
    (2 : Nat) ^ a ≠ 2 ^ i ^^^ 2 ^ j ^^^ 2 ^ k := by
  intro h
  have hti : Nat.testBit (2 ^ i ^^^ 2 ^ j ^^^ 2 ^ k) i = true := by
    simp [Nat.testBit_xor, Nat.testBit_two_pow, show ¬(j = i) by omega,
      show ¬(k = i) by omega]
  have htj : Nat.testBit (2 ^ i ^^^ 2 ^ j ^^^ 2 ^ k) j = true := by
    simp [Nat.testBit_xor, Nat.testBit_two_pow, show ¬(i = j) by omega,
      show ¬(k = j) by omega]
  rw [← h] at hti htj
  simp only [Nat.testBit_two_pow, decide_eq_true_eq] at hti htj
  omega

theorem pair_ne_triple {a b i j k : Nat} (hab : a ≠ b) (hij : i < j) (hjk : j < k) :
    (2 : Nat) ^ a ^^^ 2 ^ b ≠ 2 ^ i ^^^ 2 ^ j ^^^ 2 ^ k := by
  intro h
  have key : ∀ t, Nat.testBit (2 ^ i ^^^ 2 ^ j ^^^ 2 ^ k) t = true → t = a ∨ t = b := by
    intro t ht
    rw [← h] at ht
    rcases eq_or_ne a t with h1 | h1
    · left
      omega
    · right
      simp [Nat.testBit_xor, Nat.testBit_two_pow, h1] at ht
      omega
  have hti : Nat.testBit (2 ^ i ^^^ 2 ^ j ^^^ 2 ^ k) i = true := by
    simp [Nat.testBit_xor, Nat.testBit_two_pow, show ¬(j = i) by omega,
      show ¬(k = i) by omega]
  have htj : Nat.testBit (2 ^ i ^^^ 2 ^ j ^^^ 2 ^ k) j = true := by
    simp [Nat.testBit_xor, Nat.testBit_two_pow, show ¬(i = j) by omega,
      show ¬(k = j) by omega]
  have htk : Nat.testBit (2 ^ i ^^^ 2 ^ j ^^^ 2 ^ k) k = true := by
    simp [Nat.testBit_xor, Nat.testBit_two_pow, show ¬(i = k) by omega,
      show ¬(j = k) by omega]
  rcases key i hti with h1 | h1 <;> rcases key j htj with h2 | h2 <;>
    rcases key k htk with h3 | h3 <;> omega

end BCH63

namespace BCH63

theorem computeSyndromes_encode_xor {d : Nat} (hd : d < 2 ^ 51) (x : Nat) :
    computeSyndromes (encode d ^^^ x) = computeSyndromes x := by
  unfold computeSyndromes
  rw [computeSyndrome_xor, computeSyndrome_xor, computeSyndrome_xor, computeSyndrome_xor,
      encode_syndrome_zero hd 0 (by omega), encode_syndrome_zero hd 1 (by omega),
      encode_syndrome_zero hd 2 (by omega), encode_syndrome_zero hd 3 (by omega)]
  simp [Nat.zero_xor]

theorem spurious_mask_contra {d M i j k : Nat} (hd : d < 2 ^ 51)
    (hij : i < j) (hjk : j < k) (hk : k < 63) (hM : M < 2 ^ 63)
    (hMne : 2 ^ i ^^^ 2 ^ j ^^^ 2 ^ k ≠ M)
    (hzero : (computeSyndromes
        (encode d ^^^ 2 ^ i ^^^ 2 ^ j ^^^ 2 ^ k ^^^ M)).all (· = 0) = true)
    (hdata : extractData (encode d ^^^ 2 ^ i ^^^ 2 ^ j ^^^ 2 ^ k ^^^ M) = d) : False := by
  have hi : i < 63 := by omega
  have hj63 : j < 63 := by omega
  have hrw : encode d ^^^ 2 ^ i ^^^ 2 ^ j ^^^ 2 ^ k ^^^ M =
      encode d ^^^ (2 ^ i ^^^ 2 ^ j ^^^ 2 ^ k ^^^ M) := by ac_rfl
  rw [hrw] at hzero hdata
  have p1 : (2 : Nat) ^ i < 2 ^ 63 := Nat.pow_lt_pow_right (by omega) hi
  have p2 : (2 : Nat) ^ j < 2 ^ 63 := Nat.pow_lt_pow_right (by omega) hj63
  have p3 : (2 : Nat) ^ k < 2 ^ 63 := Nat.pow_lt_pow_right (by omega) hk
  have hΔlt : 2 ^ i ^^^ 2 ^ j ^^^ 2 ^ k ^^^ M < 2 ^ 63 :=
    Nat.xor_lt_two_pow (Nat.xor_lt_two_pow (Nat.xor_lt_two_pow p1 p2) p3) hM
  rw [computeSyndromes_encode_xor hd] at hzero
  rw [extractData_xor, extractData_encode hd] at hdata
  have hX0 : extractData (2 ^ i ^^^ 2 ^ j ^^^ 2 ^ k ^^^ M) = 0 := by
    have h := congrArg (fun z => d ^^^ z) hdata
    simpa [← Nat.xor_assoc, Nat.xor_self] using h
  have hz : 2 ^ i ^^^ 2 ^ j ^^^ 2 ^ k ^^^ M = 0 :=
    low_word_zero (extract_zero_low hΔlt hX0) hzero
  exact hMne (Nat.xor_eq_zero.mp hz)

theorem triple_success_data_ne {d i j k : Nat} (hd : d < 2 ^ 51)
    (hij : i < j) (hjk : j < k) (hk : k < 63)
    (hs : (decode (encode d ^^^ 2 ^ i ^^^ 2 ^ j ^^^ 2 ^ k)).success = true) :
    (decode (encode d ^^^ 2 ^ i ^^^ 2 ^ j ^^^ 2 ^ k)).data ≠ d := by
  intro hDD
  obtain ⟨locs, hlocs, hlen, hcor, hzero, hdata⟩ :=
    decode_success_cases hs (syndromes_triple_nonzero hd hij hjk hk)
  have hmem : ∀ x ∈ locs, x < 63 := fun x hx => chienSearch_mem_lt (hlocs ▸ hx)
  have hnd : locs.Nodup := hlocs ▸ chienSearch_nodup _
  rw [hdata] at hDD
  rcases hlen with h1 | h1
  · obtain ⟨a, ha⟩ := List.length_eq_one.mp h1
    have haa : a < 63 := hmem a (by rw [ha]; simp)
    rw [ha, flip_fold_one haa] at hzero hDD
    exact spurious_mask_contra hd hij hjk hk (Nat.pow_lt_pow_right (by omega) haa)
      (Ne.symm (single_ne_triple hij hjk)) hzero hDD
  · obtain ⟨a, b, ha⟩ := List.length_eq_two.mp h1
    have haa : a < 63 := hmem a (by rw [ha]; simp)
    have hbb : b < 63 := hmem b (by rw [ha]; simp)
    have hab : a ≠ b := by
      rw [ha] at hnd
      simp at hnd
      exact hnd
    rw [ha, flip_fold_pair haa hbb, Nat.xor_assoc] at hzero hDD
    exact spurious_mask_contra hd hij hjk hk
      (Nat.xor_lt_two_pow (Nat.pow_lt_pow_right (by omega) haa)
        (Nat.pow_lt_pow_right (by omega) hbb))
      (Ne.symm (pair_ne_triple hab hij hjk)) hzero hDD

end BCH63

/-! ## Hamming SEC-DED (`src/src/hamming_simulator.tpp`, traits from the
simulator configs; the 64-bit standalone variant in `src/unnamed/part_018`
computes the same syndrome inline).

Codewords use 1-indexed positions `1..N` stored in a `Nat` with position
`p` at bit `p-1` (the C++ `CodeWordStorage` packs bit `pos-1` of its word
array).  `setBit pos false` clears the bit; on a `Nat` this is modelled by
xoring the bit away when it is set, which agrees with the C++
`words[word] &= ~(1 << offset)`.  The `ParityCheckMatrix` class is absent
from the sources; its `syndrome` is modelled from the spec (§4.1) as the
per-row XOR-fold, which with the rows built by `buildParityCheckMatrix`
is exactly the parity of the received bits at the covered positions. -/

namespace ecc

structure HTraits where
  dataBits : Nat
  parityPositions : List Nat

def totalBits (T : HTraits) : Nat := T.dataBits + T.parityPositions.length + 1

def cwGet (N cw pos : Nat) : Bool :=
  if 1 ≤ pos ∧ pos ≤ N then cw.testBit (pos - 1) else false

def cwSet (N cw pos : Nat) (v : Bool) : Nat :=
  if 1 ≤ pos ∧ pos ≤ N then
    (if v then cw ||| (1 <<< (pos - 1))
     else if cw.testBit (pos - 1) then cw ^^^ (1 <<< (pos - 1)) else cw)
  else cw

def cwFlip (N cw pos : Nat) : Nat :=
  if 1 ≤ pos ∧ pos ≤ N then cw ^^^ (1 <<< (pos - 1)) else cw

def isParityPos (T : HTraits) (pos : Nat) : Bool := T.parityPositions.contains pos

def dataPositions (T : HTraits) : List Nat :=
  (List.range' 1 (totalBits T)).filter
    (fun pos => !isParityPos T pos && !(pos == totalBits T))

def parityCover (T : HTraits) (cw pb : Nat) : Nat :=
  (List.range' 1 (totalBits T - 1)).foldl
    (fun par pos =>
      if pos &&& pb ≠ 0 then
        (if cwGet (totalBits T) cw pos then par ^^^ 1 else par)
      else par) 0

def placeData (T : HTraits) (data : Nat) : Nat :=
  (List.range T.dataBits).foldl
    (fun cw i => cwSet (totalBits T) cw ((dataPositions T).getD i 0) (data.testBit i)) 0

def setParities (T : HTraits) (cw : Nat) : Nat :=
  T.parityPositions.foldl
    (fun c pb => cwSet (totalBits T) c pb (parityCover T c pb ≠ 0)) cw

def ovpSum (T : HTraits) (cw upTo : Nat) : Nat :=
  (List.range' 1 upTo).foldl
    (fun par pos => if cwGet (totalBits T) cw pos then par ^^^ 1 else par) 0

def encode (T : HTraits) (data : Nat) : Nat :=
  let c1 := placeData T data
  let c2 := setParities T c1
  cwSet (totalBits T) c2 (totalBits T) (ovpSum T c2 (totalBits T - 1) ≠ 0)

def synInt (T : HTraits) (cw : Nat) : Nat :=
  (List.range T.parityPositions.length).foldl
    (fun s i =>
      if parityCover T cw (T.parityPositions.getD i 0) ≠ 0 then s ||| (1 <<< i) else s) 0

def ovp (T : HTraits) (cw : Nat) : Bool := ovpSum T cw (totalBits T) ≠ 0

def extract (T : HTraits) (cw : Nat) : Nat :=
  (List.range T.dataBits).foldl
    (fun acc i =>
      if cwGet (totalBits T) cw ((dataPositions T).getD i 0) then acc ||| (1 <<< i) else acc) 0

inductive ErrorType where
  | NO_ERROR
  | SINGLE_ERROR_CORRECTABLE
  | DOUBLE_ERROR_DETECTABLE
  | MULTIPLE_ERROR_UNCORRECTABLE
  | OVERALL_PARITY_ERROR
  deriving DecidableEq, Repr

structure DecodingResult where
  corrected_data : Nat
  syndrome : Nat
  error_position : Nat
  error_type : ErrorType
  overall_parity : Bool
  data_corrected : Bool
  deriving DecidableEq, Repr

def decode (T : HTraits) (received : Nat) : DecodingResult :=
  let S := synInt T received
  let P := ovp T received
  if S = 0 ∧ P = false then
    { corrected_data := extract T received, syndrome := S, error_position := 0,
      error_type := .NO_ERROR, overall_parity := P, data_corrected := false }
  else if S = 0 ∧ P = true then
    { corrected_data := extract T (cwFlip (totalBits T) received (totalBits T)),
      syndrome := S, error_position := totalBits T, error_type := .OVERALL_PARITY_ERROR,
      overall_parity := P, data_corrected := true }
  else if S ≠ 0 ∧ P = true then
    if 1 ≤ S ∧ S ≤ totalBits T - 1 then
      { corrected_data := extract T (cwFlip (totalBits T) received S), syndrome := S,
        error_position := S, error_type := .SINGLE_ERROR_CORRECTABLE,
        overall_parity := P, data_corrected := true }
    else
      { corrected_data := extract T received, syndrome := S, error_position := S,
        error_type := .SINGLE_ERROR_CORRECTABLE, overall_parity := P,
        data_corrected := false }
  else if S ≠ 0 ∧ P = false then
    { corrected_data := extract T received, syndrome := S, error_position := 0,
      error_type := .DOUBLE_ERROR_DETECTABLE, overall_parity := P, data_corrected := false }
  else
    { corrected_data := extract T received, syndrome := S, error_position := 0,
      error_type := .MULTIPLE_ERROR_UNCORRECTABLE, overall_parity := P,
      data_corrected := false }

def h32 : HTraits := ⟨32, [1, 2, 4, 8, 16, 32]⟩

def h64 : HTraits := ⟨64, [1, 2, 4, 8, 16, 32, 64]⟩

end ecc

namespace ecc

/-! ### Bit-level primitives -/

theorem getD_mem' {l : List Nat} {i : Nat} (h : i < l.length) (d : Nat) : l.getD i d ∈ l := by
  have he : l.getD i d = l[i] := by
    simp [List.getD_eq_getElem?_getD, List.getElem?_eq_getElem h]
  rw [he]
  exact List.getElem_mem h

theorem getD_inj' {l : List Nat} (hnd : l.Nodup) {i j : Nat} (hi : i < l.length)
    (hj : j < l.length) (h : l.getD i 0 = l.getD j 0) : i = j := by
  have e1 : l.getD i 0 = l.get ⟨i, hi⟩ := by
    simp [List.getD_eq_getElem?_getD, List.getElem?_eq_getElem hi]
  have e2 : l.getD j 0 = l.get ⟨j, hj⟩ := by
    simp [List.getD_eq_getElem?_getD, List.getElem?_eq_getElem hj]
  have h3 : l.get ⟨i, hi⟩ = l.get ⟨j, hj⟩ := by rw [← e1, ← e2, h]
  exact congrArg Fin.val ((List.Nodup.get_inj_iff hnd).mp h3)

theorem cwSet_testBit (N cw pos t : Nat) (v : Bool) :
    (cwSet N cw pos v).testBit t =
      if pos - 1 = t ∧ 1 ≤ pos ∧ pos ≤ N then v else cw.testBit t := by
  unfold cwSet
  rw [BCH63.one_shiftLeft]
  by_cases hp : 1 ≤ pos ∧ pos ≤ N
  · rw [if_pos hp]
    rcases v with _ | _
    · rw [if_neg Bool.false_ne_true]
      by_cases hb : cw.testBit (pos - 1) = true
      · rw [if_pos hb]
        by_cases ht : pos - 1 = t
        · subst ht
          simp [Nat.testBit_xor, Nat.testBit_two_pow, hp, hb]
        · simp [Nat.testBit_xor, Nat.testBit_two_pow, ht]
      · rw [if_neg hb]
        by_cases ht : pos - 1 = t
        · subst ht
          simp [hp, hb]
        · simp [ht]
    · rw [if_pos rfl]
      by_cases ht : pos - 1 = t
      · subst ht
        simp [Nat.testBit_or, Nat.testBit_two_pow, hp]
      · simp [Nat.testBit_or, Nat.testBit_two_pow, ht]
  · rw [if_neg hp,
        if_neg (show ¬(pos - 1 = t ∧ 1 ≤ pos ∧ pos ≤ N) from fun hc => hp hc.2)]

theorem cwGet_eq_testBit (N cw pos : Nat) (h1 : 1 ≤ pos) (h2 : pos ≤ N) :
    cwGet N cw pos = cw.testBit (pos - 1) := by
  unfold cwGet
  rw [if_pos ⟨h1, h2⟩]

theorem cwGet_xor (N x y pos : Nat) :
    cwGet N (x ^^^ y) pos = ((cwGet N x pos).xor (cwGet N y pos)) := by
  unfold cwGet
  split_ifs with h
  · exact Nat.testBit_xor ..
  · rfl

theorem cwSet_fresh {N cw pos : Nat} (h1 : 1 ≤ pos) (h2 : pos ≤ N)
    (hb : cw.testBit (pos - 1) = false) (v : Bool) :
    cwSet N cw pos v = cw ^^^ (if v then 2 ^ (pos - 1) else 0) := by
  unfold cwSet
  rw [if_pos ⟨h1, h2⟩, BCH63.one_shiftLeft]
  rcases v with _ | _
  · rw [if_neg Bool.false_ne_true, if_neg (by rw [hb]; exact Bool.false_ne_true),
        if_neg Bool.false_ne_true, Nat.xor_zero]
  · rw [if_pos rfl, if_pos rfl]
    apply Nat.eq_of_testBit_eq
    intro t
    rw [Nat.testBit_or, Nat.testBit_xor .., Nat.testBit_two_pow]
    rcases eq_or_ne (pos - 1) t with he | he
    · subst he
      simp [hb]
    · simp [he]

theorem cwFlip_eq {N cw pos : Nat} (h1 : 1 ≤ pos) (h2 : pos ≤ N) :
    cwFlip N cw pos = cw ^^^ 2 ^ (pos - 1) := by
  unfold cwFlip
  rw [if_pos ⟨h1, h2⟩, BCH63.one_shiftLeft]

theorem cwFlip_oob {N cw pos : Nat} (h : ¬(1 ≤ pos ∧ pos ≤ N)) : cwFlip N cw pos = cw := by
  unfold cwFlip
  rw [if_neg h]

end ecc

namespace ecc

/-! ### XOR-linearity and congruence of the parity folds -/

theorem coverFold_xor (N pb x y : Nat) :
    ∀ (L : List Nat) (a b : Nat),
      L.foldl (fun par pos => if pos &&& pb ≠ 0 then
          (if cwGet N (x ^^^ y) pos then par ^^^ 1 else par) else par) (a ^^^ b) =
        (L.foldl (fun par pos => if pos &&& pb ≠ 0 then
          (if cwGet N x pos then par ^^^ 1 else par) else par) a) ^^^
        (L.foldl (fun par pos => if pos &&& pb ≠ 0 then
          (if cwGet N y pos then par ^^^ 1 else par) else par) b) := by
  intro L
  induction L with
  | nil =>
    intro a b
    rfl
  | cons p L ih =>
    intro a b
    simp only [List.foldl_cons]
    by_cases hc : p &&& pb ≠ 0
    · rw [if_pos hc, if_pos hc, if_pos hc, cwGet_xor]
      rcases hx : cwGet N x p with _ | _ <;> rcases hy : cwGet N y p with _ | _
      · rw [show (Bool.xor false false) = false from rfl, if_neg Bool.false_ne_true,
            if_neg Bool.false_ne_true, if_neg Bool.false_ne_true]
        exact ih a b
      · rw [show (Bool.xor false true) = true from rfl, if_pos rfl,
            if_neg Bool.false_ne_true, if_pos rfl,
            show a ^^^ b ^^^ 1 = a ^^^ (b ^^^ 1) from by ac_rfl]
        exact ih a (b ^^^ 1)
      · rw [show (Bool.xor true false) = true from rfl, if_pos rfl, if_pos rfl,
            if_neg Bool.false_ne_true,
            show a ^^^ b ^^^ 1 = (a ^^^ 1) ^^^ b from by ac_rfl]
        exact ih (a ^^^ 1) b
      · rw [show (Bool.xor true true) = false from rfl, if_neg Bool.false_ne_true,
            if_pos rfl, if_pos rfl,
            show a ^^^ b = (a ^^^ 1) ^^^ (b ^^^ 1) from by
              rw [show (a ^^^ 1) ^^^ (b ^^^ 1) = (1 ^^^ 1) ^^^ (a ^^^ b) from by ac_rfl,
                  Nat.xor_self, Nat.zero_xor]]
        exact ih (a ^^^ 1) (b ^^^ 1)
    · rw [if_neg hc, if_neg hc, if_neg hc]
      exact ih a b

theorem coverFold_congr (N pb : Nat) {x y : Nat}
    (h : ∀ pos, pos &&& pb ≠ 0 → cwGet N x pos = cwGet N y pos) :
    ∀ (L : List Nat) (a : Nat),
      L.foldl (fun par pos => if pos &&& pb ≠ 0 then
          (if cwGet N x pos then par ^^^ 1 else par) else par) a =
        L.foldl (fun par pos => if pos &&& pb ≠ 0 then
          (if cwGet N y pos then par ^^^ 1 else par) else par) a := by
  intro L
  induction L with
  | nil =>
    intro a
    rfl
  | cons p L ih =>
    intro a
    simp only [List.foldl_cons]
    by_cases hc : p &&& pb ≠ 0
    · rw [if_pos hc, if_pos hc, h p hc]
      exact ih _
    · rw [if_neg hc, if_neg hc]
      exact ih a

theorem coverFold_le_one (N pb cw : Nat) :
    ∀ (L : List Nat) (a : Nat), a ≤ 1 →
      L.foldl (fun par pos => if pos &&& pb ≠ 0 then
          (if cwGet N cw pos then par ^^^ 1 else par) else par) a ≤ 1 := by
  intro L
  induction L with
  | nil =>
    intro a ha
    exact ha
  | cons p L ih =>
    intro a ha
    simp only [List.foldl_cons]
    by_cases hc : p &&& pb ≠ 0
    · rw [if_pos hc]
      by_cases hg : cwGet N cw p = true
      · rw [if_pos hg]
        exact ih _ (by interval_cases a <;> decide)
      · rw [if_neg hg]
        exact ih a ha
    · rw [if_neg hc]
      exact ih a ha

theorem ovpFold_xor (N x y : Nat) :
    ∀ (L : List Nat) (a b : Nat),
      L.foldl (fun par pos =>
          if cwGet N (x ^^^ y) pos then par ^^^ 1 else par) (a ^^^ b) =
        (L.foldl (fun par pos => if cwGet N x pos then par ^^^ 1 else par) a) ^^^
        (L.foldl (fun par pos => if cwGet N y pos then par ^^^ 1 else par) b) := by
  intro L
  induction L with
  | nil =>
    intro a b
    rfl
  | cons p L ih =>
    intro a b
    simp only [List.foldl_cons]
    rw [cwGet_xor]
    rcases hx : cwGet N x p with _ | _ <;> rcases hy : cwGet N y p with _ | _
    · rw [show (Bool.xor false false) = false from rfl, if_neg Bool.false_ne_true,
          if_neg Bool.false_ne_true, if_neg Bool.false_ne_true]
      exact ih a b
    · rw [show (Bool.xor false true) = true from rfl, if_pos rfl,
          if_neg Bool.false_ne_true, if_pos rfl,
          show a ^^^ b ^^^ 1 = a ^^^ (b ^^^ 1) from by ac_rfl]
      exact ih a (b ^^^ 1)
    · rw [show (Bool.xor true false) = true from rfl, if_pos rfl, if_pos rfl,
          if_neg Bool.false_ne_true,
          show a ^^^ b ^^^ 1 = (a ^^^ 1) ^^^ b from by ac_rfl]
      exact ih (a ^^^ 1) b
    · rw [show (Bool.xor true true) = false from rfl, if_neg Bool.false_ne_true,
          if_pos rfl, if_pos rfl,
          show a ^^^ b = (a ^^^ 1) ^^^ (b ^^^ 1) from by
            rw [show (a ^^^ 1) ^^^ (b ^^^ 1) = (1 ^^^ 1) ^^^ (a ^^^ b) from by ac_rfl,
                Nat.xor_self, Nat.zero_xor]]
      exact ih (a ^^^ 1) (b ^^^ 1)

theorem ovpFold_le_one (N cw : Nat) :
    ∀ (L : List Nat) (a : Nat), a ≤ 1 →
      L.foldl (fun par pos => if cwGet N cw pos then par ^^^ 1 else par) a ≤ 1 := by
  intro L
  induction L with
  | nil =>
    intro a ha
    exact ha
  | cons p L ih =>
    intro a ha
    simp only [List.foldl_cons]
    by_cases hg : cwGet N cw p = true
    · rw [if_pos hg]
      exact ih _ (by interval_cases a <;> decide)
    · rw [if_neg hg]
      exact ih a ha

theorem xfold_acc (g : Nat → Nat) :
    ∀ (L : List Nat) (a : Nat),
      L.foldl (fun acc x => acc ^^^ g x) a = a ^^^ L.foldl (fun acc x => acc ^^^ g x) 0 := by
  intro L
  induction L with
  | nil =>
    intro a
    simp
  | cons p L ih =>
    intro a
    simp only [List.foldl_cons, Nat.zero_xor]
    rw [ih (a ^^^ g p), ih (g p)]
    ac_rfl

theorem xfold_testBit_zero (g : Nat → Nat) (t : Nat) :
    ∀ (L : List Nat), (∀ p ∈ L, (g p).testBit t = false) →
      (L.foldl (fun acc x => acc ^^^ g x) 0).testBit t = false := by
  intro L
  induction L with
  | nil =>
    intro _
    exact Nat.zero_testBit t
  | cons p L ih =>
    intro h
    simp only [List.foldl_cons, Nat.zero_xor]
    rw [xfold_acc g L (g p), Nat.testBit_xor .., h p (by simp),
        ih (fun q hq => h q (by simp [hq]))]
    rfl

theorem ind_xor {a b : Nat} (M : Nat) (ha : a ≤ 1) (hb : b ≤ 1) :
    (if a ^^^ b ≠ 0 then M else 0) =
      (if a ≠ 0 then M else 0) ^^^ (if b ≠ 0 then M else 0) := by
  interval_cases a <;> interval_cases b <;> simp [Nat.xor_self]

end ecc

namespace ecc

/-! ### Data placement: freshness and linearity -/

theorem dataPositions_mem {T : HTraits} {p : Nat} (h : p ∈ dataPositions T) :
    (1 ≤ p ∧ p ≤ totalBits T) ∧ isParityPos T p = false ∧ p ≠ totalBits T := by
  unfold dataPositions at h
  have h1 := List.mem_filter.mp h
  have h2 := List.mem_range'_1.mp h1.1
  have h3 := h1.2
  simp only [Bool.and_eq_true, Bool.not_eq_true', beq_eq_false_iff_ne] at h3
  exact ⟨⟨by omega, by omega⟩, h3.1, h3.2⟩

theorem dataPositions_nodup (T : HTraits) : (dataPositions T).Nodup :=
  (List.nodup_range' _ _ 1 one_pos).filter _

theorem placePrefix_testBit (T : HTraits) (d : Nat) :
    ∀ (m : Nat), ∀ (t : Nat), m ≤ (dataPositions T).length →
      (∀ i, i < m → (dataPositions T).getD i 0 ≠ t + 1) →
      ((List.range m).foldl (fun cw i =>
          cwSet (totalBits T) cw ((dataPositions T).getD i 0) (d.testBit i)) 0).testBit t
        = false := by
  intro m
  induction m with
  | zero =>
    intro t _ _
    exact Nat.zero_testBit t
  | succ k ih =>
    intro t hm h
    rw [List.range_succ, List.foldl_append]
    simp only [List.foldl_cons, List.foldl_nil]
    rw [cwSet_testBit]
    have hgetne := h k (by omega)
    have hin : 1 ≤ (dataPositions T).getD k 0 ∧ (dataPositions T).getD k 0 ≤ totalBits T :=
      (dataPositions_mem (getD_mem' (show k < (dataPositions T).length by omega) 0)).1
    rw [if_neg (show ¬((dataPositions T).getD k 0 - 1 = t ∧
        1 ≤ (dataPositions T).getD k 0 ∧ (dataPositions T).getD k 0 ≤ totalBits T) from
        fun hc => hgetne (by omega))]
    exact ih t (by omega) (fun i hi => h i (by omega))

theorem placePrefix_xor (T : HTraits) (x y : Nat) :
    ∀ (m : Nat), m ≤ (dataPositions T).length →
      (List.range m).foldl (fun cw i =>
          cwSet (totalBits T) cw ((dataPositions T).getD i 0) ((x ^^^ y).testBit i)) 0 =
        ((List.range m).foldl (fun cw i =>
          cwSet (totalBits T) cw ((dataPositions T).getD i 0) (x.testBit i)) 0) ^^^
        ((List.range m).foldl (fun cw i =>
          cwSet (totalBits T) cw ((dataPositions T).getD i 0) (y.testBit i)) 0) := by
  intro m
  induction m with
  | zero =>
    intro _
    simp
  | succ k ih =>
    intro hm
    rw [List.range_succ, List.foldl_append, List.foldl_append, List.foldl_append]
    simp only [List.foldl_cons, List.foldl_nil]
    have hklen : k < (dataPositions T).length := by omega
    have hin := (dataPositions_mem (getD_mem' hklen 0)).1
    have hfr : ∀ (dd : Nat), ((List.range k).foldl (fun cw i =>
        cwSet (totalBits T) cw ((dataPositions T).getD i 0) (dd.testBit i)) 0).testBit
          ((dataPositions T).getD k 0 - 1) = false := by
      intro dd
      apply placePrefix_testBit T dd k _ (by omega)
      intro i hi he
      have he2 : (dataPositions T).getD i 0 = (dataPositions T).getD k 0 := by omega
      exact absurd (getD_inj' (dataPositions_nodup T) (by omega) hklen he2) (by omega)
    rw [cwSet_fresh hin.1 hin.2 (hfr (x ^^^ y)) _,
        cwSet_fresh hin.1 hin.2 (hfr x) _,
        cwSet_fresh hin.1 hin.2 (hfr y) _,
        ih (by omega), Nat.testBit_xor ..]
    rcases hx : x.testBit k with _ | _ <;> rcases hy : y.testBit k with _ | _
    · rw [show Bool.xor false false = false from rfl, if_neg Bool.false_ne_true]
      simp only [Nat.xor_zero]
    · rw [show Bool.xor false true = true from rfl, if_pos rfl, if_neg Bool.false_ne_true]
      simp only [Nat.xor_zero]
      ac_rfl
    · rw [show Bool.xor true false = true from rfl, if_pos rfl, if_neg Bool.false_ne_true]
      simp only [Nat.xor_zero]
      ac_rfl
    · rw [show Bool.xor true true = false from rfl, if_neg Bool.false_ne_true, if_pos rfl]
      simp only [Nat.xor_zero]
      rw [show ((List.range k).foldl (fun cw i =>
            cwSet (totalBits T) cw ((dataPositions T).getD i 0) (x.testBit i)) 0 ^^^
            2 ^ ((dataPositions T).getD k 0 - 1)) ^^^
          ((List.range k).foldl (fun cw i =>
            cwSet (totalBits T) cw ((dataPositions T).getD i 0) (y.testBit i)) 0 ^^^
            2 ^ ((dataPositions T).getD k 0 - 1)) =
          (2 ^ ((dataPositions T).getD k 0 - 1) ^^^ 2 ^ ((dataPositions T).getD k 0 - 1)) ^^^
          ((List.range k).foldl (fun cw i =>
            cwSet (totalBits T) cw ((dataPositions T).getD i 0) (x.testBit i)) 0 ^^^
           (List.range k).foldl (fun cw i =>
            cwSet (totalBits T) cw ((dataPositions T).getD i 0) (y.testBit i)) 0) from
          by ac_rfl,
        Nat.xor_self, Nat.zero_xor]

theorem placeData_fresh (T : HTraits) (d t : Nat)
    (hlen : T.dataBits ≤ (dataPositions T).length)
    (h : ¬(t + 1 ∈ dataPositions T)) : (placeData T d).testBit t = false := by
  unfold placeData
  apply placePrefix_testBit T d T.dataBits t hlen
  intro i hi he
  exact h (he ▸ getD_mem' (by omega) 0)

theorem placeData_xor (T : HTraits) (x y : Nat)
    (hlen : T.dataBits ≤ (dataPositions T).length) :
    placeData T (x ^^^ y) = placeData T x ^^^ placeData T y := by
  unfold placeData
  exact placePrefix_xor T x y T.dataBits hlen

end ecc

namespace ecc

/-! ### Parity placement: closed form and linearity of `encode` -/

theorem cwGet_zero (N pos : Nat) : cwGet N 0 pos = false := by
  unfold cwGet
  split_ifs
  · exact Nat.zero_testBit _
  · rfl

theorem isParityPos_iff (T : HTraits) (pos : Nat) :
    isParityPos T pos = true ↔ pos ∈ T.parityPositions := by
  unfold isParityPos
  exact List.elem_iff

theorem parity_not_data {T : HTraits} {pb : Nat} (h : pb ∈ T.parityPositions) :
    pb ∉ dataPositions T := by
  intro hmem
  have h2 := (dataPositions_mem hmem).2.1
  rw [← Bool.not_eq_true, isParityPos_iff] at h2
  exact h2 h

theorem one_le_totalBits (T : HTraits) : 1 ≤ totalBits T := by
  unfold totalBits
  omega

theorem parityCover_xor (T : HTraits) (x y pb : Nat) :
    parityCover T (x ^^^ y) pb = parityCover T x pb ^^^ parityCover T y pb := by
  unfold parityCover
  have h := coverFold_xor (totalBits T) pb x y (List.range' 1 (totalBits T - 1)) 0 0
  rw [show (0 : Nat) ^^^ 0 = 0 from Nat.xor_self 0] at h
  exact h

theorem parityCover_le_one (T : HTraits) (cw pb : Nat) : parityCover T cw pb ≤ 1 :=
  coverFold_le_one (totalBits T) pb cw (List.range' 1 (totalBits T - 1)) 0 (by omega)

theorem parityCover_congr (T : HTraits) {x y : Nat} (pb : Nat)
    (h : ∀ pos, pos &&& pb ≠ 0 → cwGet (totalBits T) x pos = cwGet (totalBits T) y pos) :
    parityCover T x pb = parityCover T y pb :=
  coverFold_congr (totalBits T) pb h (List.range' 1 (totalBits T - 1)) 0

theorem ovpSum_xor (T : HTraits) (x y u : Nat) :
    ovpSum T (x ^^^ y) u = ovpSum T x u ^^^ ovpSum T y u := by
  unfold ovpSum
  have h := ovpFold_xor (totalBits T) x y (List.range' 1 u) 0 0
  rw [show (0 : Nat) ^^^ 0 = 0 from Nat.xor_self 0] at h
  exact h

theorem ovpSum_le_one (T : HTraits) (cw u : Nat) : ovpSum T cw u ≤ 1 :=
  ovpFold_le_one (totalBits T) cw (List.range' 1 u) 0 (by omega)

def ppMask (T : HTraits) (c : Nat) : Nat :=
  T.parityPositions.foldl
    (fun acc pb => acc ^^^ (if parityCover T c pb ≠ 0 then 2 ^ (pb - 1) else 0)) 0

theorem decide_if_bridge (q : Prop) [Decidable q] (M : Nat) :
    (if (decide q) = true then M else (0 : Nat)) = if q then M else 0 := by
  by_cases hq : q <;> simp [hq]

theorem setParitiesAux (T : HTraits) :
    ∀ (P : List Nat) (c : Nat),
      (∀ pb ∈ P, 1 ≤ pb ∧ pb ≤ totalBits T - 1) →
      (∀ pb ∈ P, c.testBit (pb - 1) = false) →
      (∀ pb ∈ P, ∀ pb2 ∈ P, pb ≠ pb2 → pb2 &&& pb = 0) →
      P.Nodup →
      P.foldl (fun cc pb => cwSet (totalBits T) cc pb (parityCover T cc pb ≠ 0)) c =
        c ^^^ P.foldl
          (fun acc pb => acc ^^^ (if parityCover T c pb ≠ 0 then 2 ^ (pb - 1) else 0)) 0 := by
  intro P
  induction P with
  | nil =>
    intro c _ _ _ _
    simp
  | cons pb P ih =>
    intro c hall hfresh hdisj hnd
    simp only [List.foldl_cons, Nat.zero_xor]
    have hin := hall pb (by simp)
    have hN : pb ≤ totalBits T := by omega
    rw [cwSet_fresh hin.1 hN (hfresh pb (by simp)) _,
        decide_if_bridge (parityCover T c pb ≠ 0) (2 ^ (pb - 1))]
    have hnotmem : pb ∉ P := (List.nodup_cons.mp hnd).1
    have hget0 : ∀ pos, cwGet (totalBits T)
        (if parityCover T c pb ≠ 0 then 2 ^ (pb - 1) else 0) pos = false ∨
        (pos = pb ∧ cwGet (totalBits T)
          (if parityCover T c pb ≠ 0 then 2 ^ (pb - 1) else 0) pos = true) := by
      intro pos
      by_cases hq : parityCover T c pb ≠ 0
      · rw [if_pos hq]
        unfold cwGet
        split_ifs with hr
        · rw [Nat.testBit_two_pow]
          rcases eq_or_ne (pb - 1) (pos - 1) with he | he
          · rcases eq_or_ne pos pb with he2 | he2
            · right
              exact ⟨he2, by simp [he]⟩
            · left
              simp only [decide_eq_false_iff_not]
              omega
          · left
            simp [he]
        · left
          rfl
      · rw [if_neg hq]
        left
        exact cwGet_zero _ _
    have hcongr : ∀ pb2 ∈ P, parityCover T
        (c ^^^ (if parityCover T c pb ≠ 0 then 2 ^ (pb - 1) else 0)) pb2 =
        parityCover T c pb2 := by
      intro pb2 hmem2
      apply parityCover_congr
      intro pos hcov
      rw [cwGet_xor]
      rcases hget0 pos with hz | ⟨hpe, _⟩
      · rw [hz, Bool.xor_false]
      · exfalso
        subst hpe
        have hd := hdisj pb2 (by simp [hmem2]) pos (by simp)
          (fun he => hnotmem (he ▸ hmem2))
        exact hcov hd
    rw [ih (c ^^^ (if parityCover T c pb ≠ 0 then 2 ^ (pb - 1) else 0))
          (fun q hq => hall q (by simp [hq]))
          ?hfr
          (fun a ha => fun b hb => hdisj a (by simp [ha]) b (by simp [hb]))
          (List.nodup_cons.mp hnd).2]
    case hfr =>
      intro q hq
      rw [Nat.testBit_xor .., hfresh q (by simp [hq]), Bool.false_xor]
      rcases hget0 q with hz | ⟨hpe, _⟩
      · unfold cwGet at hz
        have hinq := hall q (by simp [hq])
        rw [if_pos ⟨hinq.1, by omega⟩] at hz
        exact hz
      · exact absurd hpe.symm (fun he => hnotmem (he ▸ hq))
    rw [List.foldl_ext _ (fun acc pb2 =>
          acc ^^^ (if parityCover T c pb2 ≠ 0 then 2 ^ (pb2 - 1) else 0)) _
          (fun acc pb2 hmem2 => by rw [hcongr pb2 hmem2]),
        xfold_acc (fun pb2 => if parityCover T c pb2 ≠ 0 then 2 ^ (pb2 - 1) else 0) P
          (if parityCover T c pb ≠ 0 then 2 ^ (pb - 1) else 0)]
    ac_rfl

theorem setParities_closed (T : HTraits) (c : Nat)
    (hall : ∀ pb ∈ T.parityPositions, 1 ≤ pb ∧ pb ≤ totalBits T - 1)
    (hfresh : ∀ pb ∈ T.parityPositions, c.testBit (pb - 1) = false)
    (hdisj : ∀ pb ∈ T.parityPositions, ∀ pb2 ∈ T.parityPositions,
      pb ≠ pb2 → pb2 &&& pb = 0)
    (hnd : T.parityPositions.Nodup) :
    setParities T c = c ^^^ ppMask T c :=
  setParitiesAux T T.parityPositions c hall hfresh hdisj hnd

theorem xfold_split (f g : Nat → Nat) :
    ∀ (L : List Nat),
      L.foldl (fun acc x => acc ^^^ (f x ^^^ g x)) 0 =
        L.foldl (fun acc x => acc ^^^ f x) 0 ^^^ L.foldl (fun acc x => acc ^^^ g x) 0 := by
  intro L
  induction L with
  | nil =>
    simp
  | cons p L ih =>
    simp only [List.foldl_cons, Nat.zero_xor]
    rw [xfold_acc (fun x => f x ^^^ g x) L (f p ^^^ g p), xfold_acc f L (f p),
        xfold_acc g L (g p), ih]
    ac_rfl

theorem ppMask_xor (T : HTraits) (x y : Nat) :
    ppMask T (x ^^^ y) = ppMask T x ^^^ ppMask T y := by
  unfold ppMask
  rw [List.foldl_ext _ (fun acc pb =>
        acc ^^^ ((if parityCover T x pb ≠ 0 then 2 ^ (pb - 1) else 0) ^^^
          (if parityCover T y pb ≠ 0 then 2 ^ (pb - 1) else 0))) 0
        (fun acc pb _ => by
          rw [parityCover_xor,
            ind_xor _ (parityCover_le_one T x pb) (parityCover_le_one T y pb)]),
      xfold_split (fun pb => if parityCover T x pb ≠ 0 then 2 ^ (pb - 1) else 0)
        (fun pb => if parityCover T y pb ≠ 0 then 2 ^ (pb - 1) else 0) T.parityPositions]

end ecc

namespace ecc

theorem ppMask_testBit_high (T : HTraits) (c t : Nat)
    (ht : ∀ pb ∈ T.parityPositions, pb - 1 ≠ t) :
    (ppMask T c).testBit t = false := by
  unfold ppMask
  apply xfold_testBit_zero
  intro pb hmem
  by_cases hq : parityCover T c pb ≠ 0
  · rw [if_pos hq, Nat.testBit_two_pow]
    simp [ht pb hmem]
  · rw [if_neg hq]
    exact Nat.zero_testBit t

theorem encode_eq (T : HTraits) (d : Nat)
    (hlen : T.dataBits ≤ (dataPositions T).length)
    (hall : ∀ pb ∈ T.parityPositions, 1 ≤ pb ∧ pb ≤ totalBits T - 1)
    (hdisj : ∀ pb ∈ T.parityPositions, ∀ pb2 ∈ T.parityPositions,
      pb ≠ pb2 → pb2 &&& pb = 0)
    (hndpp : T.parityPositions.Nodup) :
    encode T d =
      (placeData T d ^^^ ppMask T (placeData T d)) ^^^
        (if ovpSum T (placeData T d ^^^ ppMask T (placeData T d)) (totalBits T - 1) ≠ 0
         then 2 ^ (totalBits T - 1) else 0) := by
  unfold encode
  show cwSet (totalBits T) (setParities T (placeData T d)) (totalBits T)
      (ovpSum T (setParities T (placeData T d)) (totalBits T - 1) ≠ 0) = _
  have hfresh : ∀ pb ∈ T.parityPositions, (placeData T d).testBit (pb - 1) = false := by
    intro pb hmem
    apply placeData_fresh T d _ hlen
    intro hmem2
    have h1 := (hall pb hmem).1
    rw [show pb - 1 + 1 = pb from by omega] at hmem2
    exact parity_not_data hmem hmem2
  rw [setParities_closed T _ hall hfresh hdisj hndpp]
  have hbitN : (placeData T d ^^^ ppMask T (placeData T d)).testBit (totalBits T - 1)
      = false := by
    rw [Nat.testBit_xor ..]
    rw [placeData_fresh T d _ hlen ?hnd1, ppMask_testBit_high T _ _ ?hnd2]
    · rfl
    case hnd1 =>
      intro hmem
      have h2 := (dataPositions_mem hmem).2.2
      have h1 := one_le_totalBits T
      omega
    case hnd2 =>
      intro pb hmem
      have := hall pb hmem
      omega
  rw [cwSet_fresh (by have := one_le_totalBits T; omega) (le_refl _) hbitN _,
      decide_if_bridge]

theorem encode_xor (T : HTraits) (x y : Nat)
    (hlen : T.dataBits ≤ (dataPositions T).length)
    (hall : ∀ pb ∈ T.parityPositions, 1 ≤ pb ∧ pb ≤ totalBits T - 1)
    (hdisj : ∀ pb ∈ T.parityPositions, ∀ pb2 ∈ T.parityPositions,
      pb ≠ pb2 → pb2 &&& pb = 0)
    (hndpp : T.parityPositions.Nodup) :
    encode T (x ^^^ y) = encode T x ^^^ encode T y := by
  rw [encode_eq T (x ^^^ y) hlen hall hdisj hndpp, encode_eq T x hlen hall hdisj hndpp,
      encode_eq T y hlen hall hdisj hndpp, placeData_xor T x y hlen, ppMask_xor]
  have hc2 : (placeData T x ^^^ placeData T y) ^^^
      (ppMask T (placeData T x) ^^^ ppMask T (placeData T y)) =
      (placeData T x ^^^ ppMask T (placeData T x)) ^^^
      (placeData T y ^^^ ppMask T (placeData T y)) := by ac_rfl
  rw [hc2, ovpSum_xor,
      ind_xor _ (ovpSum_le_one T _ _) (ovpSum_le_one T _ _)]
  ac_rfl

theorem linear_basis_zero (F : Nat → Nat) (w : Nat)
    (h0 : F 0 = 0)
    (hlin : ∀ x y, F (x ^^^ y) = F x ^^^ F y)
    (hbasis : ∀ i, i < w → F (2 ^ i) = 0) :
    ∀ d, d < 2 ^ w → F d = 0 := by
  intro d
  induction d using Nat.strong_induction_on with
  | _ d ih =>
    intro hd
    rcases eq_or_ne d 0 with h | h
    · rw [h, h0]
    · have hb : d.testBit d.log2 = true := BCH63.testBit_log2_self h
      have hlog : d.log2 < w := (Nat.log2_lt h).mpr hd
      have hrest : d ^^^ 2 ^ d.log2 < 2 ^ d.log2 :=
        BCH63.xor_top_lt Nat.lt_log2_self
          (Nat.pow_lt_pow_right (by omega) (by omega)) hb
          (by simp [Nat.testBit_two_pow])
      have hdec : d ^^^ 2 ^ d.log2 < d :=
        lt_of_lt_of_le hrest (Nat.log2_self_le h)
      have hdecomp : d = (d ^^^ 2 ^ d.log2) ^^^ 2 ^ d.log2 := by
        rw [Nat.xor_assoc, Nat.xor_self, Nat.xor_zero]
      have hF : F d = F (d ^^^ 2 ^ d.log2) ^^^ F (2 ^ d.log2) := by
        conv_lhs => rw [hdecomp]
        exact hlin _ _
      rw [hF, ih _ hdec (lt_of_lt_of_le hrest (Nat.pow_le_pow_right (by omega) (by omega))),
          hbasis _ hlog]
      exact Nat.xor_self 0

theorem linear_basis_id (F : Nat → Nat) (w : Nat)
    (h0 : F 0 = 0)
    (hlin : ∀ x y, F (x ^^^ y) = F x ^^^ F y)
    (hbasis : ∀ i, i < w → F (2 ^ i) = 2 ^ i) :
    ∀ d, d < 2 ^ w → F d = d := by
  intro d
  induction d using Nat.strong_induction_on with
  | _ d ih =>
    intro hd
    rcases eq_or_ne d 0 with h | h
    · rw [h, h0]
    · have hb : d.testBit d.log2 = true := BCH63.testBit_log2_self h
      have hlog : d.log2 < w := (Nat.log2_lt h).mpr hd
      have hrest : d ^^^ 2 ^ d.log2 < 2 ^ d.log2 :=
        BCH63.xor_top_lt Nat.lt_log2_self
          (Nat.pow_lt_pow_right (by omega) (by omega)) hb
          (by simp [Nat.testBit_two_pow])
      have hdec : d ^^^ 2 ^ d.log2 < d :=
        lt_of_lt_of_le hrest (Nat.log2_self_le h)
      have hdecomp : d = (d ^^^ 2 ^ d.log2) ^^^ 2 ^ d.log2 := by
        rw [Nat.xor_assoc, Nat.xor_self, Nat.xor_zero]
      have hF : F d = F (d ^^^ 2 ^ d.log2) ^^^ F (2 ^ d.log2) := by
        conv_lhs => rw [hdecomp]
        exact hlin _ _
      rw [hF, ih _ hdec (lt_of_lt_of_le hrest (Nat.pow_le_pow_right (by omega) (by omega))),
          hbasis _ hlog]
      exact hdecomp.symm

end ecc

namespace ecc

/-! ### Parity of distinguished words -/

theorem coverFold_zero (N pb : Nat) {w : Nat} :
    ∀ (L : List Nat), (∀ pos ∈ L, cwGet N w pos = false) → ∀ (a : Nat),
      L.foldl (fun par pos => if pos &&& pb ≠ 0 then
        (if cwGet N w pos then par ^^^ 1 else par) else par) a = a := by
  intro L
  induction L with
  | nil =>
    intro _ a
    rfl
  | cons p L ih =>
    intro h a
    simp only [List.foldl_cons]
    by_cases hc : p &&& pb ≠ 0
    · rw [if_pos hc, h p (by simp), if_neg Bool.false_ne_true]
      exact ih (fun q hq => h q (by simp [hq])) a
    · rw [if_neg hc]
      exact ih (fun q hq => h q (by simp [hq])) a

theorem ovpFold_zero (N : Nat) {w : Nat} :
    ∀ (L : List Nat), (∀ pos ∈ L, cwGet N w pos = false) → ∀ (a : Nat),
      L.foldl (fun par pos => if cwGet N w pos then par ^^^ 1 else par) a = a := by
  intro L
  induction L with
  | nil =>
    intro _ a
    rfl
  | cons p L ih =>
    intro h a
    simp only [List.foldl_cons]
    rw [h p (by simp), if_neg Bool.false_ne_true]
    exact ih (fun q hq => h q (by simp [hq])) a

theorem parityCover_zero_of (T : HTraits) {w : Nat} (pb : Nat)
    (h : ∀ pos, 1 ≤ pos → pos ≤ totalBits T - 1 → cwGet (totalBits T) w pos = false) :
    parityCover T w pb = 0 := by
  unfold parityCover
  apply coverFold_zero
  intro pos hmem
  have hb := List.mem_range'_1.mp hmem
  exact h pos (by omega) (by omega)

theorem ovpSum_zero_of (T : HTraits) {w : Nat} (u : Nat)
    (h : ∀ pos, 1 ≤ pos → pos ≤ u → cwGet (totalBits T) w pos = false) :
    ovpSum T w u = 0 := by
  unfold ovpSum
  apply ovpFold_zero
  intro pos hmem
  have hb := List.mem_range'_1.mp hmem
  exact h pos (by omega) (by omega)

theorem cwGet_two_pow {N q : Nat} (pos : Nat) (h1 : 1 ≤ q) (h2 : q ≤ N) :
    cwGet N (2 ^ (q - 1)) pos = decide (pos = q) := by
  unfold cwGet
  split_ifs with hr
  · rw [Nat.testBit_two_pow]
    rcases eq_or_ne pos q with he | he
    · subst he
      simp
    · have hne : q - 1 ≠ pos - 1 := by omega
      simp [hne, he]
  · have hne : pos ≠ q := by omega
    simp [hne]

theorem coverFold_single (N pb q : Nat) {w : Nat}
    (hw : ∀ pos, cwGet N w pos = decide (pos = q)) :
    ∀ (L : List Nat), L.Nodup → ∀ (a : Nat),
      L.foldl (fun par pos => if pos &&& pb ≠ 0 then
        (if cwGet N w pos then par ^^^ 1 else par) else par) a =
      if q ∈ L ∧ q &&& pb ≠ 0 then a ^^^ 1 else a := by
  intro L
  induction L with
  | nil =>
    intro _ a
    rw [if_neg (show ¬((q ∈ ([] : List Nat)) ∧ q &&& pb ≠ 0) from fun hc => by
      simp at hc)]
    rfl
  | cons p L ih =>
    intro hnd a
    have hnd2 := List.nodup_cons.mp hnd
    simp only [List.foldl_cons]
    rcases eq_or_ne p q with hpq | hpq
    · subst hpq
      rw [hw p, decide_eq_true rfl]
      by_cases hc : p &&& pb ≠ 0
      · rw [if_pos hc, if_pos rfl, ih hnd2.2 (a ^^^ 1),
            if_neg (show ¬(p ∈ L ∧ p &&& pb ≠ 0) from fun hc2 => hnd2.1 hc2.1),
            if_pos (show p ∈ p :: L ∧ p &&& pb ≠ 0 from ⟨by simp, hc⟩)]
      · rw [if_neg hc, ih hnd2.2 a,
            if_neg (show ¬(p ∈ L ∧ p &&& pb ≠ 0) from fun hc2 => hnd2.1 hc2.1),
            if_neg (show ¬(p ∈ p :: L ∧ p &&& pb ≠ 0) from fun hc2 => hc hc2.2)]
    · have hstep : (if p &&& pb ≠ 0 then
          (if cwGet N w p then a ^^^ 1 else a) else a) = a := by
        rw [hw p, show decide (p = q) = false from by simp [hpq]]
        by_cases hc : p &&& pb ≠ 0
        · rw [if_pos hc, if_neg Bool.false_ne_true]
        · rw [if_neg hc]
      rw [hstep, ih hnd2.2 a]
      by_cases hm : q ∈ L ∧ q &&& pb ≠ 0
      · rw [if_pos hm, if_pos (show q ∈ p :: L ∧ q &&& pb ≠ 0 from
          ⟨by simp [hm.1], hm.2⟩)]
      · rw [if_neg hm, if_neg (show ¬(q ∈ p :: L ∧ q &&& pb ≠ 0) from fun hc2 => by
          rcases List.mem_cons.mp hc2.1 with he | he
          · exact hpq he.symm
          · exact hm ⟨he, hc2.2⟩)]

theorem ovpFold_single (N q : Nat) {w : Nat}
    (hw : ∀ pos, cwGet N w pos = decide (pos = q)) :
    ∀ (L : List Nat), L.Nodup → ∀ (a : Nat),
      L.foldl (fun par pos => if cwGet N w pos then par ^^^ 1 else par) a =
      if q ∈ L then a ^^^ 1 else a := by
  intro L
  induction L with
  | nil =>
    intro _ a
    rw [if_neg (show ¬(q ∈ ([] : List Nat)) from fun hc => by simp at hc)]
    rfl
  | cons p L ih =>
    intro hnd a
    have hnd2 := List.nodup_cons.mp hnd
    simp only [List.foldl_cons]
    rcases eq_or_ne p q with hpq | hpq
    · subst hpq
      rw [hw p, decide_eq_true rfl, if_pos rfl, ih hnd2.2 (a ^^^ 1),
          if_neg hnd2.1, if_pos (show p ∈ p :: L from by simp)]
    · rw [hw p, show decide (p = q) = false from by simp [hpq],
          if_neg Bool.false_ne_true, ih hnd2.2 a]
      by_cases hm : q ∈ L
      · rw [if_pos hm, if_pos (show q ∈ p :: L from by simp [hm])]
      · rw [if_neg hm, if_neg (show ¬(q ∈ p :: L) from fun hc2 => by
          rcases List.mem_cons.mp hc2 with he | he
          · exact hpq he.symm
          · exact hm he)]

theorem parityCover_two_pow (T : HTraits) {q : Nat} (pb : Nat) (h1 : 1 ≤ q)
    (h2 : q ≤ totalBits T - 1) :
    parityCover T (2 ^ (q - 1)) pb = if q &&& pb ≠ 0 then 1 else 0 := by
  unfold parityCover
  rw [coverFold_single (totalBits T) pb q
      (fun pos => cwGet_two_pow pos h1 (by omega))
      (List.range' 1 (totalBits T - 1)) (List.nodup_range' _ _ 1 one_pos) 0]
  have hmem : q ∈ List.range' 1 (totalBits T - 1) := List.mem_range'_1.mpr ⟨h1, by omega⟩
  by_cases hc : q &&& pb ≠ 0
  · rw [if_pos (show q ∈ List.range' 1 (totalBits T - 1) ∧ q &&& pb ≠ 0 from ⟨hmem, hc⟩),
        if_pos hc, Nat.zero_xor]
  · rw [if_neg (show ¬(q ∈ List.range' 1 (totalBits T - 1) ∧ q &&& pb ≠ 0) from
        fun hc2 => hc hc2.2), if_neg hc]

theorem ovpSum_two_pow (T : HTraits) {q : Nat} (u : Nat) (h1 : 1 ≤ q)
    (h2 : q ≤ totalBits T) :
    ovpSum T (2 ^ (q - 1)) u = if q ≤ u then 1 else 0 := by
  unfold ovpSum
  rw [ovpFold_single (totalBits T) q
      (fun pos => cwGet_two_pow pos h1 h2)
      (List.range' 1 u) (List.nodup_range' _ _ 1 one_pos) 0]
  by_cases hu : q ≤ u
  · rw [if_pos (List.mem_range'_1.mpr ⟨h1, by omega⟩), if_pos hu, Nat.zero_xor]
  · rw [if_neg (fun hc => hu (by have := List.mem_range'_1.mp hc; omega)), if_neg hu]

end ecc

namespace ecc

/-! ### Syndromes and overall parity of the encoder output -/

theorem parityCover_xfold (T : HTraits) (pb : Nat) (g : Nat → Nat) :
    ∀ (L : List Nat), parityCover T (L.foldl (fun acc x => acc ^^^ g x) 0) pb =
      L.foldl (fun acc x => acc ^^^ parityCover T (g x) pb) 0 := by
  intro L
  induction L with
  | nil =>
    exact parityCover_zero_of T pb (fun pos _ _ => cwGet_zero _ _)
  | cons p L ih =>
    simp only [List.foldl_cons, Nat.zero_xor]
    rw [xfold_acc g L (g p), parityCover_xor, ih,
        xfold_acc (fun x => parityCover T (g x) pb) L (parityCover T (g p) pb)]

theorem xfold_zero_terms (g : Nat → Nat) :
    ∀ (L : List Nat), (∀ x ∈ L, g x = 0) → ∀ (a : Nat),
      L.foldl (fun acc x => acc ^^^ g x) a = a := by
  intro L
  induction L with
  | nil =>
    intro _ a
    rfl
  | cons p L ih =>
    intro h a
    simp only [List.foldl_cons]
    rw [h p (by simp), Nat.xor_zero]
    exact ih (fun x hx => h x (by simp [hx])) a

theorem xfold_single_term (g : Nat → Nat) (q : Nat)
    (hz : ∀ x, x ≠ q → g x = 0) :
    ∀ (L : List Nat), L.Nodup → q ∈ L →
      L.foldl (fun acc x => acc ^^^ g x) 0 = g q := by
  intro L
  induction L with
  | nil =>
    intro _ hmem
    simp at hmem
  | cons p L ih =>
    intro hnd hmem
    have hnd2 := List.nodup_cons.mp hnd
    simp only [List.foldl_cons, Nat.zero_xor]
    rcases eq_or_ne p q with hpq | hpq
    · subst hpq
      rw [xfold_zero_terms g L (fun x hx => hz x (fun he => hnd2.1 (he ▸ hx))) (g p)]
    · rw [hz p hpq]
      rcases List.mem_cons.mp hmem with he | he
      · exact absurd he.symm hpq
      · exact ih hnd2.2 he

theorem parityCover_ppMask (T : HTraits) (c pb : Nat) (hpbmem : pb ∈ T.parityPositions)
    (hall : ∀ pb2 ∈ T.parityPositions, 1 ≤ pb2 ∧ pb2 ≤ totalBits T - 1)
    (hdisj : ∀ pb2 ∈ T.parityPositions, ∀ pb3 ∈ T.parityPositions,
      pb2 ≠ pb3 → pb3 &&& pb2 = 0)
    (hnd : T.parityPositions.Nodup) :
    parityCover T (ppMask T c) pb = parityCover T c pb := by
  unfold ppMask
  rw [parityCover_xfold T pb
      (fun pb2 => if parityCover T c pb2 ≠ 0 then 2 ^ (pb2 - 1) else 0)
      T.parityPositions,
    List.foldl_ext _ (fun acc pb2 =>
        acc ^^^ (if pb2 = pb then parityCover T c pb else 0)) 0 ?hext,
    xfold_single_term (fun pb2 => if pb2 = pb then parityCover T c pb else 0) pb
      (fun x hx => by simp [hx]) T.parityPositions hnd hpbmem,
    if_pos rfl]
  case hext =>
    intro acc pb2 hmem2
    congr 1
    by_cases he : pb2 = pb
    · subst he
      rw [if_pos rfl]
      by_cases hq : parityCover T c pb2 ≠ 0
      · rw [if_pos hq,
          parityCover_two_pow T pb2 (hall pb2 hmem2).1 (hall pb2 hmem2).2]
        have hle := parityCover_le_one T c pb2
        have hself : pb2 &&& pb2 = pb2 := Nat.and_self pb2
        rw [if_pos (by rw [hself]; have := (hall pb2 hmem2).1; omega)]
        omega
      · rw [if_neg hq]
        rw [parityCover_zero_of T pb2 (fun pos _ _ => cwGet_zero _ _)]
        omega
    · rw [if_neg he]
      by_cases hq : parityCover T c pb2 ≠ 0
      · rw [if_pos hq,
          parityCover_two_pow T pb (hall pb2 hmem2).1 (hall pb2 hmem2).2,
          if_neg (show ¬(pb2 &&& pb ≠ 0) from by
            rw [hdisj pb hpbmem pb2 hmem2 (fun h2 => he h2.symm)]
            omega)]
      · rw [if_neg hq]
        exact parityCover_zero_of T pb (fun pos _ _ => cwGet_zero _ _)

theorem parityCover_encode_zero (T : HTraits) (d pb : Nat)
    (hpbmem : pb ∈ T.parityPositions)
    (hlen : T.dataBits ≤ (dataPositions T).length)
    (hall : ∀ pb2 ∈ T.parityPositions, 1 ≤ pb2 ∧ pb2 ≤ totalBits T - 1)
    (hdisj : ∀ pb2 ∈ T.parityPositions, ∀ pb3 ∈ T.parityPositions,
      pb2 ≠ pb3 → pb3 &&& pb2 = 0)
    (hndpp : T.parityPositions.Nodup) :
    parityCover T (encode T d) pb = 0 := by
  rw [encode_eq T d hlen hall hdisj hndpp, parityCover_xor, parityCover_xor,
      parityCover_ppMask T _ pb hpbmem hall hdisj hndpp, Nat.xor_self, Nat.zero_xor]
  by_cases ho : ovpSum T (placeData T d ^^^ ppMask T (placeData T d))
      (totalBits T - 1) ≠ 0
  · rw [if_pos ho]
    apply parityCover_zero_of
    intro pos hp1 hp2
    rw [cwGet_two_pow pos (one_le_totalBits T) (le_refl _)]
    simp only [decide_eq_false_iff_not]
    omega
  · rw [if_neg ho]
    exact parityCover_zero_of T pb (fun pos _ _ => cwGet_zero _ _)

theorem synInt_zero_of (T : HTraits) {cw : Nat}
    (h : ∀ pb ∈ T.parityPositions, parityCover T cw pb = 0) : synInt T cw = 0 := by
  unfold synInt
  rw [List.foldl_ext _ (fun s i => s) 0 ?hext]
  · induction T.parityPositions.length with
    | zero => rfl
    | succ k ih =>
      rw [List.range_succ, List.foldl_append]
      exact ih
  case hext =>
    intro s i hi
    have hilt := List.mem_range.mp hi
    rw [h ((T.parityPositions).getD i 0) (getD_mem' hilt 0)]
    simp

theorem synInt_congr (T : HTraits) {x y : Nat}
    (h : ∀ pb ∈ T.parityPositions, parityCover T x pb = parityCover T y pb) :
    synInt T x = synInt T y := by
  unfold synInt
  rw [List.foldl_ext _ (fun s i =>
      if parityCover T y ((T.parityPositions).getD i 0) ≠ 0 then s ||| (1 <<< i) else s)
      0 ?hext]
  case hext =>
    intro s i hi
    have hilt := List.mem_range.mp hi
    rw [h ((T.parityPositions).getD i 0) (getD_mem' hilt 0)]

theorem extract_congr (T : HTraits) {x y : Nat}
    (hlen : T.dataBits ≤ (dataPositions T).length)
    (h : ∀ p ∈ dataPositions T, cwGet (totalBits T) x p = cwGet (totalBits T) y p) :
    extract T x = extract T y := by
  unfold extract
  rw [List.foldl_ext _ (fun acc i =>
      if cwGet (totalBits T) y ((dataPositions T).getD i 0) then acc ||| (1 <<< i) else acc)
      0 ?hext]
  case hext =>
    intro acc i hi
    have hilt := List.mem_range.mp hi
    rw [h ((dataPositions T).getD i 0) (getD_mem' (by omega) 0)]

theorem ovpSum_succ (T : HTraits) (cw u : Nat) :
    ovpSum T cw (u + 1) =
      ovpSum T cw u ^^^ (if cwGet (totalBits T) cw (u + 1) then 1 else 0) := by
  unfold ovpSum
  rw [show List.range' 1 (u + 1) = List.range' 1 u ++ [1 + u] from by
      have := @List.range'_concat 1 1 u
      simpa using this,
    List.foldl_append]
  simp only [List.foldl_cons, List.foldl_nil]
  rw [show 1 + u = u + 1 from by omega]
  by_cases hg : cwGet (totalBits T) cw (u + 1) = true
  · rw [if_pos hg, if_pos hg]
  · rw [if_neg hg, if_neg hg, Nat.xor_zero]

end ecc

namespace ecc

theorem c2_topBit (T : HTraits) (d : Nat)
    (hlen : T.dataBits ≤ (dataPositions T).length)
    (hall : ∀ pb ∈ T.parityPositions, 1 ≤ pb ∧ pb ≤ totalBits T - 1) :
    (placeData T d ^^^ ppMask T (placeData T d)).testBit (totalBits T - 1) = false := by
  rw [Nat.testBit_xor ..]
  rw [placeData_fresh T d _ hlen ?hnd1, ppMask_testBit_high T _ _ ?hnd2]
  · rfl
  case hnd1 =>
    intro hmem
    have h2 := (dataPositions_mem hmem).2.2
    have h1 := one_le_totalBits T
    omega
  case hnd2 =>
    intro pb hmem
    have := hall pb hmem
    omega

theorem ovpSum_top_drop (T : HTraits) (cw : Nat)
    (hbit : cw.testBit (totalBits T - 1) = false) :
    ovpSum T cw (totalBits T) = ovpSum T cw (totalBits T - 1) := by
  have h1 := one_le_totalBits T
  have h2 := ovpSum_succ T cw (totalBits T - 1)
  rw [show totalBits T - 1 + 1 = totalBits T from by omega] at h2
  rw [h2, cwGet_eq_testBit _ _ _ (by omega) (le_refl _), hbit,
      if_neg Bool.false_ne_true, Nat.xor_zero]

theorem ovpSum_encode_zero (T : HTraits) (d : Nat)
    (hlen : T.dataBits ≤ (dataPositions T).length)
    (hall : ∀ pb ∈ T.parityPositions, 1 ≤ pb ∧ pb ≤ totalBits T - 1)
    (hdisj : ∀ pb2 ∈ T.parityPositions, ∀ pb3 ∈ T.parityPositions,
      pb2 ≠ pb3 → pb3 &&& pb2 = 0)
    (hndpp : T.parityPositions.Nodup) :
    ovpSum T (encode T d) (totalBits T) = 0 := by
  rw [encode_eq T d hlen hall hdisj hndpp, ovpSum_xor,
      ovpSum_top_drop T _ (c2_topBit T d hlen hall)]
  by_cases ho : ovpSum T (placeData T d ^^^ ppMask T (placeData T d))
      (totalBits T - 1) ≠ 0
  · rw [if_pos ho,
        ovpSum_two_pow T (totalBits T) (one_le_totalBits T) (le_refl _),
        if_pos (le_refl _)]
    have hle := ovpSum_le_one T (placeData T d ^^^ ppMask T (placeData T d))
      (totalBits T - 1)
    have he1 : ovpSum T (placeData T d ^^^ ppMask T (placeData T d))
        (totalBits T - 1) = 1 := by omega
    rw [he1]
    decide
  · rw [if_neg ho]
    push_neg at ho
    rw [ho, ovpSum_zero_of T _ (fun pos _ _ => cwGet_zero _ _)]
    exact Nat.xor_self 0

theorem ovp_encode (T : HTraits) (d : Nat)
    (hlen : T.dataBits ≤ (dataPositions T).length)
    (hall : ∀ pb ∈ T.parityPositions, 1 ≤ pb ∧ pb ≤ totalBits T - 1)
    (hdisj : ∀ pb2 ∈ T.parityPositions, ∀ pb3 ∈ T.parityPositions,
      pb2 ≠ pb3 → pb3 &&& pb2 = 0)
    (hndpp : T.parityPositions.Nodup) :
    ovp T (encode T d) = false := by
  unfold ovp
  rw [ovpSum_encode_zero T d hlen hall hdisj hndpp]
  simp

theorem synInt_encode (T : HTraits) (d : Nat)
    (hlen : T.dataBits ≤ (dataPositions T).length)
    (hall : ∀ pb ∈ T.parityPositions, 1 ≤ pb ∧ pb ≤ totalBits T - 1)
    (hdisj : ∀ pb2 ∈ T.parityPositions, ∀ pb3 ∈ T.parityPositions,
      pb2 ≠ pb3 → pb3 &&& pb2 = 0)
    (hndpp : T.parityPositions.Nodup) :
    synInt T (encode T d) = 0 :=
  synInt_zero_of T (fun pb hmem =>
    parityCover_encode_zero T d pb hmem hlen hall hdisj hndpp)

theorem placePrefix_get (T : HTraits) (d : Nat) :
    ∀ (m : Nat), m ≤ (dataPositions T).length → ∀ i, i < m →
      cwGet (totalBits T) ((List.range m).foldl (fun cw j =>
        cwSet (totalBits T) cw ((dataPositions T).getD j 0) (d.testBit j)) 0)
        ((dataPositions T).getD i 0) = d.testBit i := by
  intro m
  induction m with
  | zero =>
    intro _ i hi
    omega
  | succ k ih =>
    intro hm i hi
    rw [List.range_succ, List.foldl_append]
    simp only [List.foldl_cons, List.foldl_nil]
    have hik : i < (dataPositions T).length := by omega
    have hkk : k < (dataPositions T).length := by omega
    have hini := (dataPositions_mem (getD_mem' hik 0)).1
    have hink := (dataPositions_mem (getD_mem' hkk 0)).1
    rw [cwGet_eq_testBit _ _ _ hini.1 hini.2, cwSet_testBit]
    rcases eq_or_ne i k with he | he
    · subst he
      rw [if_pos (show (dataPositions T).getD i 0 - 1 = (dataPositions T).getD i 0 - 1 ∧
          1 ≤ (dataPositions T).getD i 0 ∧ (dataPositions T).getD i 0 ≤ totalBits T from
          ⟨rfl, hini⟩)]
    · rw [if_neg ?hne]
      · rw [← cwGet_eq_testBit _ _ _ hini.1 hini.2]
        exact ih (by omega) i (by omega)
      case hne =>
        intro hc
        have he2 : (dataPositions T).getD i 0 = (dataPositions T).getD k 0 := by omega
        exact he (getD_inj' (dataPositions_nodup T) hik hkk he2)

theorem rebuild_fold (d : Nat) :
    ∀ (n : Nat), (List.range n).foldl
      (fun acc i => if d.testBit i then acc ||| (1 <<< i) else acc) 0 = d % 2 ^ n := by
  intro n
  induction n with
  | zero =>
    rw [show List.range 0 = ([] : List Nat) from rfl]
    simp [Nat.mod_one]
  | succ k ih =>
    rw [List.range_succ, List.foldl_append]
    simp only [List.foldl_cons, List.foldl_nil]
    rw [ih]
    by_cases hb : d.testBit k = true
    · rw [if_pos hb, BCH63.one_shiftLeft]
      apply Nat.eq_of_testBit_eq
      intro t
      rw [Nat.testBit_or, Nat.testBit_mod_two_pow .., Nat.testBit_mod_two_pow ..,
          Nat.testBit_two_pow]
      by_cases ht : t < k
      · simp [ht, show t < k + 1 from by omega, show k ≠ t from by omega]
      · rcases eq_or_ne t k with ht2 | ht2
        · subst ht2
          simp [show ¬(t < t) from by omega, show t < t + 1 from by omega, hb]
        · simp [ht, show ¬(t < k + 1) from by omega, show k ≠ t from fun he => ht2 he.symm]
    · rw [if_neg hb]
      apply Nat.eq_of_testBit_eq
      intro t
      rw [Nat.testBit_mod_two_pow .., Nat.testBit_mod_two_pow ..]
      by_cases ht : t < k
      · simp [ht, show t < k + 1 from by omega]
      · rcases eq_or_ne t k with ht2 | ht2
        · subst ht2
          simp [show ¬(t < t) from by omega, show t < t + 1 from by omega, hb]
        · simp [ht, show ¬(t < k + 1) from by omega]

theorem extract_placeData (T : HTraits) (d : Nat)
    (hlen : T.dataBits ≤ (dataPositions T).length) (hd : d < 2 ^ T.dataBits) :
    extract T (placeData T d) = d := by
  unfold extract placeData
  rw [List.foldl_ext _ (fun acc i => if d.testBit i then acc ||| (1 <<< i) else acc)
      0 ?hext, rebuild_fold d T.dataBits, Nat.mod_eq_of_lt hd]
  case hext =>
    intro acc i hi
    have hilt := List.mem_range.mp hi
    rw [placePrefix_get T d T.dataBits hlen i hilt]

theorem extract_encode (T : HTraits) (d : Nat)
    (hlen : T.dataBits ≤ (dataPositions T).length)
    (hall : ∀ pb ∈ T.parityPositions, 1 ≤ pb ∧ pb ≤ totalBits T - 1)
    (hdisj : ∀ pb2 ∈ T.parityPositions, ∀ pb3 ∈ T.parityPositions,
      pb2 ≠ pb3 → pb3 &&& pb2 = 0)
    (hndpp : T.parityPositions.Nodup) (hd : d < 2 ^ T.dataBits) :
    extract T (encode T d) = d := by
  have hcongr : extract T (encode T d) = extract T (placeData T d) := by
    apply extract_congr T hlen
    intro p hp
    rw [encode_eq T d hlen hall hdisj hndpp, cwGet_xor, cwGet_xor]
    have hdp := dataPositions_mem hp
    have hpm : cwGet (totalBits T) (ppMask T (placeData T d)) p = false := by
      rw [cwGet_eq_testBit _ _ _ hdp.1.1 hdp.1.2]
      apply ppMask_testBit_high
      intro pb hmem
      have hb := hall pb hmem
      have hne : p ≠ pb := fun he => parity_not_data hmem (he ▸ hp)
      omega
    have hov : cwGet (totalBits T)
        (if ovpSum T (placeData T d ^^^ ppMask T (placeData T d)) (totalBits T - 1) ≠ 0
         then 2 ^ (totalBits T - 1) else 0) p = false := by
      by_cases ho : ovpSum T (placeData T d ^^^ ppMask T (placeData T d))
          (totalBits T - 1) ≠ 0
      · rw [if_pos ho, cwGet_two_pow p (one_le_totalBits T) (le_refl _)]
        simp only [decide_eq_false_iff_not]
        exact hdp.2.2
      · rw [if_neg ho]
        exact cwGet_zero _ _
    rw [hpm, hov, Bool.xor_false, Bool.xor_false]
  rw [hcongr, extract_placeData T d hlen hd]

end ecc

namespace ecc

/-! ### Decoding -/

/-- Flattened form of `decode` (the `let` bindings spelled out). -/
theorem hdecode_def (T : HTraits) (received : Nat) :
    decode T received =
      (if synInt T received = 0 ∧ ovp T received = false then
        { corrected_data := extract T received, syndrome := synInt T received,
          error_position := 0, error_type := .NO_ERROR,
          overall_parity := ovp T received, data_corrected := false }
      else if synInt T received = 0 ∧ ovp T received = true then
        { corrected_data := extract T (cwFlip (totalBits T) received (totalBits T)),
          syndrome := synInt T received, error_position := totalBits T,
          error_type := .OVERALL_PARITY_ERROR, overall_parity := ovp T received,
          data_corrected := true }
      else if synInt T received ≠ 0 ∧ ovp T received = true then
        if 1 ≤ synInt T received ∧ synInt T received ≤ totalBits T - 1 then
          { corrected_data := extract T (cwFlip (totalBits T) received (synInt T received)),
            syndrome := synInt T received, error_position := synInt T received,
            error_type := .SINGLE_ERROR_CORRECTABLE, overall_parity := ovp T received,
            data_corrected := true }
        else
          { corrected_data := extract T received, syndrome := synInt T received,
            error_position := synInt T received,
            error_type := .SINGLE_ERROR_CORRECTABLE, overall_parity := ovp T received,
            data_corrected := false }
      else if synInt T received ≠ 0 ∧ ovp T received = false then
        { corrected_data := extract T received, syndrome := synInt T received,
          error_position := 0, error_type := .DOUBLE_ERROR_DETECTABLE,
          overall_parity := ovp T received, data_corrected := false }
      else
        { corrected_data := extract T received, syndrome := synInt T received,
          error_position := 0, error_type := .MULTIPLE_ERROR_UNCORRECTABLE,
          overall_parity := ovp T received, data_corrected := false }) := rfl

theorem decode_encode (T : HTraits) (d : Nat)
    (hlen : T.dataBits ≤ (dataPositions T).length)
    (hall : ∀ pb ∈ T.parityPositions, 1 ≤ pb ∧ pb ≤ totalBits T - 1)
    (hdisj : ∀ pb2 ∈ T.parityPositions, ∀ pb3 ∈ T.parityPositions,
      pb2 ≠ pb3 → pb3 &&& pb2 = 0)
    (hndpp : T.parityPositions.Nodup) (hd : d < 2 ^ T.dataBits) :
    decode T (encode T d) =
      { corrected_data := d, syndrome := 0, error_position := 0,
        error_type := .NO_ERROR, overall_parity := false, data_corrected := false } := by
  rw [hdecode_def, synInt_encode T d hlen hall hdisj hndpp,
      ovp_encode T d hlen hall hdisj hndpp,
      if_pos (show (0 : Nat) = 0 ∧ (false : Bool) = false from ⟨rfl, rfl⟩),
      extract_encode T d hlen hall hdisj hndpp hd]

theorem parityCover_flip_zero (T : HTraits) (x pb : Nat) (hall1 : 1 ≤ pb)
    (he : ∀ pb2 ∈ T.parityPositions, parityCover T x pb2 = 0) (hmem : pb ∈ T.parityPositions) : True := trivial

theorem decode_single_flip (T : HTraits) (d p : Nat)
    (hlen : T.dataBits ≤ (dataPositions T).length)
    (hall : ∀ pb ∈ T.parityPositions, 1 ≤ pb ∧ pb ≤ totalBits T - 1)
    (hdisj : ∀ pb2 ∈ T.parityPositions, ∀ pb3 ∈ T.parityPositions,
      pb2 ≠ pb3 → pb3 &&& pb2 = 0)
    (hndpp : T.parityPositions.Nodup) (hd : d < 2 ^ T.dataBits)
    (hp1 : 1 ≤ p) (hp2 : p ≤ totalBits T - 1)
    (hsyn : synInt T (2 ^ (p - 1)) = p)
    (hovp1 : ovpSum T (2 ^ (p - 1)) (totalBits T) = 1) :
    decode T (cwFlip (totalBits T) (encode T d) p) =
      { corrected_data := d, syndrome := p, error_position := p,
        error_type := .SINGLE_ERROR_CORRECTABLE, overall_parity := true,
        data_corrected := true } := by
  have hpN : p ≤ totalBits T := by omega
  rw [cwFlip_eq hp1 hpN]
  have hS : synInt T (encode T d ^^^ 2 ^ (p - 1)) = p := by
    rw [@synInt_congr T _ (2 ^ (p - 1)) (fun pb hmem => by
      rw [parityCover_xor, parityCover_encode_zero T d pb hmem hlen hall hdisj hndpp,
        Nat.zero_xor]), hsyn]
  have hP : ovp T (encode T d ^^^ 2 ^ (p - 1)) = true := by
    unfold ovp
    rw [ovpSum_xor, ovpSum_encode_zero T d hlen hall hdisj hndpp, Nat.zero_xor, hovp1]
    simp
  rw [hdecode_def, hS, hP,
      if_neg (show ¬(p = 0 ∧ (true : Bool) = false) from fun hc => by
        simp at hc),
      if_neg (show ¬(p = 0 ∧ (true : Bool) = true) from fun hc => by omega),
      if_pos (show p ≠ 0 ∧ (true : Bool) = true from ⟨by omega, rfl⟩),
      if_pos (show 1 ≤ p ∧ p ≤ totalBits T - 1 from ⟨hp1, hp2⟩),
      cwFlip_eq hp1 hpN, BCH63.flip_xor_cancel,
      extract_encode T d hlen hall hdisj hndpp hd]

theorem decode_flip_overall (T : HTraits) (d : Nat)
    (hlen : T.dataBits ≤ (dataPositions T).length)
    (hall : ∀ pb ∈ T.parityPositions, 1 ≤ pb ∧ pb ≤ totalBits T - 1)
    (hdisj : ∀ pb2 ∈ T.parityPositions, ∀ pb3 ∈ T.parityPositions,
      pb2 ≠ pb3 → pb3 &&& pb2 = 0)
    (hndpp : T.parityPositions.Nodup) (hd : d < 2 ^ T.dataBits) :
    decode T (cwFlip (totalBits T) (encode T d) (totalBits T)) =
      { corrected_data := d, syndrome := 0, error_position := totalBits T,
        error_type := .OVERALL_PARITY_ERROR, overall_parity := true,
        data_corrected := true } := by
  rw [cwFlip_eq (one_le_totalBits T) (le_refl _)]
  have hS : synInt T (encode T d ^^^ 2 ^ (totalBits T - 1)) = 0 := by
    apply synInt_zero_of
    intro pb hmem
    rw [parityCover_xor, parityCover_encode_zero T d pb hmem hlen hall hdisj hndpp,
        Nat.zero_xor]
    apply parityCover_zero_of
    intro pos hp1 hp2
    rw [cwGet_two_pow pos (one_le_totalBits T) (le_refl _)]
    simp only [decide_eq_false_iff_not]
    omega
  have hP : ovp T (encode T d ^^^ 2 ^ (totalBits T - 1)) = true := by
    unfold ovp
    rw [ovpSum_xor, ovpSum_encode_zero T d hlen hall hdisj hndpp, Nat.zero_xor,
        ovpSum_two_pow T (totalBits T) (one_le_totalBits T) (le_refl _),
        if_pos (le_refl _)]
    simp
  rw [hdecode_def, hS, hP,
      if_neg (show ¬((0 : Nat) = 0 ∧ (true : Bool) = false) from fun hc => by
        simp at hc),
      if_pos (show (0 : Nat) = 0 ∧ (true : Bool) = true from ⟨rfl, rfl⟩),
      cwFlip_eq (one_le_totalBits T) (le_refl _), BCH63.flip_xor_cancel,
      extract_encode T d hlen hall hdisj hndpp hd]

theorem extract_flip_top (T : HTraits) (cw : Nat)
    (hlen : T.dataBits ≤ (dataPositions T).length) :
    extract T (cwFlip (totalBits T) cw (totalBits T)) = extract T cw := by
  rw [cwFlip_eq (one_le_totalBits T) (le_refl _)]
  apply extract_congr T hlen
  intro p hp
  rw [cwGet_xor, cwGet_two_pow p (one_le_totalBits T) (le_refl _)]
  simp [(dataPositions_mem hp).2.2]

theorem decode_syndrome_high (T : HTraits) (received : Nat)
    (hS : totalBits T - 1 < synInt T received) (hP : ovp T received = true) :
    decode T received =
      { corrected_data := extract T received, syndrome := synInt T received,
        error_position := synInt T received,
        error_type := .SINGLE_ERROR_CORRECTABLE, overall_parity := true,
        data_corrected := false } := by
  rw [hdecode_def, hP]
  rw [if_neg (show ¬(synInt T received = 0 ∧ (true : Bool) = false) from fun hc => by
        simp at hc),
      if_neg (show ¬(synInt T received = 0 ∧ (true : Bool) = true) from fun hc => by
        omega),
      if_pos (show synInt T received ≠ 0 ∧ (true : Bool) = true from ⟨by omega, rfl⟩),
      if_neg (show ¬(1 ≤ synInt T received ∧ synInt T received ≤ totalBits T - 1) from
        fun hc => by omega)]

end ecc

namespace ecc

theorem and_two_pow' (p i : Nat) : p &&& 2 ^ i = if p.testBit i then 2 ^ i else 0 := by
  apply Nat.eq_of_testBit_eq
  intro t
  rw [Nat.testBit_and]
  by_cases hb : p.testBit i = true
  · rw [if_pos hb, Nat.testBit_two_pow]
    rcases eq_or_ne i t with he | he
    · subst he
      simp [hb]
    · simp [he]
  · rw [if_neg hb, Nat.testBit_two_pow, Nat.zero_testBit]
    rcases eq_or_ne i t with he | he
    · subst he
      simp [hb]
    · simp [he]

theorem synInt_two_pow (T : HTraits) (p : Nat) (hp1 : 1 ≤ p) (hp2 : p ≤ totalBits T - 1)
    (hplt : p < 2 ^ T.parityPositions.length)
    (hpow : ∀ i, i < T.parityPositions.length → (T.parityPositions).getD i 0 = 2 ^ i) :
    synInt T (2 ^ (p - 1)) = p := by
  unfold synInt
  rw [List.foldl_ext _ (fun s i => if p.testBit i then s ||| (1 <<< i) else s) 0 ?hext,
      rebuild_fold p T.parityPositions.length, Nat.mod_eq_of_lt hplt]
  case hext =>
    intro s i hi
    have hilt := List.mem_range.mp hi
    rw [hpow i hilt, parityCover_two_pow T (2 ^ i) hp1 hp2, and_two_pow']
    by_cases hb : p.testBit i = true
    · rw [if_pos hb]
      simp [hb]
    · rw [if_neg hb]
      simp [hb]

theorem h32_facts :
    h32.dataBits ≤ (dataPositions h32).length ∧
    (∀ pb ∈ h32.parityPositions, 1 ≤ pb ∧ pb ≤ totalBits h32 - 1) ∧
    (∀ pb2 ∈ h32.parityPositions, ∀ pb3 ∈ h32.parityPositions,
      pb2 ≠ pb3 → pb3 &&& pb2 = 0) ∧
    h32.parityPositions.Nodup ∧
    (∀ i, i < h32.parityPositions.length → (h32.parityPositions).getD i 0 = 2 ^ i) ∧
    totalBits h32 = 39 ∧ totalBits h32 - 1 < 2 ^ h32.parityPositions.length := by
  exact ⟨by decide, by decide, by decide, by decide, by decide, by decide, by decide⟩

theorem h64_facts :
    h64.dataBits ≤ (dataPositions h64).length ∧
    (∀ pb ∈ h64.parityPositions, 1 ≤ pb ∧ pb ≤ totalBits h64 - 1) ∧
    (∀ pb2 ∈ h64.parityPositions, ∀ pb3 ∈ h64.parityPositions,
      pb2 ≠ pb3 → pb3 &&& pb2 = 0) ∧
    h64.parityPositions.Nodup ∧
    (∀ i, i < h64.parityPositions.length → (h64.parityPositions).getD i 0 = 2 ^ i) ∧
    totalBits h64 = 72 ∧ totalBits h64 - 1 < 2 ^ h64.parityPositions.length := by
  exact ⟨by decide, by decide, by decide, by decide, by decide, by decide, by decide⟩

end ecc

/-! ## SecDaec64 — the `BitVector`-based variant

The repository carries several `SecDaec64` definitions; the spec (§9)
designates the `BitVector`-based one embedded in
`src/scripts/run_sku_studies.sh` as canonical (the `uint64_t` variant in
`src/SecDaec64.hpp` shifts by positions ≥ 64 of a 64-bit word, which is
undefined behaviour in C++).  The 128-bit `BitVector` is modelled as a
`Nat` with `set`/`get` clamped at 128.  `ParityCheckMatrix::syndrome` is
absent from the sources and is modelled from the spec (§4.1) as the
per-row XOR-fold; the decoder's own syndrome loop in the source computes
exactly this fold, and the adjacency table builder uses the same rows. -/

namespace sd

def bvGet (w pos : Nat) : Bool :=
  if pos < 128 then w.testBit pos else false

def bvSet (w pos : Nat) (v : Bool) : Nat :=
  if pos < 128 then
    (if v then w ||| (1 <<< pos)
     else if w.testBit pos then w ^^^ (1 <<< pos) else w)
  else w

def bvFlip (w pos : Nat) : Nat := bvSet w pos (!(bvGet w pos))

def parityPosL : List Nat := [0, 1, 3, 7, 15, 31, 63, 69]

def isParityPosition (pos : Nat) : Bool := parityPosL.contains pos || (pos == 72)

def getDataPositions : List Nat := (List.range 72).filter (fun i => !isParityPosition i)

def hammingRow (b : Nat) : Nat :=
  (List.range' 1 72).foldl
    (fun row pos => if pos &&& b ≠ 0 then row ||| (1 <<< (pos - 1)) else row) 0

def daecRow : Nat :=
  (List.range 63).foldl (fun r i => r ^^^ ((1 <<< i) ||| (1 <<< (i + 1)))) 0

def Hrows : List Nat :=
  [hammingRow 1, hammingRow 2, hammingRow 4, hammingRow 8, hammingRow 16,
   hammingRow 32, hammingRow 64, daecRow]

def parity128 (x : Nat) : Nat :=
  (List.range 128).foldl (fun acc i => acc ^^^ (if x.testBit i then 1 else 0)) 0

def placeDataBits (data : Nat) : Nat :=
  ((List.range 72).foldl (fun (st : Nat × Nat) i =>
    if isParityPosition i then st
    else (if data.testBit st.2 then bvSet st.1 i true else st.1, st.2 + 1)) (0, 0)).1

def encode (data : Nat) : Nat :=
  let w1 := (List.range 7).foldl (fun w p =>
    bvSet w (parityPosL.getD p 0) (parity128 ((Hrows.getD p 0) &&& w) = 1))
    (placeDataBits data)
  let daec := (List.range 63).foldl
    (fun b i => b ^^^ (((data >>> i) ^^^ (data >>> (i + 1))) &&& 1)) 0
  let w2 := bvSet w1 69 (daec = 1)
  bvSet w2 72 (parity128 w2 = 1)

def synOf (w : Nat) : Nat :=
  (List.range 8).foldl
    (fun s p => if parity128 ((Hrows.getD p 0) &&& w) = 1 then s ||| (1 <<< p) else s) 0

def popcount8 (s : Nat) : Nat :=
  (List.range 8).foldl (fun c i => c + (if s.testBit i then 1 else 0)) 0

def adjTable : List (Nat × Nat) :=
  (List.range 72).foldl
    (fun tbl i => tbl.set (synOf ((1 <<< i) ||| (1 <<< (i + 1)))) (i, i + 1))
    (List.replicate 256 (0, 0))

def extractData (w : Nat) : Nat :=
  (List.range 64).foldl
    (fun data i => if bvGet w (getDataPositions.getD i 0) then data ||| (1 <<< i) else data) 0

structure SDResult where
  data : Nat
  corrected : Bool
  detected : Bool
  deriving DecidableEq, Repr

def decode (recv : Nat) : SDResult :=
  let s := synOf recv
  let ovp := (List.range 72).foldl
    (fun acc pos => acc ^^^ (if bvGet recv pos then 1 else 0)) 0
  let detected := (s ≠ 0) || (ovp ≠ 0)
  if s = 0 ∧ ovp = 0 then
    { data := extractData recv, corrected := false, detected := detected }
  else
    let wt := popcount8 s
    if wt = 1 then
      { data := extractData (bvFlip recv (s - 1)), corrected := true, detected := detected }
    else if wt = 2 then
      let pr := adjTable.getD s (0, 0)
      if Nat.dist pr.1 pr.2 = 1 then
        { data := extractData (bvFlip (bvFlip recv pr.1) pr.2), corrected := true,
          detected := detected }
      else
        { data := extractData recv, corrected := false, detected := detected }
    else
      { data := extractData recv, corrected := false, detected := detected }

def decodeResultClean (d : Nat) : SDResult :=
  { data := d, corrected := false, detected := false }

end sd

/-! ## The unguarded 32-bit `HammingCodeSECDED::CodeWord` of `SecDaec64.hpp`

Unlike `detail::CodeWordStorage` and the 64-bit variant, this container
performs no range check: `getBit`/`setBit`/`flipBit` shift by `pos - 1`
unconditionally (well defined in C++ for `1 ≤ pos ≤ 64`). -/

namespace cw32

def getBit (data pos : Nat) : Bool := (data >>> (pos - 1)) &&& 1 = 1

def setBit (data pos : Nat) (v : Bool) : Nat :=
  if v then data ||| (1 <<< (pos - 1))
  else if data.testBit (pos - 1) then data ^^^ (1 <<< (pos - 1)) else data

def flipBit (data pos : Nat) : Nat := data ^^^ (1 <<< (pos - 1))

end cw32

namespace BCH63

theorem decode_branch1 {received : Nat}
    (h1 : (computeSyndromes received).all (· = 0) = true) :
    decode received =
      { corrected := received, data := extractData received, error_locations := [],
        success := true, detected := false } := by
  rw [decode_def, if_pos h1]

theorem bch_roundtrip {d : Nat} (hd : d < 2 ^ 51) :
    decode (encode d) =
      { corrected := encode d, data := d, error_locations := [],
        success := true, detected := false } := by
  rw [decode_branch1 (by rw [encode_syndromes hd]; decide), extractData_encode hd]

end BCH63

namespace ecc

theorem hamming_table (T : HTraits) (received : Nat)
    (hlen : T.dataBits ≤ (dataPositions T).length) :
    (synInt T received = 0 ∧ ovp T received = false →
      decode T received =
        { corrected_data := extract T received, syndrome := synInt T received,
          error_position := 0, error_type := .NO_ERROR, overall_parity := false,
          data_corrected := false }) ∧
    (synInt T received = 0 ∧ ovp T received = true →
      decode T received =
        { corrected_data := extract T (cwFlip (totalBits T) received (totalBits T)),
          syndrome := synInt T received, error_position := totalBits T,
          error_type := .OVERALL_PARITY_ERROR, overall_parity := true,
          data_corrected := true }) ∧
    (synInt T received ≠ 0 ∧ ovp T received = true →
      (decode T received).error_type = .SINGLE_ERROR_CORRECTABLE ∧
      (decode T received).corrected_data =
        extract T (cwFlip (totalBits T) received (synInt T received)) ∧
      (decode T received).error_position = synInt T received) ∧
    (synInt T received ≠ 0 ∧ ovp T received = false →
      decode T received =
        { corrected_data := extract T received, syndrome := synInt T received,
          error_position := 0, error_type := .DOUBLE_ERROR_DETECTABLE,
          overall_parity := false, data_corrected := false }) := by
  refine ⟨?_, ?_, ?_, ?_⟩
  · intro h
    rw [hdecode_def, h.1, h.2,
        if_pos (show (0 : Nat) = 0 ∧ (false : Bool) = false from ⟨rfl, rfl⟩)]
  · intro h
    rw [hdecode_def, h.1, h.2,
        if_neg (show ¬((0 : Nat) = 0 ∧ (true : Bool) = false) from fun hc => by
          simp at hc),
        if_pos (show (0 : Nat) = 0 ∧ (true : Bool) = true from ⟨rfl, rfl⟩)]
  · intro h
    rw [hdecode_def, h.2,
        if_neg (show ¬(synInt T received = 0 ∧ (true : Bool) = false) from
          fun hc => h.1 hc.1),
        if_neg (show ¬(synInt T received = 0 ∧ (true : Bool) = true) from
          fun hc => h.1 hc.1),
        if_pos (show synInt T received ≠ 0 ∧ (true : Bool) = true from ⟨h.1, rfl⟩)]
    by_cases hg : 1 ≤ synInt T received ∧ synInt T received ≤ totalBits T - 1
    · rw [if_pos hg]
      exact ⟨rfl, rfl, rfl⟩
    · rw [if_neg hg]
      refine ⟨rfl, ?_, rfl⟩
      rcases eq_or_ne (synInt T received) (totalBits T) with he | he
      · rw [he, extract_flip_top T received hlen]
      · rw [cwFlip_oob (show ¬(1 ≤ synInt T received ∧
            synInt T received ≤ totalBits T) from fun hc => by
            have h1 := h.1
            omega)]
  · intro h
    rw [hdecode_def, h.2,
        if_neg (show ¬(synInt T received = 0 ∧ (false : Bool) = false) from
          fun hc => h.1 hc.1),
        if_neg (show ¬(synInt T received = 0 ∧ (false : Bool) = true) from
          fun hc => h.1 hc.1),
        if_neg (show ¬(synInt T received ≠ 0 ∧ (false : Bool) = true) from
          fun hc => by simp at hc),
        if_pos (show synInt T received ≠ 0 ∧ (false : Bool) = false from ⟨h.1, rfl⟩)]

end ecc

namespace sd

/-- The `detected` flag of `decode` depends only on the syndrome and the
overall-parity accumulator, whatever branch the decoder takes. -/
theorem decode_detected (recv : Nat) :
    (decode recv).detected =
      (decide (synOf recv ≠ 0) ||
       decide ((List.range 72).foldl
         (fun acc pos => acc ^^^ (if bvGet recv pos then 1 else 0)) 0 ≠ 0)) := by
  simp only [decode]
  repeat' split
  all_goals rfl

set_option maxRecDepth 40000 in
/-- The codeword of the unit-test data word, evaluated once. -/
theorem encode_testvec : encode 0x12345678abcdef = 590623752477430374012 := by decide

set_option maxRecDepth 40000 in
set_option maxHeartbeats 1000000 in
/-- Each of the 63 consecutive data-position pair flips of the test
codeword leaves a nonzero syndrome or odd overall parity. -/
theorem pairs_detected :
    ∀ i, i < 63 →
      (decide (synOf (590623752477430374012 ^^^
          (1 <<< getDataPositions.getD i 0) ^^^
          (1 <<< getDataPositions.getD (i + 1) 0)) ≠ 0) ||
       decide ((List.range 72).foldl
         (fun acc pos => acc ^^^ (if bvGet (590623752477430374012 ^^^
          (1 <<< getDataPositions.getD i 0) ^^^
          (1 <<< getDataPositions.getD (i + 1) 0)) pos then 1 else 0)) 0 ≠ 0)) = true := by
  decide

end sd

/-! ## Claims -/

/-- C1 (amended): decoding the uncorrupted codeword `encode d` yields the
no-error classification and recovers `d` exactly for the Hamming SEC-DED
32- and 64-bit codecs and for BCH63.  The SecDaec64 codec does **not**
satisfy the round-trip claim (see the counterexample: its encoder computes
the Hamming parity bits before the DAEC parity bit is placed, and its
decoder's overall parity ignores the stored overall-parity bit, so already
`d = 1` decodes with `detected = true`). -/
theorem claim_C1 (d : Nat) :
    (d < 2 ^ 32 → ecc.decode ecc.h32 (ecc.encode ecc.h32 d) =
      { corrected_data := d, syndrome := 0, error_position := 0,
        error_type := ecc.ErrorType.NO_ERROR, overall_parity := false,
        data_corrected := false }) ∧
    (d < 2 ^ 64 → ecc.decode ecc.h64 (ecc.encode ecc.h64 d) =
      { corrected_data := d, syndrome := 0, error_position := 0,
        error_type := ecc.ErrorType.NO_ERROR, overall_parity := false,
        data_corrected := false }) ∧
    (d < 2 ^ 51 → BCH63.decode (BCH63.encode d) =
      { corrected := BCH63.encode d, data := d, error_locations := [],
        success := true, detected := false }) := by
  refine ⟨fun hd => ?_, fun hd => ?_, fun hd => BCH63.bch_roundtrip hd⟩
  · exact ecc.decode_encode ecc.h32 d ecc.h32_facts.1 ecc.h32_facts.2.1
      ecc.h32_facts.2.2.1 ecc.h32_facts.2.2.2.1 hd
  · exact ecc.decode_encode ecc.h64 d ecc.h64_facts.1 ecc.h64_facts.2.1
      ecc.h64_facts.2.2.1 ecc.h64_facts.2.2.2.1 hd

set_option maxRecDepth 40000 in
/-- C1 counterexample: for the SecDaec64 codec (canonical `BitVector`
variant), decoding the uncorrupted codeword of `d = 1` reports
`detected = true`, not the no-error classification. -/
theorem claim_C1_counterexample :
    (sd.decode (sd.encode 1)).detected = true ∧
    sd.decode (sd.encode 1) ≠ { data := 1, corrected := false, detected := false } := by
  decide

/-- C1 witness at `d = 0x12345678` for the 32-bit Hamming codec. -/
theorem claim_C1_witness :
    (0x12345678 : Nat) < 2 ^ 32 ∧
    ecc.decode ecc.h32 (ecc.encode ecc.h32 0x12345678) =
      { corrected_data := 0x12345678, syndrome := 0, error_position := 0,
        error_type := ecc.ErrorType.NO_ERROR, overall_parity := false,
        data_corrected := false } :=
  ⟨by decide, (claim_C1 0x12345678).1 (by decide)⟩

/-- C2 (amended): flipping one codeword position of `encode d` and decoding
recovers `d` with the single-error classification for every position the
code protects: positions `1..N-1` for the Hamming codecs (with
`error_position = p`) and every position `p < 63` for BCH63 (with
`error_locations = [p]`).  Flipping the Hamming overall-parity position
`N` also recovers `d` but is classified `OVERALL_PARITY_ERROR`, not
single-error-corrected (see the counterexample), so the claim's "every
single codeword position" is too strong for the Hamming family. -/
theorem claim_C2 (d p : Nat) :
    (d < 2 ^ 32 → 1 ≤ p → p ≤ 38 →
      ecc.decode ecc.h32 (ecc.cwFlip (ecc.totalBits ecc.h32) (ecc.encode ecc.h32 d) p) =
        { corrected_data := d, syndrome := p, error_position := p,
          error_type := ecc.ErrorType.SINGLE_ERROR_CORRECTABLE,
          overall_parity := true, data_corrected := true }) ∧
    (d < 2 ^ 64 → 1 ≤ p → p ≤ 71 →
      ecc.decode ecc.h64 (ecc.cwFlip (ecc.totalBits ecc.h64) (ecc.encode ecc.h64 d) p) =
        { corrected_data := d, syndrome := p, error_position := p,
          error_type := ecc.ErrorType.SINGLE_ERROR_CORRECTABLE,
          overall_parity := true, data_corrected := true }) ∧
    (d < 2 ^ 51 → p < 63 →
      BCH63.decode (BCH63.encode d ^^^ 2 ^ p) =
        { corrected := BCH63.encode d, data := d, error_locations := [p],
          success := true, detected := true }) := by
  refine ⟨fun hd h1 h2 => ?_, fun hd h1 h2 => ?_, fun hd hp => BCH63.decode_single hd hp⟩
  · obtain ⟨hlen, hall, hdisj, hnd, hpow, htot, hplt⟩ := ecc.h32_facts
    have hp2' : p ≤ ecc.totalBits ecc.h32 - 1 := by omega
    have hpN : p ≤ ecc.totalBits ecc.h32 := by omega
    exact ecc.decode_single_flip ecc.h32 d p hlen hall hdisj hnd hd h1 hp2'
      (ecc.synInt_two_pow ecc.h32 p h1 hp2' (lt_of_le_of_lt hp2' hplt) hpow)
      (by rw [ecc.ovpSum_two_pow ecc.h32 (ecc.totalBits ecc.h32) h1 hpN, if_pos hpN])
  · obtain ⟨hlen, hall, hdisj, hnd, hpow, htot, hplt⟩ := ecc.h64_facts
    have hp2' : p ≤ ecc.totalBits ecc.h64 - 1 := by omega
    have hpN : p ≤ ecc.totalBits ecc.h64 := by omega
    exact ecc.decode_single_flip ecc.h64 d p hlen hall hdisj hnd hd h1 hp2'
      (ecc.synInt_two_pow ecc.h64 p h1 hp2' (lt_of_le_of_lt hp2' hplt) hpow)
      (by rw [ecc.ovpSum_two_pow ecc.h64 (ecc.totalBits ecc.h64) h1 hpN, if_pos hpN])

set_option maxRecDepth 40000 in
/-- C2 counterexample: flipping position `N = 39` (the overall-parity bit)
of a 32-bit Hamming codeword is classified `OVERALL_PARITY_ERROR`, not
`SINGLE_ERROR_CORRECTABLE`, although the data is still recovered. -/
theorem claim_C2_counterexample :
    ecc.decode ecc.h32 (ecc.cwFlip (ecc.totalBits ecc.h32) (ecc.encode ecc.h32 0)
        (ecc.totalBits ecc.h32)) =
      { corrected_data := 0, syndrome := 0, error_position := 39,
        error_type := ecc.ErrorType.OVERALL_PARITY_ERROR, overall_parity := true,
        data_corrected := true } ∧
    ecc.ErrorType.OVERALL_PARITY_ERROR ≠ ecc.ErrorType.SINGLE_ERROR_CORRECTABLE := by
  constructor
  · decide
  · decide

/-- C2 witness at `d = 0x12345678`, `p = 5` for the 32-bit Hamming codec. -/
theorem claim_C2_witness :
    ((0x12345678 : Nat) < 2 ^ 32 ∧ 1 ≤ 5 ∧ 5 ≤ 38) ∧
    ecc.decode ecc.h32 (ecc.cwFlip (ecc.totalBits ecc.h32)
        (ecc.encode ecc.h32 0x12345678) 5) =
      { corrected_data := 0x12345678, syndrome := 5, error_position := 5,
        error_type := ecc.ErrorType.SINGLE_ERROR_CORRECTABLE,
        overall_parity := true, data_corrected := true } :=
  ⟨⟨by decide, by decide, by decide⟩,
   (claim_C2 0x12345678 5).1 (by decide) (by decide) (by decide)⟩

/-- C3: BCH63 corrects every double error: for `i < j < 63`, decoding
`encode d` with bits `i` and `j` flipped succeeds, recovers `d`, and
reports `error_locations = [i, j]` (sorted, since `i < j`). -/
theorem claim_C3 (d i j : Nat) (hd : d < 2 ^ 51) (hij : i < j) (hj : j < 63) :
    BCH63.decode (BCH63.encode d ^^^ 2 ^ i ^^^ 2 ^ j) =
      { corrected := BCH63.encode d, data := d, error_locations := [i, j],
        success := true, detected := true } :=
  BCH63.decode_double hd hij hj

/-- C3 witness at `d = 0x123456789ABCD`, `(i, j) = (3, 40)`. -/
theorem claim_C3_witness :
    ((0x123456789ABCD : Nat) < 2 ^ 51 ∧ 3 < 40 ∧ 40 < 63) ∧
    BCH63.decode (BCH63.encode 0x123456789ABCD ^^^ 2 ^ 3 ^^^ 2 ^ 40) =
      { corrected := BCH63.encode 0x123456789ABCD, data := 0x123456789ABCD,
        error_locations := [3, 40], success := true, detected := true } :=
  ⟨⟨by decide, by decide, by decide⟩,
   claim_C3 0x123456789ABCD 3 40 (by decide) (by decide) (by decide)⟩

/-- C4: for both Hamming SEC-DED codecs the classification and corrective
action are exactly determined by the syndrome `S` and the overall parity
`P`: `(0, 0) ↦ NoError`, no flip; `(0, 1) ↦ OverallParityError`, flip
position `N`; `(≠0, 1) ↦ SingleErrorCorrectable`, flip position `S` (a
no-op on the extracted data when `S` is not a data position);
`(≠0, 0) ↦ DoubleErrorDetectable`, no flip. -/
theorem claim_C4 (received : Nat) :
    ((ecc.synInt ecc.h32 received = 0 ∧ ecc.ovp ecc.h32 received = false →
      ecc.decode ecc.h32 received =
        { corrected_data := ecc.extract ecc.h32 received,
          syndrome := ecc.synInt ecc.h32 received, error_position := 0,
          error_type := ecc.ErrorType.NO_ERROR, overall_parity := false,
          data_corrected := false }) ∧
     (ecc.synInt ecc.h32 received = 0 ∧ ecc.ovp ecc.h32 received = true →
      ecc.decode ecc.h32 received =
        { corrected_data := ecc.extract ecc.h32
            (ecc.cwFlip (ecc.totalBits ecc.h32) received (ecc.totalBits ecc.h32)),
          syndrome := ecc.synInt ecc.h32 received,
          error_position := ecc.totalBits ecc.h32,
          error_type := ecc.ErrorType.OVERALL_PARITY_ERROR, overall_parity := true,
          data_corrected := true }) ∧
     (ecc.synInt ecc.h32 received ≠ 0 ∧ ecc.ovp ecc.h32 received = true →
      (ecc.decode ecc.h32 received).error_type =
        ecc.ErrorType.SINGLE_ERROR_CORRECTABLE ∧
      (ecc.decode ecc.h32 received).corrected_data =
        ecc.extract ecc.h32 (ecc.cwFlip (ecc.totalBits ecc.h32) received
          (ecc.synInt ecc.h32 received)) ∧
      (ecc.decode ecc.h32 received).error_position = ecc.synInt ecc.h32 received) ∧
     (ecc.synInt ecc.h32 received ≠ 0 ∧ ecc.ovp ecc.h32 received = false →
      ecc.decode ecc.h32 received =
        { corrected_data := ecc.extract ecc.h32 received,
          syndrome := ecc.synInt ecc.h32 received, error_position := 0,
          error_type := ecc.ErrorType.DOUBLE_ERROR_DETECTABLE, overall_parity := false,
          data_corrected := false })) ∧
    ((ecc.synInt ecc.h64 received = 0 ∧ ecc.ovp ecc.h64 received = false →
      ecc.decode ecc.h64 received =
        { corrected_data := ecc.extract ecc.h64 received,
          syndrome := ecc.synInt ecc.h64 received, error_position := 0,
          error_type := ecc.ErrorType.NO_ERROR, overall_parity := false,
          data_corrected := false }) ∧
     (ecc.synInt ecc.h64 received = 0 ∧ ecc.ovp ecc.h64 received = true →
      ecc.decode ecc.h64 received =
        { corrected_data := ecc.extract ecc.h64
            (ecc.cwFlip (ecc.totalBits ecc.h64) received (ecc.totalBits ecc.h64)),
          syndrome := ecc.synInt ecc.h64 received,
          error_position := ecc.totalBits ecc.h64,
          error_type := ecc.ErrorType.OVERALL_PARITY_ERROR, overall_parity := true,
          data_corrected := true }) ∧
     (ecc.synInt ecc.h64 received ≠ 0 ∧ ecc.ovp ecc.h64 received = true →
      (ecc.decode ecc.h64 received).error_type =
        ecc.ErrorType.SINGLE_ERROR_CORRECTABLE ∧
      (ecc.decode ecc.h64 received).corrected_data =
        ecc.extract ecc.h64 (ecc.cwFlip (ecc.totalBits ecc.h64) received
          (ecc.synInt ecc.h64 received)) ∧
      (ecc.decode ecc.h64 received).error_position = ecc.synInt ecc.h64 received) ∧
     (ecc.synInt ecc.h64 received ≠ 0 ∧ ecc.ovp ecc.h64 received = false →
      ecc.decode ecc.h64 received =
        { corrected_data := ecc.extract ecc.h64 received,
          syndrome := ecc.synInt ecc.h64 received, error_position := 0,
          error_type := ecc.ErrorType.DOUBLE_ERROR_DETECTABLE, overall_parity := false,
          data_corrected := false })) :=
  ⟨ecc.hamming_table ecc.h32 received ecc.h32_facts.1,
   ecc.hamming_table ecc.h64 received ecc.h64_facts.1⟩

/-- C4 witness at `received = 0` (syndrome 0, even parity: NoError row). -/
theorem claim_C4_witness :
    (ecc.synInt ecc.h32 0 = 0 ∧ ecc.ovp ecc.h32 0 = false) ∧
    ecc.decode ecc.h32 0 =
      { corrected_data := ecc.extract ecc.h32 0, syndrome := ecc.synInt ecc.h32 0,
        error_position := 0, error_type := ecc.ErrorType.NO_ERROR,
        overall_parity := false, data_corrected := false } :=
  ⟨⟨by decide, by decide⟩, (claim_C4 0).1.1 ⟨by decide, by decide⟩⟩

/-- C5 (amended): for SecDaec64 (canonical `BitVector` variant) with the
unit-test data word `0x12345678abcdef`, flipping each of the 63 consecutive
data-position pairs of the codeword yields `detected = true` — the property
the repository's unit test actually asserts.  The claimed stronger
behaviour (adjacent pairs corrected to the original data, non-adjacent
pairs detected-only) is false: see the counterexample. -/
theorem claim_C5 (i : Nat) (hi : i < 63) :
    (sd.decode (sd.encode 0x12345678abcdef ^^^
      (1 <<< sd.getDataPositions.getD i 0) ^^^
      (1 <<< sd.getDataPositions.getD (i + 1) 0))).detected = true := by
  rw [sd.encode_testvec, sd.decode_detected]
  exact sd.pairs_detected i hi

set_option maxRecDepth 40000 in
set_option maxHeartbeats 4000000 in
/-- C5 counterexample: flipping the adjacent data-bit pair at codeword
positions 5 and 6 of `encode 0` (data bits 2 and 3) returns
`corrected = true` but data `12`, not the original `0`; and flipping the
non-adjacent pair at positions 5 and 13 also returns `corrected = true`
instead of detected-only. -/
theorem claim_C5_counterexample :
    (sd.decode (sd.encode 0 ^^^ (1 <<< 5) ^^^ (1 <<< 6))).corrected = true ∧
    (sd.decode (sd.encode 0 ^^^ (1 <<< 5) ^^^ (1 <<< 6))).data = 12 ∧
    (12 : Nat) ≠ 0 ∧
    (sd.decode (sd.encode 0 ^^^ (1 <<< 5) ^^^ (1 <<< 13))).corrected = true := by
  refine ⟨by decide, by decide, by decide, by decide⟩

set_option maxRecDepth 40000 in
/-- C5 witness at `i = 0`. -/
theorem claim_C5_witness :
    0 < 63 ∧
    (sd.decode (sd.encode 0x12345678abcdef ^^^
      (1 <<< sd.getDataPositions.getD 0 0) ^^^
      (1 <<< sd.getDataPositions.getD (0 + 1) 0))).detected = true :=
  ⟨by decide, claim_C5 0 (by decide)⟩

/-- C6: `BCH63.decode` returns `success = true` exactly when the four
syndromes of the codeword it returns are all zero — either the received
word already had all-zero syndromes, or the syndromes recomputed after
flipping the Chien-search roots are all zero; in every other branch the
returned codeword is the received word with nonzero syndromes and
`success = false`. -/
theorem claim_C6 (received : Nat) :
    (BCH63.decode received).success = true ↔
      (BCH63.computeSyndromes ((BCH63.decode received).corrected)).all (· = 0) = true := by
  by_cases h1 : (BCH63.computeSyndromes received).all (· = 0) = true
  · rw [BCH63.decode_branch1 h1]
    simp [h1]
  by_cases h2 : (BCH63.berlekampMassey (BCH63.computeSyndromes received)).length - 1 = 0 ∨
      2 < (BCH63.berlekampMassey (BCH63.computeSyndromes received)).length - 1
  · rw [BCH63.decode_branch_fail2 h1 h2]
    simp [h1]
  by_cases h3 : (BCH63.chienSearch (BCH63.berlekampMassey
      (BCH63.computeSyndromes received))).length ≠
      (BCH63.berlekampMassey (BCH63.computeSyndromes received)).length - 1
  · rw [BCH63.decode_branch_fail3 h1 h2 h3]
    simp [h1]
  by_cases h4 : (BCH63.computeSyndromes
      ((BCH63.chienSearch (BCH63.berlekampMassey
        (BCH63.computeSyndromes received))).foldl BCH63.flipBit received)).all
      (· = 0) = true
  · rw [BCH63.decode_branch4 h1 h2 h3 h4]
    simp [h4]
  · rw [BCH63.decode_branch_fail5 h1 h2 h3 h4]
    simp [h1]

/-- C7: every weight-3 error pattern on a BCH63 codeword is detected
(`detected = true`, i.e. the syndromes are not all zero), and whenever such
a decode nonetheless returns `success = true`, the recovered data differs
from the original message. -/
theorem claim_C7 (d i j k : Nat) (hd : d < 2 ^ 51) (hij : i < j) (hjk : j < k)
    (hk : k < 63) :
    (BCH63.decode (BCH63.encode d ^^^ 2 ^ i ^^^ 2 ^ j ^^^ 2 ^ k)).detected = true ∧
    ((BCH63.decode (BCH63.encode d ^^^ 2 ^ i ^^^ 2 ^ j ^^^ 2 ^ k)).success = true →
      (BCH63.decode (BCH63.encode d ^^^ 2 ^ i ^^^ 2 ^ j ^^^ 2 ^ k)).data ≠ d) :=
  ⟨(BCH63.decode_detected_iff _).mpr (BCH63.syndromes_triple_nonzero hd hij hjk hk),
   fun hs => BCH63.triple_success_data_ne hd hij hjk hk hs⟩

set_option maxRecDepth 40000 in
/-- C7 witness at `d = 0`, `(i, j, k) = (0, 1, 2)`. -/
theorem claim_C7_witness :
    ((0 : Nat) < 2 ^ 51 ∧ 0 < 1 ∧ 1 < 2 ∧ 2 < 63) ∧
    ((BCH63.decode (BCH63.encode 0 ^^^ 2 ^ 0 ^^^ 2 ^ 1 ^^^ 2 ^ 2)).detected = true ∧
     ((BCH63.decode (BCH63.encode 0 ^^^ 2 ^ 0 ^^^ 2 ^ 1 ^^^ 2 ^ 2)).success = true →
       (BCH63.decode (BCH63.encode 0 ^^^ 2 ^ 0 ^^^ 2 ^ 1 ^^^ 2 ^ 2)).data ≠ 0)) :=
  ⟨⟨by decide, by decide, by decide, by decide⟩,
   claim_C7 0 0 1 2 (by decide) (by decide) (by decide) (by decide)⟩

/-- C8 (amended): for the guarded bit containers — the Hamming
`CodeWordStorage` operations, the `BitVector` of the 64-bit variant
(fixed 128-bit backing), and the BCH63 codeword (N = 63) — every
out-of-range position makes `get` return `false` and makes `set`/`flip`
leave the container unchanged.  The 32-bit `CodeWord` of `SecDaec64.hpp`
is **not** guarded: see the counterexample. -/
theorem claim_C8 :
    (∀ (N cw pos : Nat) (v : Bool), ¬(1 ≤ pos ∧ pos ≤ N) →
      ecc.cwGet N cw pos = false ∧ ecc.cwSet N cw pos v = cw ∧
      ecc.cwFlip N cw pos = cw) ∧
    (∀ (w p : Nat) (v : Bool), 128 ≤ p →
      sd.bvGet w p = false ∧ sd.bvSet w p v = w) ∧
    (∀ (cw pos : Nat) (v : Bool), 63 ≤ pos →
      BCH63.getBit cw pos = false ∧ BCH63.setBit cw pos v = cw ∧
      BCH63.flipBit cw pos = cw) := by
  refine ⟨fun N cw pos v h => ⟨?_, ?_, ?_⟩, fun w p v h => ⟨?_, ?_⟩,
    fun cw pos v h => ⟨?_, ?_, ?_⟩⟩
  · simp [ecc.cwGet, h]
  · simp [ecc.cwSet, h]
  · simp [ecc.cwFlip, h]
  · simp [sd.bvGet, Nat.not_lt.mpr h]
  · simp [sd.bvSet, Nat.not_lt.mpr h]
  · simp [BCH63.getBit, Nat.not_lt.mpr h]
  · simp [BCH63.setBit, Nat.not_lt.mpr h]
  · simp [BCH63.flipBit, Nat.not_lt.mpr h]

/-- C8 counterexample: the 32-bit `CodeWord` of `SecDaec64.hpp`
(TOTAL_BITS = 39) has no range guard: setting the out-of-range position 40
on the all-zero word changes it to `2 ^ 39`, and `get`/`flip` at 40 are
likewise not no-ops. -/
theorem claim_C8_counterexample :
    39 < 40 ∧ cw32.setBit 0 40 true = 2 ^ 39 ∧ cw32.setBit 0 40 true ≠ 0 ∧
    cw32.flipBit 0 40 ≠ 0 ∧ cw32.getBit (2 ^ 39) 40 = true := by
  decide

/-- C8 witness: position 40 is out of range for N = 39, and the guarded
Hamming storage treats it as a no-op on the word 5. -/
theorem claim_C8_witness :
    ¬(1 ≤ 40 ∧ 40 ≤ 39) ∧
    (ecc.cwGet 39 5 40 = false ∧ ecc.cwSet 39 5 40 true = 5 ∧
     ecc.cwFlip 39 5 40 = 5) :=
  ⟨by decide, claim_C8.1 39 5 40 true (by decide)⟩

/-- C9: whenever `BCH63.decode` returns `success = false`, the result is
unchanged relative to the input: `corrected` is the received word,
`data = extractData received`, and `error_locations = []`. -/
theorem claim_C9 (received : Nat)
    (h : (BCH63.decode received).success = false) :
    (BCH63.decode received).corrected = received ∧
    (BCH63.decode received).data = BCH63.extractData received ∧
    (BCH63.decode received).error_locations = [] := by
  by_cases h1 : (BCH63.computeSyndromes received).all (· = 0) = true
  · rw [BCH63.decode_branch1 h1] at h
    simp at h
  by_cases h2 : (BCH63.berlekampMassey (BCH63.computeSyndromes received)).length - 1 = 0 ∨
      2 < (BCH63.berlekampMassey (BCH63.computeSyndromes received)).length - 1
  · rw [BCH63.decode_branch_fail2 h1 h2]
    exact ⟨rfl, rfl, rfl⟩
  by_cases h3 : (BCH63.chienSearch (BCH63.berlekampMassey
      (BCH63.computeSyndromes received))).length ≠
      (BCH63.berlekampMassey (BCH63.computeSyndromes received)).length - 1
  · rw [BCH63.decode_branch_fail3 h1 h2 h3]
    exact ⟨rfl, rfl, rfl⟩
  by_cases h4 : (BCH63.computeSyndromes
      ((BCH63.chienSearch (BCH63.berlekampMassey
        (BCH63.computeSyndromes received))).foldl BCH63.flipBit received)).all
      (· = 0) = true
  · rw [BCH63.decode_branch4 h1 h2 h3 h4] at h
    simp at h
  · rw [BCH63.decode_branch_fail5 h1 h2 h3 h4]
    exact ⟨rfl, rfl, rfl⟩

set_option maxRecDepth 40000 in
set_option maxHeartbeats 4000000 in
/-- C9 witness at `received = 7`, a word the decoder fails on. -/
theorem claim_C9_witness :
    (BCH63.decode 7).success = false ∧
    ((BCH63.decode 7).corrected = 7 ∧
     (BCH63.decode 7).data = BCH63.extractData 7 ∧
     (BCH63.decode 7).error_locations = []) :=
  ⟨by decide, claim_C9 7 (by decide)⟩

set_option maxRecDepth 40000 in
set_option maxHeartbeats 4000000 in
/-- C10: for both Hamming SEC-DED codecs there exist received words with
nonzero syndrome, odd overall parity, and syndrome exceeding `N - 1`
(witnesses: three-bit words with syndrome 39 resp. 73); every such word is
classified `SINGLE_ERROR_CORRECTABLE`, yet the flip is suppressed by the
range guard: `data_corrected = false` and the returned data is extracted
from the unmodified received word. -/
theorem claim_C10 :
    (38 < ecc.synInt ecc.h32 (2 ^ 0 ^^^ 2 ^ 5 ^^^ 2 ^ 31) ∧
      ecc.ovp ecc.h32 (2 ^ 0 ^^^ 2 ^ 5 ^^^ 2 ^ 31) = true) ∧
    (71 < ecc.synInt ecc.h64 (2 ^ 0 ^^^ 2 ^ 7 ^^^ 2 ^ 63) ∧
      ecc.ovp ecc.h64 (2 ^ 0 ^^^ 2 ^ 7 ^^^ 2 ^ 63) = true) ∧
    (∀ r : Nat, 38 < ecc.synInt ecc.h32 r → ecc.ovp ecc.h32 r = true →
      ecc.decode ecc.h32 r =
        { corrected_data := ecc.extract ecc.h32 r,
          syndrome := ecc.synInt ecc.h32 r,
          error_position := ecc.synInt ecc.h32 r,
          error_type := ecc.ErrorType.SINGLE_ERROR_CORRECTABLE,
          overall_parity := true, data_corrected := false }) ∧
    (∀ r : Nat, 71 < ecc.synInt ecc.h64 r → ecc.ovp ecc.h64 r = true →
      ecc.decode ecc.h64 r =
        { corrected_data := ecc.extract ecc.h64 r,
          syndrome := ecc.synInt ecc.h64 r,
          error_position := ecc.synInt ecc.h64 r,
          error_type := ecc.ErrorType.SINGLE_ERROR_CORRECTABLE,
          overall_parity := true, data_corrected := false }) := by
  refine ⟨⟨by decide, by decide⟩, ⟨by decide, by decide⟩,
    fun r hS hP => ?_, fun r hS hP => ?_⟩
  · exact ecc.decode_syndrome_high ecc.h32 r
      (by have ht : ecc.totalBits ecc.h32 = 39 := rfl; omega) hP
  · exact ecc.decode_syndrome_high ecc.h64 r
      (by have ht : ecc.totalBits ecc.h64 = 72 := rfl; omega) hP

set_option maxRecDepth 40000 in
set_option maxHeartbeats 4000000 in
/-- C10 witness: the 32-bit word with bits 0, 5, 31 set has syndrome 39 and
odd parity, and decodes to the no-flip single-error result. -/
theorem claim_C10_witness :
    (38 < ecc.synInt ecc.h32 (2 ^ 0 ^^^ 2 ^ 5 ^^^ 2 ^ 31) ∧
     ecc.ovp ecc.h32 (2 ^ 0 ^^^ 2 ^ 5 ^^^ 2 ^ 31) = true) ∧
    ecc.decode ecc.h32 (2 ^ 0 ^^^ 2 ^ 5 ^^^ 2 ^ 31) =
      { corrected_data := ecc.extract ecc.h32 (2 ^ 0 ^^^ 2 ^ 5 ^^^ 2 ^ 31),
        syndrome := ecc.synInt ecc.h32 (2 ^ 0 ^^^ 2 ^ 5 ^^^ 2 ^ 31),
        error_position := ecc.synInt ecc.h32 (2 ^ 0 ^^^ 2 ^ 5 ^^^ 2 ^ 31),
        error_type := ecc.ErrorType.SINGLE_ERROR_CORRECTABLE,
        overall_parity := true, data_corrected := false } :=
  ⟨⟨by decide, by decide⟩,
   claim_C10.2.2.1 (2 ^ 0 ^^^ 2 ^ 5 ^^^ 2 ^ 31) (by decide) (by decide)⟩
